import Mathlib

/-!
# ISL gloss-translation engine and player (`src/src/grammar.js`, `src/src/constants.js`,
`src/src/player.js`, `src/src/fingerspell.js`)

A shallow embedding of the gloss-translation engine (lemmatizer, alias table,
longest-match segmenter, semantic fallback with its index and cache, gloss
sequence builder) and of the player (clip normalisation, animation clock,
sentence scheduler, fingerspelling overlay), followed by theorems about them.

Conventions of the embedding.
* A JavaScript string is a Lean `String`; its operations are defined on the
  character list `String.data`.  `jsLength` counts UTF-16 code units as
  `String.prototype.length` does.
* A property read `table[key]` on an object literal also sees the members
  inherited from `Object.prototype`; `jsGet` models that read and `JSValue`
  keeps such a non-string result apart from a string.
* A JavaScript function that can throw returns `Option`; `none` is the thrown
  `TypeError` (for the `async` functions: the rejected promise).
* The arithmetic of embeddings and similarity scores is abstract.  A clock
  time or frame rate is the rational that the double stands for, and every
  arithmetic operation of the player on them is the exact operation followed
  by the rounding to the nearest double (`toDouble`).
* An `async` function is cut at its `await`s: one definition per stretch of
  code that runs without giving up control, and an event for each promise that
  resolves.  Recursion that is not bounded by the data takes a `fuel` bound.
-/

set_option autoImplicit false

namespace ISL

/-! ## JavaScript string primitives -/

/-- Source `s.length`: the number of UTF-16 code units of `s`. -/
def jsLength (s : String) : Nat :=
  (s.data.map fun c => if c.toNat < 65536 then 1 else 2).sum

/-- Source `s.toLowerCase()`, exact for a string whose cased letters are ASCII: the letters
`A` to `Z` are mapped, every other character is left as it is. -/
def toLowerCase (s : String) : String :=
  ⟨s.data.map Char.toLower⟩

/-- Source `s.endsWith(suffix)`. -/
def endsWith (s suffix : String) : Bool :=
  suffix.data.isSuffixOf s.data

/-- Source `s.slice(0, s.length - suffix.length)` for a string `s` that ends with `suffix`. -/
def dropSuffix (s suffix : String) : String :=
  ⟨s.data.take (s.data.length - suffix.data.length)⟩

/-- Source `s[s.length - 1]` as a string (empty for the empty string). -/
def lastCharOf (s : String) : String :=
  ⟨s.data.drop (s.data.length - 1)⟩

/-- The characters matched by `\s` and removed by `trim()`. -/
def isWhiteSpace (c : Char) : Bool :=
  c.toNat ∈ [9, 10, 11, 12, 13, 32, 160, 5760, 8232, 8233, 8239, 8287, 12288, 65279]
    || (8192 ≤ c.toNat && c.toNat ≤ 8202)

/-- Source `s.trim()`. -/
def jsTrim (s : String) : String :=
  ⟨((s.data.dropWhile isWhiteSpace).reverse.dropWhile isWhiteSpace).reverse⟩

/-- Source `s.split(' ')` on character lists. -/
def splitSpaceChars : List Char → List (List Char)
  | [] => [[]]
  | c :: cs =>
    if c = ' ' then [] :: splitSpaceChars cs
    else
      match splitSpaceChars cs with
      | [] => [[c]]
      | w :: ws => (c :: w) :: ws

/-- Source `s.split(' ')`. -/
def splitSpace (s : String) : List String :=
  (splitSpaceChars s.data).map String.mk

/-- Source `words.join(' ')` for an array of strings. -/
def joinSpace : List String → String
  | [] => ""
  | [w] => w
  | w :: ws => w ++ " " ++ joinSpace ws

/-- Source `xs.slice(start, stop)` for `0 ≤ start ≤ stop`. -/
def slice {α : Type} (xs : List α) (start stop : Nat) : List α :=
  (xs.drop start).take (stop - start)

/-! ## JavaScript values read from object literals -/

/-- A value the engine handles where it expects a string: a string, or the member of
`Object.prototype` of the given name (a function or an object, never a string). -/
inductive JSValue where
  | str (s : String)
  | inherited (key : String)
deriving DecidableEq, Repr

/-- The property names every object literal inherits from `Object.prototype`. -/
def OBJECT_PROTOTYPE_KEYS : List String :=
  ["constructor", "__defineGetter__", "__defineSetter__", "hasOwnProperty",
   "__lookupGetter__", "__lookupSetter__", "isPrototypeOf", "propertyIsEnumerable",
   "toString", "valueOf", "__proto__", "toLocaleString"]

/-- The property read `table[key]` on an object literal with string values: an own property,
else an inherited one, else `undefined` (`none`). -/
def jsGet (table : List (String × String)) (key : String) : Option JSValue :=
  match table.lookup key with
  | some v => some (.str v)
  | none => if key ∈ OBJECT_PROTOTYPE_KEYS then some (.inherited key) else none

/-- JavaScript truthiness of a value: every object is truthy, a string unless empty. -/
def JSValue.truthy : JSValue → Bool
  | .str s => s != ""
  | .inherited _ => true

/-- Truthiness of a possibly `undefined` value. -/
def truthy? : Option JSValue → Bool
  | some v => v.truthy
  | none => false

/-- The operator `a || b` on possibly `undefined` values. -/
def jsOr (a b : Option JSValue) : Option JSValue :=
  if truthy? a then a else b

/-- The string `Array.prototype.join` makes of an element. -/
def JSValue.toJSString : JSValue → String
  | .str s => s
  | .inherited key =>
    if key = "__proto__" then "[object Object]"
    else if key = "constructor" then "function Object() \x7b [native code] \x7d"
    else "function " ++ key ++ "() \x7b [native code] \x7d"

/-! ## Constants (`constants.js`) -/

def AVAILABLE_WORDS : List String :=
  ["alright", "beautiful", "bed", "bedroom", "blind", "cell phone", "chair",
   "clock", "computer", "deaf", "door", "dream", "dress", "fan", "friday",
   "good afternoon", "good morning", "happy", "hat", "hello", "how are you",
   "lamp", "loud", "monday", "quiet", "sad", "saturday", "shirt", "skirt",
   "suit", "sunday", "table", "thursday", "today", "tuesday", "ugly",
   "wednesday", "window"]

def TIME_WORDS : List String :=
  ["today", "tomorrow", "yesterday", "monday", "tuesday", "wednesday",
   "thursday", "friday", "saturday", "sunday"]

def FUNCTION_WORDS : List String :=
  ["a", "an", "the", "is", "am", "are", "was", "were", "be", "been",
   "will", "would", "can", "could", "should", "shall", "may", "might",
   "to", "at", "in", "on", "of", "for", "with", "from", "by", "about",
   "i", "you", "he", "she", "it", "we", "they", "me", "him", "her",
   "us", "them", "my", "your", "our", "their", "mine", "yours", "ours", "theirs", "its"]

def SEMANTIC_ALIASES : List (String × List String) :=
  [("alright", ["okay", "ok", "fine"]),
   ("beautiful", ["pretty", "gorgeous", "lovely"]),
   ("bed", ["bunk", "cot"]),
   ("bedroom", ["bed room", "room", "sleeping room"]),
   ("blind", ["visionless", "sightless", "visually impaired", "vision impaired"]),
   ("cell phone", ["mobile phone", "mobile", "phone", "smartphone", "cellphone"]),
   ("chair", ["seat", "stool", "armchair"]),
   ("clock", ["watch", "timepiece"]),
   ("computer", ["pc", "laptop", "desktop", "computer system"]),
   ("deaf", ["hearing impaired", "hard of hearing"]),
   ("door", ["gate", "entryway"]),
   ("dream", ["vision", "fantasy", "imagine"]),
   ("dress", ["gown", "frock"]),
   ("fan", ["cooler", "blower", "ceiling fan"]),
   ("friday", ["fri"]),
   ("good afternoon", ["afternoon greeting", "good noon"]),
   ("good morning", ["morning greeting", "gm", "good day"]),
   ("happy", ["glad", "joyful", "cheerful", "pleased"]),
   ("hat", ["cap", "beanie"]),
   ("hello", ["hi", "hey", "greetings"]),
   ("how are you", ["how r u", "how are ya", "how you doing"]),
   ("lamp", ["light", "lantern"]),
   ("loud", ["noisy", "booming"]),
   ("monday", ["mon"]),
   ("quiet", ["silent", "hushed", "calm"]),
   ("sad", ["unhappy", "upset", "sorrowful"]),
   ("saturday", ["sat"]),
   ("shirt", ["top", "tshirt", "t-shirt", "tee"]),
   ("skirt", ["mini", "skirts", "pleated skirt"]),
   ("suit", ["blazer", "tuxedo", "coat and pants"]),
   ("sunday", ["sun"]),
   ("table", ["desk", "dining table"]),
   ("thursday", ["thu"]),
   ("today", ["present day", "nowadays"]),
   ("tuesday", ["tue"]),
   ("ugly", ["unattractive", "plain"]),
   ("wednesday", ["wed"]),
   ("window", ["pane", "glass window"])]

def LEMMA_OVERRIDES : List (String × String) :=
  [("better", "good"), ("best", "good"), ("worse", "bad"), ("worst", "bad"),
   ("happier", "happy"), ("happiest", "happy"), ("sadder", "sad"), ("saddest", "sad"),
   ("children", "child"), ("men", "man"), ("women", "woman"), ("people", "person"),
   ("phones", "phone"), ("cellphones", "cellphone")]

/-- One entry of `LEMMA_SUFFIX_RULES`. -/
structure SuffixRule where
  suffix : String
  replacement : String
  min : Nat
  skipDouble : Bool
deriving DecidableEq, Repr

def LEMMA_SUFFIX_RULES : List SuffixRule :=
  [⟨"ies", "y", 4, false⟩,
   ⟨"ves", "f", 4, false⟩,
   ⟨"ing", "", 5, false⟩,
   ⟨"ed", "", 4, false⟩,
   ⟨"est", "", 5, false⟩,
   ⟨"er", "", 4, false⟩,
   ⟨"s", "", 4, true⟩]

def FINGERSPELLING_ENABLED : Bool := true

/-! ## Lemmatizer (`grammar.js`, lines 49-62) -/

/-- The `for` loop of `lemmatizeWord` over the remaining rules; `lower` is returned when the
rules are exhausted. -/
def lemmatizeLoop (lower : String) : List SuffixRule → String
  | [] => lower
  | rule :: rest =>
    if !endsWith lower rule.suffix then lemmatizeLoop lower rest
    else if jsLength lower ≤ rule.min then lemmatizeLoop lower rest
    else if rule.skipDouble && endsWith lower (rule.suffix ++ lastCharOf rule.suffix) then
      lemmatizeLoop lower rest
    else if rule.suffix = "s" && endsWith lower "ss" then lemmatizeLoop lower rest
    else
      let stem := dropSuffix lower rule.suffix ++ rule.replacement
      if 2 ≤ jsLength stem then stem else lemmatizeLoop lower rest

/-- Source `lemmatizeWord(word)`. The override read `LEMMA_OVERRIDES[lower]` is a property
read on an object literal, so the result is the inherited member when `lower` names one. -/
def lemmatizeWord (word : String) : JSValue :=
  if word = "" then .str ""
  else
    let lower := toLowerCase word
    if truthy? (jsGet LEMMA_OVERRIDES lower) then
      (jsGet LEMMA_OVERRIDES lower).getD (.str "")
    else .str (lemmatizeLoop lower LEMMA_SUFFIX_RULES)

/-! ## Alias table (`grammar.js`, lines 10 and 35-47) -/

/-- The assignment `map[key] = value` on an object with string values, the object being
the list of its bindings, newest first: a read (`List.lookup`) takes the newest binding of
the key, which is the value last assigned. -/
def setKey (map : List (String × String)) (key value : String) : List (String × String) :=
  (key, value) :: map

/-- Source `buildAliasMap(table)`. -/
def buildAliasMap (table : List (String × List String)) : List (String × String) :=
  table.foldl
    (fun map entry =>
      let canonical := entry.1
      let key := toLowerCase (jsTrim canonical)
      let map1 := if key ≠ "" then setKey map key canonical else map
      entry.2.foldl
        (fun m variant =>
          let aliasKey := toLowerCase (jsTrim variant)
          if aliasKey ≠ "" then setKey m aliasKey canonical else m)
        map1)
    []

def ALIAS_TO_CANONICAL : List (String × String) :=
  buildAliasMap SEMANTIC_ALIASES

/-! ## Span resolution (`grammar.js`, lines 64-70) -/

/-- The provenance of a resolved token; `lemma_` stands for `'lemma'`. -/
inductive Source where
  | exact
  | lemma_
  | alias
  | semantic
deriving DecidableEq, Repr

/-- The object `resolveCanonicalPhrase` returns. -/
structure Resolved where
  canonical : JSValue
  source : Source
deriving DecidableEq, Repr

/-- Source `resolveCanonicalPhrase(candidate, candidateLemma)`; `none` is `null`. -/
def resolveCanonicalPhrase (candidate candidateLemma : String) : Option Resolved :=
  if candidate ∈ AVAILABLE_WORDS then some ⟨.str candidate, .exact⟩
  else if candidateLemma ≠ "" ∧ candidateLemma ∈ AVAILABLE_WORDS then
    some ⟨.str candidateLemma, .lemma_⟩
  else if truthy? (jsGet ALIAS_TO_CANONICAL candidate) then
    (jsGet ALIAS_TO_CANONICAL candidate).map fun v => ⟨v, .alias⟩
  else if candidateLemma ≠ "" ∧ truthy? (jsGet ALIAS_TO_CANONICAL candidateLemma) then
    (jsGet ALIAS_TO_CANONICAL candidateLemma).map fun v => ⟨v, .alias⟩
  else none

/-! ## Tokens -/

/-- The `kind` of a token: `'match'`, `'semantic'` or `'raw'`. -/
inductive Kind where
  | matched
  | semantic
  | raw
deriving DecidableEq, Repr

/-- A token object; an absent property is `none` and `lemma_` is the property `lemma`. The
type `σ` is that of similarity scores (floating-point numbers in the source). -/
structure Token (σ : Type) where
  kind : Kind
  canonical : Option JSValue
  source : Option Source
  original : String
  normalized : Option String
  lemma_ : Option JSValue
  score : Option σ
  accepted : Bool
deriving DecidableEq, Repr

/-- The token pushed for a resolved span (lines 347-353). -/
def matchToken {σ : Type} (resolved : Resolved) (original : String) : Token σ :=
  { kind := .matched, canonical := some resolved.canonical, source := some resolved.source,
    original := original, normalized := none, lemma_ := none, score := none, accepted := true }

/-- The token pushed for an unresolved word that is not a function word (lines 363-369). -/
def rawToken {σ : Type} (original normalized : String) (lemma_ : Option JSValue) : Token σ :=
  { kind := .raw, canonical := none, source := none, original := original,
    normalized := some normalized, lemma_ := lemma_, score := none, accepted := false }

/-! ## Segmenter (`grammar.js`, lines 331-373) -/

/-- The span forms the inner loop builds at `position` for length `len`: `spanNormalized`
and `spanLemma`. -/
def spanForms (normalizedWords : List String) (lemmaWords : List JSValue)
    (position len : Nat) : String × String :=
  (joinSpace (slice normalizedWords position (position + len)),
   joinSpace ((slice lemmaWords position (position + len)).map JSValue.toJSString))

/-- The resolution of the span of length `len` at `position`. -/
def resolveSpan (normalizedWords : List String) (lemmaWords : List JSValue)
    (position len : Nat) : Option Resolved :=
  resolveCanonicalPhrase (spanForms normalizedWords lemmaWords position len).1
    (spanForms normalizedWords lemmaWords position len).2

/-- The inner loop `for (len = ...; len >= 1; len--)` started at length `len`: the first
length that resolves, with its resolution. -/
def findMatch (normalizedWords : List String) (lemmaWords : List JSValue) (position : Nat) :
    Nat → Option (Nat × Resolved)
  | 0 => none
  | len + 1 =>
    match resolveSpan normalizedWords lemmaWords position (len + 1) with
    | some resolved => some (len + 1, resolved)
    | none => findMatch normalizedWords lemmaWords position len

/-- The loop `while (position < maxLen)`; each iteration uses one unit of `fuel` and moves
the cursor forward, so `maxLen` units are enough. Returns the tokens pushed from `position` on. -/
def segmentLoop {σ : Type} (rawWords normalizedWords : List String) (lemmaWords : List JSValue) :
    Nat → Nat → List (Token σ)
  | 0, _ => []
  | fuel + 1, position =>
    if position < normalizedWords.length then
      match findMatch normalizedWords lemmaWords position (normalizedWords.length - position) with
      | some (len, resolved) =>
        matchToken resolved (joinSpace (slice rawWords position (position + len)))
          :: segmentLoop rawWords normalizedWords lemmaWords fuel (position + len)
      | none =>
        let currentWord := normalizedWords.getD position ""
        if currentWord ∉ FUNCTION_WORDS then
          rawToken (rawWords.getD position "") currentWord (lemmaWords.get? position)
            :: segmentLoop rawWords normalizedWords lemmaWords fuel (position + 1)
        else segmentLoop rawWords normalizedWords lemmaWords fuel (position + 1)
    else []

/-- Lines 332-373: the tokens the segmenter pushes for the word sequence `rawWords`. -/
def segmentWords {σ : Type} (rawWords : List String) : List (Token σ) :=
  let normalizedWords := rawWords.map toLowerCase
  let lemmaWords := normalizedWords.map lemmatizeWord
  segmentLoop rawWords normalizedWords lemmaWords normalizedWords.length 0

/-! ## Sentence cleaning (`grammar.js`, lines 313-331) -/

/-- The keys of `HINDI_TO_ENGLISH_MAP` with their values. -/
def HINDI_TO_ENGLISH_MAP : List (String × String) :=
  [("आज सोमवार को मैं मोबाइल और कंप्यूटर देख रहा हूँ।", "Monday mobile computer"),
   ("सुबह बेडरूम में घड़ी और लैम्प चालू थे।", "bedroom clock lamp"),
   ("मेज़ पर पेन, किताब और अख़बार पड़े हैं।", "pen book newspaper"),
   ("मैंने आज कमीज़ और सूट पहना है।", "shirt suit"),
   ("रसोई में पंखा और लैम्प चालू है।", "kitchen fan lamp"),
   ("यह तस्वीर बहुत सुंदर है।", "photograph"),
   ("यह पोशाक सस्ती नहीं, महंगी है।", "dress"),
   ("पुरुष और महिला दोनों यहाँ बैठे हैं।", "male female"),
   ("बंदूक और युद्ध से शांति नहीं मिलती।", "gun war peace"),
   ("अंधे और बहिरे लोगों में भी ऊर्जा होती है।", "blind deaf energy")]

/-- Source `.replace(/\s+/g, ' ')`; `inRun` tells that the previous character was white
space. -/
def collapseWhiteSpace : Bool → List Char → List Char
  | _, [] => []
  | inRun, c :: cs =>
    if isWhiteSpace c then
      if inRun then collapseWhiteSpace true cs else ' ' :: collapseWhiteSpace true cs
    else c :: collapseWhiteSpace false cs

/-- Lines 323-328: the four `replace` calls and the final `trim`. -/
def cleanSentence (original : String) : String :=
  let step1 := original.data.filter fun c => c ∉ ['.', ',', '!', '?', ';', ':']
  let step2 := step1.filter fun c => c ∉ ['\'', '’', '"']
  let step3 := step2.map fun c => if c = '-' ∨ c = '/' then ' ' else c
  jsTrim ⟨collapseWhiteSpace false step3⟩

/-- Lines 313-331: the word sequence `rawWords` of a sentence. The outer `none` is the
`TypeError` of `original.replace` when `HINDI_TO_ENGLISH_MAP[original]` is an inherited
member; the inner `none` is the early return with no tokens. -/
def rawWordsOf (sentence : String) : Option (Option (List String)) :=
  let original := jsTrim sentence
  if original = "" then some none
  else
    match (if truthy? (jsGet HINDI_TO_ENGLISH_MAP original)
            then jsGet HINDI_TO_ENGLISH_MAP original else some (.str original)) with
    | some (.str text) =>
      let cleaned := cleanSentence text
      if cleaned = "" then some none else some (some (splitSpace cleaned))
    | _ => none

/-! ## Gloss sequence builder (`grammar.js`, lines 72-96) -/

/-- Source `isTimePhrase(phrase)` for a string. -/
def isTimePhrase (phrase : String) : Bool :=
  (splitSpace phrase).any fun word => word ∈ TIME_WORDS

/-- The `filter` predicate of `buildGlossSequence` (lines 78-82). -/
def isSelected {σ : Type} (t : Token σ) : Bool :=
  if t.kind = .matched ∨ t.kind = .semantic then t.accepted != false
  else if FINGERSPELLING_ENABLED ∧ t.kind = .raw then true
  else false

/-- The value of `token.canonical || token.original` (line 87). -/
def tokenWord {σ : Type} (token : Token σ) : JSValue :=
  if truthy? token.canonical then token.canonical.getD (.str token.original)
  else .str token.original

/-- The `forEach` of lines 86-93 over the remaining accepted tokens, with the two arrays
built so far (each element with its `word`). `isTimePhrase` calls `split` on the word, which
throws unless the word is a string. -/
def bucketLoop {σ : Type} :
    List (Token σ) → List (Token σ × JSValue) → List (Token σ × JSValue) →
      Option (List (Token σ × JSValue) × List (Token σ × JSValue))
  | [], timeFirst, others => some (timeFirst, others)
  | token :: rest, timeFirst, others =>
    let word := tokenWord token
    if token.kind ≠ .raw then
      match word with
      | .str phrase =>
        if isTimePhrase phrase then bucketLoop rest (timeFirst ++ [(token, word)]) others
        else bucketLoop rest timeFirst (others ++ [(token, word)])
      | .inherited _ => none
    else bucketLoop rest timeFirst (others ++ [(token, word)])

/-- Source `buildGlossSequence(tokens)`. -/
def buildGlossSequence {σ : Type} (tokens : List (Token σ)) : Option (List JSValue) :=
  let accepted := tokens.filter isSelected
  match bucketLoop accepted [] [] with
  | some (timeFirst, others) => some ((timeFirst ++ others).map fun e => e.2)
  | none => none

/-! ## Semantic index and fallback (`grammar.js`, lines 149-298)

The vectors and scores are floating-point data in the source; they are kept abstract here. -/

/-- The count `wordTokenCount` makes of the maximal runs of non-white-space characters; `inWord`
tells that the previous character belongs to a word. -/
def countWords : Bool → List Char → Nat
  | _, [] => 0
  | inWord, c :: cs =>
    if isWhiteSpace c then countWords false cs
    else (if inWord then 0 else 1) + countWords true cs

/-- Source `wordTokenCount(text)` for a string. -/
def wordTokenCount (text : String) : Nat :=
  if countWords false text.data = 0 then 1 else countWords false text.data

/-- An entry of `semanticIndexState.entries`. -/
structure IndexEntry (V σ : Type) where
  word : String
  vector : V
  norm : σ
  tokens : Nat

/-- The numeric side of the semantic index, for vectors `V` and scores `σ`:
`indexVector word` is the vector the index build stores for a vocabulary word (by
`localSimpleEmbedding` or by the embedding endpoint), `embedText text` is what `embedText`
resolves to for a string (`none` for `null`), `falsy x` is `!x`, and `gt`, `ge` are the
comparisons `>`, `>=` on scores. -/
structure SemanticBackend (V σ : Type) where
  indexVector : String → V
  embedText : String → Option V
  vectorNorm : V → σ
  cosineSimilarity : V → V → σ → σ → σ
  falsy : σ → Bool
  gt : σ → σ → Bool
  ge : σ → σ → Bool
  minSimilarity : σ

/-- The entries `loadSemanticIndex` stores: one per vocabulary word, in vocabulary order
(`generateLocalSemanticIndex`, and `buildIndexWithEndpoint` when every fetch succeeds). -/
def semanticIndexEntries {V σ : Type} (B : SemanticBackend V σ) : List (IndexEntry V σ) :=
  AVAILABLE_WORDS.map fun word =>
    { word := word, vector := B.indexVector word, norm := B.vectorNorm (B.indexVector word),
      tokens := wordTokenCount word }

/-- One iteration of the scan of lines 264-271 on the best candidate so far. -/
def scanStep {V σ : Type} (B : SemanticBackend V σ) (vector : V) (norm : σ) (tokenLength : Nat)
    (best : Option (String × σ)) (entry : IndexEntry V σ) : Option (String × σ) :=
  if entry.tokens ≠ 0 ∧ entry.tokens ≠ tokenLength then best
  else if B.falsy entry.norm then best
  else
    let score := B.cosineSimilarity vector entry.vector norm entry.norm
    match best with
    | none => some (entry.word, score)
    | some b => if B.gt score b.2 then some (entry.word, score) else best

/-- Source `findSemanticFallbackForToken(token)`: the outer `none` is a thrown `TypeError` (a
non-string handed to `toLowerCase` or `trim`), the inner `none` is `null`. -/
def findSemanticFallbackForToken {V σ : Type} (B : SemanticBackend V σ) (token : Token σ) :
    Option (Option (String × σ)) :=
  if (semanticIndexEntries B).isEmpty then some none
  else
    match jsOr (jsOr token.lemma_ (token.normalized.map .str)) (some (.str token.original)) with
    | some (.str query) =>
      match B.embedText query with
      | none => some none
      | some vector =>
        let norm := B.vectorNorm vector
        if B.falsy norm then some none
        else
          match jsOr (jsOr (some (.str token.original)) token.lemma_)
              (token.normalized.map .str) with
          | some (.inherited _) => none
          | lengthText =>
            let tokenLength :=
              wordTokenCount (match lengthText with | some (.str text) => text | _ => "")
            match (semanticIndexEntries B).foldl (scanStep B vector norm tokenLength) none with
            | some best => if B.ge best.2 B.minSimilarity then some (some best) else some none
            | none => some none
    | _ => none

/-- An element of the array `applySemanticFallback` returns. -/
structure Applied (σ : Type) where
  index : Nat
  original : String
  canonical : String
  score : σ
deriving DecidableEq, Repr

/-- The `for` loop of `applySemanticFallback` from index `i` on: the tokens after the
in-place updates and the `applied` records. -/
def fallbackLoop {V σ : Type} (B : SemanticBackend V σ) :
    Nat → List (Token σ) → Option (List (Token σ) × List (Applied σ))
  | _, [] => some ([], [])
  | i, token :: rest =>
    if token.kind ≠ .raw then
      (fallbackLoop B (i + 1) rest).map fun r => (token :: r.1, r.2)
    else
      match findSemanticFallbackForToken B token with
      | none => none
      | some none => (fallbackLoop B (i + 1) rest).map fun r => (token :: r.1, r.2)
      | some (some fallback) =>
        (fallbackLoop B (i + 1) rest).map fun r =>
          ({ token with
              kind := .semantic, canonical := some (.str fallback.1),
              source := some .semantic, score := some fallback.2, accepted := true } :: r.1,
           { index := i, original := token.original, canonical := fallback.1,
             score := fallback.2 } :: r.2)

/-- Source `applySemanticFallback(tokens)`: the token array after the call and the returned
array. -/
def applySemanticFallback {V σ : Type} (B : SemanticBackend V σ) (tokens : List (Token σ)) :
    Option (List (Token σ) × List (Applied σ)) :=
  if !(tokens.any fun t => t.kind = .raw) then some (tokens, [])
  else fallbackLoop B 0 tokens

/-! ## Sentence conversion (`grammar.js`, lines 312-379) -/

/-- The object `convertSentenceToGloss` resolves to. -/
structure Conversion (σ : Type) where
  tokens : List (Token σ)
  semanticApplied : List (Applied σ)
  currentGlosses : List JSValue
deriving DecidableEq, Repr

/-- Source `convertSentenceToGloss(sentence)`; `none` is the rejected promise. -/
def convertSentenceToGloss {V σ : Type} (B : SemanticBackend V σ) (sentence : String) :
    Option (Conversion σ) :=
  match rawWordsOf sentence with
  | none => none
  | some none => some { tokens := [], semanticApplied := [], currentGlosses := [] }
  | some (some rawWords) =>
    match applySemanticFallback B (segmentWords rawWords) with
    | none => none
    | some (tokens, semanticApplied) =>
      match buildGlossSequence tokens with
      | none => none
      | some currentGlosses =>
        some { tokens := tokens, semanticApplied := semanticApplied,
               currentGlosses := currentGlosses }

/-- The test of line 88 that sends a token to `timeFirst`, for a token whose word is a
string. -/
def inTimeBucket {σ : Type} (token : Token σ) : Bool :=
  token.kind != .raw &&
    (match tokenWord token with
     | .str phrase => isTimePhrase phrase
     | .inherited _ => false)

/-- The token shapes of the data model, as a test: a matched or semantic token carries a
non-empty canonical string, a raw token carries no canonical. -/
def Token.isWellFormed {σ : Type} (t : Token σ) : Bool :=
  match t.kind, t.canonical with
  | .raw, none => true
  | .raw, some _ => false
  | _, some (.str c) => c != ""
  | _, _ => false

/-- The token shapes of the data model, as a proposition. -/
def Token.WellFormed {σ : Type} (t : Token σ) : Prop :=
  (t.kind ≠ .raw → ∃ c, c ≠ "" ∧ t.canonical = some (.str c)) ∧
    (t.kind = .raw → t.canonical = none)

/-- A token list of the data model used to instantiate the builder's theorems: a matched
token, a raw token whose text is a time word, a rejected semantic token and a matched time
token. -/
def sampleTokens : List (Token Unit) :=
  [matchToken ⟨.str "hat", .exact⟩ "hat",
   rawToken "tomorrow" "tomorrow" (some (.str "tomorrow")),
   { kind := .semantic, canonical := some (.str "lamp"), source := some .semantic,
     original := "lantern", normalized := some "lantern", lemma_ := some (.str "lantern"),
     score := some (), accepted := false },
   matchToken ⟨.str "monday", .exact⟩ "Monday"]

/-! ## Reading the segmenter's pass as a sequence of pieces -/

/-- One step of the segmenter's pass over the words: a token together with the span of words
it consumed, or a word that was dropped without a token. -/
inductive Piece (σ : Type) where
  | token (t : Token σ) (span : List String)
  | dropped (word : String)

/-- The words a piece consumed. -/
def Piece.words {σ : Type} : Piece σ → List String
  | .token _ span => span
  | .dropped word => [word]

/-- The token a piece produced, if any. -/
def Piece.token? {σ : Type} : Piece σ → Option (Token σ)
  | .token t _ => some t
  | .dropped _ => none

/-- The relation `LongestMatch rawWords normalizedWords lemmaWords position pieces`: `pieces`
is a pass from the cursor `position` to the end of the words in which every matched token covers the
longest span at its cursor that `resolveCanonicalPhrase` resolves, and a raw token or a
dropped stop-word stands only at a cursor where no span of any length resolves. -/
inductive LongestMatch {σ : Type} (rawWords normalizedWords : List String)
    (lemmaWords : List JSValue) : Nat → List (Piece σ) → Prop where
  | done {position : Nat} (hend : normalizedWords.length ≤ position) :
      LongestMatch rawWords normalizedWords lemmaWords position []
  | matched {position len : Nat} {resolved : Resolved} {rest : List (Piece σ)}
      (hpos : 1 ≤ len) (hfit : position + len ≤ normalizedWords.length)
      (hres : resolveSpan normalizedWords lemmaWords position len = some resolved)
      (hlongest : ∀ longer, len < longer → position + longer ≤ normalizedWords.length →
        resolveSpan normalizedWords lemmaWords position longer = none)
      (hrest : LongestMatch rawWords normalizedWords lemmaWords (position + len) rest) :
      LongestMatch rawWords normalizedWords lemmaWords position
        (.token (matchToken resolved (joinSpace (slice rawWords position (position + len))))
            (slice rawWords position (position + len)) :: rest)
  | raw {position : Nat} {rest : List (Piece σ)}
      (hlt : position < normalizedWords.length)
      (hnone : ∀ len, 1 ≤ len → position + len ≤ normalizedWords.length →
        resolveSpan normalizedWords lemmaWords position len = none)
      (hword : normalizedWords.getD position "" ∉ FUNCTION_WORDS)
      (hrest : LongestMatch rawWords normalizedWords lemmaWords (position + 1) rest) :
      LongestMatch rawWords normalizedWords lemmaWords position
        (.token (rawToken (rawWords.getD position "") (normalizedWords.getD position "")
            (lemmaWords.get? position)) [rawWords.getD position ""] :: rest)
  | dropped {position : Nat} {rest : List (Piece σ)}
      (hlt : position < normalizedWords.length)
      (hnone : ∀ len, 1 ≤ len → position + len ≤ normalizedWords.length →
        resolveSpan normalizedWords lemmaWords position len = none)
      (hword : normalizedWords.getD position "" ∈ FUNCTION_WORDS)
      (hrest : LongestMatch rawWords normalizedWords lemmaWords (position + 1) rest) :
      LongestMatch rawWords normalizedWords lemmaWords position
        (.dropped (rawWords.getD position "") :: rest)

/-- A backend used to instantiate the theorems: every vector is `0`, every norm and every
similarity is `1`, and the similarity floor is `1`. -/
def sampleBackend : SemanticBackend Nat Nat :=
  { indexVector := fun _ => 0, embedText := fun _ => some 0, vectorNorm := fun _ => 1,
    cosineSimilarity := fun _ _ _ _ => 1, falsy := fun x => x == 0,
    gt := fun a b => decide (b < a), ge := fun a b => decide (b ≤ a), minSimilarity := 1 }

/-- What `convertSentenceToGloss` returns for `tomorrow hat` with `sampleBackend`: the raw
word `tomorrow` is resolved by the fallback to the first one-word vocabulary entry. -/
def sampleConversion : Conversion Nat :=
  { tokens :=
      [{ kind := .semantic, canonical := some (.str "alright"), source := some .semantic,
         original := "tomorrow", normalized := some "tomorrow",
         lemma_ := some (.str "tomorrow"), score := some 1, accepted := true },
       matchToken ⟨.str "hat", .exact⟩ "hat"],
    semanticApplied :=
      [{ index := 0, original := "tomorrow", canonical := "alright", score := 1 }],
    currentGlosses := [.str "alright", .str "hat"] }

/-! ## Reference readings used by the theorems -/

/-- The canonical of a token, as the segmenter can leave it: absent on a raw token; on a
matched token, accepted, and a vocabulary word or an inherited member. -/
def SegmentedShape {σ : Type} (t : Token σ) : Prop :=
  (t.kind = .raw ∧ t.canonical = none) ∨
    (t.kind = .matched ∧ t.accepted = true ∧
      ∃ v, t.canonical = some v ∧
        ((∃ w ∈ AVAILABLE_WORDS, v = .str w) ∨ ∃ k, v = .inherited k))


/-- The shape every rule of `LEMMA_SUFFIX_RULES` has: only the `s` rule skips doubled
endings, and the minimum length leaves a stem of two characters or more. -/
def SuffixRule.Regular (r : SuffixRule) : Prop :=
  (r.skipDouble = true → r.suffix = "s") ∧ (r.suffix = "s" → r.skipDouble = true) ∧
    jsLength r.suffix + 1 ≤ r.min + jsLength r.replacement

/-- What the partition property asks of a piece: a token covers a non-empty span of words,
its `original` is the span joined by single spaces and splits back into the span; a dropped
word is a function word once lower-cased. -/
def Piece.Covers {σ : Type} : Piece σ → Prop
  | .token t span => span ≠ [] ∧ t.original = joinSpace span ∧ splitSpace t.original = span
  | .dropped word => toLowerCase word ∈ FUNCTION_WORDS


/-- The condition under which the claim's lemmatizer applies a suffix rule: the suffix
matches, the minimum length is exceeded, and for the `s` rule the word does not end in `ss`. -/
def ruleApplies (lower : String) (rule : SuffixRule) : Bool :=
  endsWith lower rule.suffix && decide (rule.min < jsLength lower)
    && !(decide (rule.suffix = "s") && endsWith lower "ss")

/-- The lemmatizer as the specification words it: the override-table entry of the lower-cased
word when there is one, otherwise the replacement by the first applicable rule, otherwise
the lower-cased word. -/
def lemmaBySpec (word : String) : String :=
  match LEMMA_OVERRIDES.lookup (toLowerCase word) with
  | some stem => stem
  | none =>
    match LEMMA_SUFFIX_RULES.find? (ruleApplies (toLowerCase word)) with
    | some rule => dropSuffix (toLowerCase word) rule.suffix ++ rule.replacement
    | none => toLowerCase word

/-- Span resolution as the specification words it: exact, else lemma, else alias of the
lower-cased form, else alias of the lemmatized form, else nothing; an alias key is an own
key of the alias table. -/
def resolveBySpec (c l : String) : Option Resolved :=
  if c ∈ AVAILABLE_WORDS then some ⟨.str c, .exact⟩
  else if l ∈ AVAILABLE_WORDS then some ⟨.str l, .lemma_⟩
  else
    match ALIAS_TO_CANONICAL.lookup c with
    | some target => some ⟨.str target, .alias⟩
    | none =>
      match ALIAS_TO_CANONICAL.lookup l with
      | some target => some ⟨.str target, .alias⟩
      | none => none

/-- Whether `lemmatizeWord` returns a string for `word` and returns that string again when
applied to it. -/
def lemmaIsFixed (word : String) : Bool :=
  match lemmatizeWord word with
  | .str stem => lemmatizeWord stem == .str stem
  | .inherited _ => false

/-! ## Toggling a semantic token and the warnings of `ui.js` -/

/-- The words `buildGlossSequence` emits from its `timeFirst` array for a token list. -/
def timeWords {σ : Type} (tokens : List (Token σ)) : List JSValue :=
  ((tokens.filter isSelected).filter inTimeBucket).map tokenWord

/-- The words `buildGlossSequence` emits from its `others` array for a token list. -/
def otherWords {σ : Type} (tokens : List (Token σ)) : List JSValue :=
  ((tokens.filter isSelected).filter fun t => !inTimeBucket t).map tokenWord

/-- Source `getUnmatchedWords(tokens)` (`grammar.js`, lines 300-302). -/
def getUnmatchedWords {σ : Type} (tokens : List (Token σ)) : List String :=
  (tokens.filter fun t => t.kind = .raw).map fun t => toLowerCase t.original

/-- The array `skipped` of `renderWarnings` (`ui.js`, lines 82-90): the unmatched words
followed by the rejected semantic tokens. -/
def warningSkipped {σ : Type} (tokens : List (Token σ)) : List String :=
  getUnmatchedWords tokens ++
    (tokens.filter fun t => t.kind = .semantic ∧ t.accepted = false).map
      fun t => toLowerCase t.original

/-- Source `words.join(', ')` for an array of strings. -/
def joinComma : List String → String
  | [] => ""
  | [w] => w
  | w :: ws => w ++ ", " ++ joinComma ws

/-- The first message of `renderWarnings` (`ui.js`, lines 90-97); `none` when nothing was
skipped. -/
def skippedWarning {σ : Type} (tokens : List (Token σ)) : Option String :=
  if warningSkipped tokens = [] then none
  else if FINGERSPELLING_ENABLED then
    some ("⚠ Words not in dataset (will be fingerspelled): " ++ joinComma (warningSkipped tokens))
  else some ("⚠ Words not in dataset (skipped): " ++ joinComma (warningSkipped tokens))

/-- A semantic token as `applySemanticFallback` leaves it, for the word `lantern` resolved to
`lamp`, with the given `accepted` flag. -/
def lanternToken (accepted : Bool) : Token Unit :=
  { kind := .semantic, canonical := some (.str "lamp"), source := some .semantic,
    original := "lantern", normalized := some "lantern", lemma_ := some (.str "lantern"),
    score := some (), accepted := accepted }

/-- The semantic token of the word `lampe`: the segmenter leaves the word raw and the local
index resolves it to `lamp`; with the given `accepted` flag. -/
def lampeToken (accepted : Bool) : Token Unit :=
  { kind := .semantic, canonical := some (.str "lamp"), source := some .semantic,
    original := "lampe", normalized := some "lampe", lemma_ := some (.str "lampe"),
    score := some (), accepted := accepted }

/-- The tokens before `lanternToken` in the token list used to instantiate the toggle
theorem. -/
def samplePre : List (Token Unit) := [matchToken ⟨.str "hat", .exact⟩ "hat"]

/-- The tokens after `lanternToken` in the token list used to instantiate the toggle
theorem. -/
def samplePost : List (Token Unit) := [matchToken ⟨.str "monday", .exact⟩ "monday"]

/-! ## Reference reading of the sentence cleaning -/

/-- The pieces of a character list between the characters that satisfy `sep` (each such
character ends a piece, empty pieces included). -/
def splitBy (sep : Char → Bool) : List Char → List (List Char)
  | [] => [[]]
  | c :: cs =>
    if sep c then [] :: splitBy sep cs
    else
      match splitBy sep cs with
      | [] => [[c]]
      | w :: ws => (c :: w) :: ws

/-- The maximal non-empty runs of characters that do not satisfy `sep`. -/
def wordRuns (sep : Char → Bool) (cs : List Char) : List (List Char) :=
  (splitBy sep cs).filter fun w => !w.isEmpty

/-- The characters the cleaning deletes: sentence punctuation and quote characters. -/
def isStripped (c : Char) : Bool :=
  c ∈ ['.', ',', '!', '?', ';', ':', '\'', '’', '"']

/-- The characters the cleaning treats as word separators: white space, `-` and `/`. -/
def isSeparator (c : Char) : Bool :=
  isWhiteSpace c || c = '-' || c = '/'

/-- The words of a text as the cleaning is specified: delete the stripped characters, then
take the maximal runs of characters that are not separators. -/
def wordsBySpec (text : String) : List String :=
  (wordRuns isSeparator (text.data.filter fun c => !isStripped c)).map String.mk

/-! ## Reference readings of the semantic fallback -/

/-- The token `applySemanticFallback` makes of a raw token for which the lookup returned
`fallback` (lines 289-293). -/
def promote {σ : Type} (token : Token σ) (fallback : String × σ) : Token σ :=
  { token with
      kind := .semantic, canonical := some (.str fallback.1),
      source := some .semantic, score := some fallback.2, accepted := true }

/-- What `applySemanticFallback` does to one token `t`, giving `t'`: a token that is not raw
is unchanged; a raw token for which the lookup fails is unchanged; a raw token for which the
lookup finds `fallback` (with a score at or above the floor) is promoted. -/
def FallbackEffect {V σ : Type} (B : SemanticBackend V σ) (t t' : Token σ) : Prop :=
  (t.kind ≠ .raw ∧ t' = t) ∨
  (t.kind = .raw ∧ findSemanticFallbackForToken B t = some none ∧ t' = t) ∨
  (t.kind = .raw ∧ ∃ fallback, findSemanticFallbackForToken B t = some (some fallback) ∧
    B.ge fallback.2 B.minSimilarity = true ∧ t' = promote t fallback)

/-- The text whose words `findSemanticFallbackForToken` counts (line 262):
`token.original || token.lemma || token.normalized`, the empty string when that is not a
string. -/
def lengthText {σ : Type} (token : Token σ) : String :=
  match jsOr (jsOr (some (.str token.original)) token.lemma_) (token.normalized.map .str) with
  | some (.str text) => text
  | _ => ""

/-- The tokens the segmenter pushes for `tomorrow hat`, used to instantiate the theorems on
the semantic fallback. -/
def sampleRawTokens : List (Token Nat) :=
  [rawToken "tomorrow" "tomorrow" (some (.str "tomorrow")),
   matchToken ⟨.str "hat", .exact⟩ "hat"]

/-- The cosine similarity the scan computes for an index entry (line 267). -/
def entryScore {V σ : Type} (B : SemanticBackend V σ) (vector : V) (norm : σ)
    (e : IndexEntry V σ) : σ :=
  B.cosineSimilarity vector e.vector norm e.norm

/-- The index entries with the word count `tokenLength`, in vocabulary order. -/
def candidateEntries {V σ : Type} (B : SemanticBackend V σ) (tokenLength : Nat) :
    List (IndexEntry V σ) :=
  (semanticIndexEntries B).filter fun e => e.tokens = tokenLength

/-- The result of the scan of lines 263-271 over the index. -/
def scanBest {V σ : Type} (B : SemanticBackend V σ) (vector : V) (norm : σ)
    (tokenLength : Nat) : Option (String × σ) :=
  (semanticIndexEntries B).foldl (scanStep B vector norm tokenLength) none

/-- The element `e` is the first element of `l` that attains the maximum of `score`: every
element before it scores strictly less, every element after it at most as much. -/
def FirstMaximum {α σ : Type} [LT σ] [LE σ] (score : α → σ) (l : List α) (e : α) : Prop :=
  ∃ pre post, l = pre ++ e :: post ∧ (∀ x ∈ pre, score x < score e) ∧
    ∀ x ∈ post, score x ≤ score e

/-- What the claim on the lookup says for a token whose query text embeds to `vector`: a
returned pair is the first maximum of the scores over the entries with the token's word
count, with a score at or above the floor, and `null` is returned exactly when every such
entry scores below the floor. -/
def LookupIsFirstMaximum {V σ : Type} [LT σ] [LE σ] (B : SemanticBackend V σ)
    (token : Token σ) (vector : V) : Prop :=
  (∀ found, findSemanticFallbackForToken B token = some (some found) →
    ∃ e, FirstMaximum (entryScore B vector (B.vectorNorm vector))
        (candidateEntries B (wordTokenCount token.original)) e ∧
      found = (e.word, entryScore B vector (B.vectorNorm vector) e) ∧
      B.minSimilarity ≤ entryScore B vector (B.vectorNorm vector) e) ∧
  (findSemanticFallbackForToken B token = some none ↔
    ∀ e ∈ candidateEntries B (wordTokenCount token.original),
      entryScore B vector (B.vectorNorm vector) e < B.minSimilarity)

/-! ## Building the semantic index (`grammar.js`, lines 13-19, 121-147, 168-215, 239-252) -/

/-- Source `LOCAL_EMBED_DIM`. -/
def LOCAL_EMBED_DIM : Nat := 64

/-- The values of `semanticIndexState.method`: `'remote'` and `'local'`. -/
inductive Method where
  | remote
  | local_
  deriving DecidableEq, Repr

/-- Source `semanticIndexState` without its `loading` promise, which `IndexLifecycle`
carries. -/
structure SemanticIndexState (V σ : Type) where
  method : Method
  ready : Bool
  entries : List (IndexEntry V σ)
  dimension : Nat

/-- What the index build and `embedText` read from outside, for vectors `V` and norms `σ`:
`endpoint` says whether `SEMANTIC_MATCH_SETTINGS.endpoint` is set,
`fetchEmbeddingFromEndpoint k text` is what the `k`-th call of `fetchEmbeddingFromEndpoint`,
made for `text`, resolves to (`none` for `null`: a failed request, a bad status, a reply
without a vector), `embedCleaned cleaned` is the vector that the body of
`localSimpleEmbedding` computes from its local `cleaned` (lines 123-146 read nothing else of
the text), and `vectorLength` is `vector.length`. -/
structure EmbeddingProvider (V σ : Type) where
  endpoint : Bool
  fetchEmbeddingFromEndpoint : Nat → String → Option V
  embedCleaned : String → V
  vectorNorm : V → σ
  vectorLength : V → Nat

/-- Source `localSimpleEmbedding(text)` for a string: line 122 lower-cases and trims the text,
the rest of the body works on the result. -/
def localSimpleEmbedding {V σ : Type} (P : EmbeddingProvider V σ) (text : String) : V :=
  P.embedCleaned (jsTrim (toLowerCase text))

/-- The entry that both index builders store for `word` with its `vector`. -/
def indexEntry {V σ : Type} (P : EmbeddingProvider V σ) (word : String) (vector : V) :
    IndexEntry V σ :=
  { word := word, vector := vector, norm := P.vectorNorm vector, tokens := wordTokenCount word }

/-- Source `generateLocalSemanticIndex()`. -/
def generateLocalSemanticIndex {V σ : Type} (P : EmbeddingProvider V σ) :
    List (IndexEntry V σ) :=
  AVAILABLE_WORDS.map fun word => indexEntry P word (localSimpleEmbedding P word)

/-- The `for` loop of `buildIndexWithEndpoint` over the remaining words; `k` counts the calls
of the endpoint made so far and `entries` is the array filled so far. A failed call ends the
build with an empty array (line 210). -/
def buildIndexLoop {V σ : Type} (P : EmbeddingProvider V σ) :
    List String → Nat → List (IndexEntry V σ) → List (IndexEntry V σ)
  | [], _, entries => entries
  | word :: rest, k, entries =>
    match P.fetchEmbeddingFromEndpoint k word with
    | none => []
    | some vector => buildIndexLoop P rest (k + 1) (entries ++ [indexEntry P word vector])

/-- Source `buildIndexWithEndpoint()`. -/
def buildIndexWithEndpoint {V σ : Type} (P : EmbeddingProvider V σ) : List (IndexEntry V σ) :=
  buildIndexLoop P AVAILABLE_WORDS 0 []

/-- Source `loadSemanticIndex()`, as the state it leaves when its promise settles. -/
def loadSemanticIndex {V σ : Type} (P : EmbeddingProvider V σ)
    (state : SemanticIndexState V σ) : SemanticIndexState V σ :=
  let localState : SemanticIndexState V σ :=
    { state with method := .local_, entries := generateLocalSemanticIndex P,
                 dimension := LOCAL_EMBED_DIM, ready := true }
  if P.endpoint then
    match buildIndexWithEndpoint P with
    | [] => localState
    | first :: rest =>
      { state with method := .remote, entries := first :: rest,
                   dimension := P.vectorLength first.vector, ready := true }
  else localState

/-- The module state around `semanticIndexState`: `loading` is `null` (`none`) or the promise
of a build, named by the ordinal of the `loadSemanticIndex` call that made it; `builds` counts
the calls of `loadSemanticIndex` so far (a ghost counter). -/
structure IndexLifecycle (V σ : Type) where
  state : SemanticIndexState V σ
  loading : Option Nat
  builds : Nat

/-- The module state when `grammar.js` has been loaded (lines 13-19). -/
def initialLifecycle {V σ : Type} (P : EmbeddingProvider V σ) : IndexLifecycle V σ :=
  { state := { method := if P.endpoint then .remote else .local_, ready := false,
               entries := [], dimension := LOCAL_EMBED_DIM },
    loading := none, builds := 0 }

/-- What a call of `ensureSemanticIndexReady` hands to its caller: the state itself, or the
promise of the build with the given ordinal. -/
inductive Reply where
  | state
  | promise (build : Nat)
  deriving DecidableEq, Repr

/-- Source `ensureSemanticIndexReady()`, up to its `return`. A build that is started runs up
to its first `await`: with an endpoint it stays in flight, without one `loadSemanticIndex`
has no `await` and has stored the local index when the call returns. -/
def ensureSemanticIndexReady {V σ : Type} (P : EmbeddingProvider V σ)
    (L : IndexLifecycle V σ) : IndexLifecycle V σ × Reply :=
  if L.state.ready then (L, .state)
  else
    match L.loading with
    | some build => (L, .promise build)
    | none =>
      let started : IndexLifecycle V σ :=
        { L with loading := some L.builds, builds := L.builds + 1 }
      (if P.endpoint then started
        else { started with state := loadSemanticIndex P started.state },
       .promise L.builds)

/-- The build in flight settles: `loadSemanticIndex` stores its result. Nothing happens when
no build is in flight. -/
def settleBuild {V σ : Type} (P : EmbeddingProvider V σ) (L : IndexLifecycle V σ) :
    IndexLifecycle V σ :=
  match L.loading with
  | some _ => if L.state.ready then L else { L with state := loadSemanticIndex P L.state }
  | none => L

/-- What can happen to the index state: a call of `ensureSemanticIndexReady`, or the build in
flight settling. -/
inductive IndexEvent where
  | ensure
  | settle
  deriving DecidableEq, Repr

/-- The module state after a sequence of events, with the replies given to the callers, in
order. -/
def runIndexEvents {V σ : Type} (P : EmbeddingProvider V σ) :
    List IndexEvent → IndexLifecycle V σ → IndexLifecycle V σ × List Reply
  | [], L => (L, [])
  | .ensure :: rest, L =>
    let r := runIndexEvents P rest (ensureSemanticIndexReady P L).1
    (r.1, (ensureSemanticIndexReady P L).2 :: r.2)
  | .settle :: rest, L => runIndexEvents P rest (settleBuild P L)

/-- Source `EMBEDDING_CACHE`, a `Map` from keys to vectors, as the list of its bindings with
the newest first. -/
abbrev EmbeddingCache (V : Type) := List (String × V)

/-- Source `EMBEDDING_CACHE.get(key)`, `none` when `has(key)` is false. -/
def cacheGet {V : Type} (cache : EmbeddingCache V) (key : String) : Option V :=
  (cache.find? fun binding => binding.1 == key).map fun binding => binding.2

/-- Source `embedText(text)` for a string, under the given `method`: the vector it resolves to
(`none` for `null`) and the cache it leaves. A call of the endpoint is the `k`-th one. -/
def embedText {V σ : Type} (P : EmbeddingProvider V σ) (method : Method) (k : Nat)
    (cache : EmbeddingCache V) (text : String) : Option V × EmbeddingCache V :=
  let key := toLowerCase text
  match cacheGet cache key with
  | some vector => (some vector, cache)
  | none =>
    if method = .remote ∧ P.endpoint = true then
      match P.fetchEmbeddingFromEndpoint k text with
      | none => (none, cache)
      | some vector => (some vector, (key, vector) :: cache)
    else
      (some (localSimpleEmbedding P text), (key, localSimpleEmbedding P text) :: cache)

/-- The caches that calls of `embedText` under the local method build from the empty one. -/
inductive LocalCache {V σ : Type} (P : EmbeddingProvider V σ) : EmbeddingCache V → Prop where
  | empty : LocalCache P []
  | call (cache : EmbeddingCache V) (k : Nat) (text : String) :
      LocalCache P cache → LocalCache P (embedText P .local_ k cache text).2

/-- A provider whose endpoint fails for the word `hat` and answers every other word, with
numbers for vectors. -/
def sampleProvider : EmbeddingProvider Nat Nat :=
  { endpoint := true,
    fetchEmbeddingFromEndpoint := fun _ text => if text = "hat" then none else some 1,
    embedCleaned := fun cleaned => cleaned.length,
    vectorNorm := fun v => v, vectorLength := fun _ => 8 }

/-- A state of the index before its build. -/
def sampleIndexState : SemanticIndexState Nat Nat :=
  { method := .remote, ready := false, entries := [], dimension := LOCAL_EMBED_DIM }

/-- The state of the index life cycle is one of: nothing started; one build started. -/
def IndexLifecycle.Sound {V σ : Type} (L : IndexLifecycle V σ) : Prop :=
  (L.loading = none ∧ L.builds = 0 ∧ L.state.ready = false) ∨
  (L.loading = some 0 ∧ L.builds = 1)

/-- Every binding of the cache holds the local embedding of a text with that key. -/
def EmbeddingCache.Local {V σ : Type} (P : EmbeddingProvider V σ) (cache : EmbeddingCache V) : Prop :=
  ∀ key vector, cacheGet cache key = some vector →
    ∃ text, toLowerCase text = key ∧ vector = localSimpleEmbedding P text

/-! ## Double arithmetic

A finite double is the rational it stands for, and an arithmetic operation of the source is
the exact operation followed by `toDouble`. Overflow, subnormal numbers, `NaN` and the sign of
zero are outside the model. -/

/-- The integer nearest to `q`, the even one of the two when `q` lies half way. -/
def roundHalfEven (q : ℚ) : Int :=
  if 2 * (q - ⌊q⌋) < 1 then ⌊q⌋
  else if 1 < 2 * (q - ⌊q⌋) then ⌊q⌋ + 1
  else if ⌊q⌋ % 2 = 0 then ⌊q⌋ else ⌊q⌋ + 1

/-- The double nearest to a positive rational: with `2 ^ e ≤ x < 2 ^ (e + 1)`, the multiple of
`2 ^ (e - 52)` nearest to `x`, ties to the even multiple (53 significant bits). -/
def roundPositive (x : ℚ) : ℚ :=
  roundHalfEven (x / 2 ^ (Int.log 2 x - 52)) * 2 ^ (Int.log 2 x - 52)

/-- The double nearest to a rational: the rounding that every arithmetic operation on
JavaScript numbers ends with (IEEE 754 binary64, round to nearest, ties to even). -/
def toDouble (x : ℚ) : ℚ :=
  if x = 0 then 0 else if 0 < x then roundPositive x else -roundPositive (-x)

/-! ## The player (`player.js`) and the fingerspelling overlay (`fingerspell.js`) -/

/-- A JavaScript number as `normalizeJson` tells numbers apart: `NaN`, an infinity, or a finite
value. -/
inductive JSNumber where
  | nan
  | infinity
  | negInfinity
  | finite (q : ℚ)
  deriving DecidableEq

/-- Source `Number(x) || 30` for a number `x`: `NaN` and `0` are falsy. -/
def orThirty : JSNumber → JSNumber
  | .nan => .finite 30
  | .finite q => if q = 0 then .finite 30 else .finite q
  | x => x

/-- Source `Math.max(1, Math.min(120, Number(x) || 30))` for a number `x` (line 49). The last
case is never taken, `orThirty` does not give `NaN`. -/
def clampRate (x : JSNumber) : ℚ :=
  match orThirty x with
  | .infinity => 120
  | .negInfinity => 1
  | .finite q => max 1 (min 120 q)
  | .nan => 30

/-- The parts of a clip JSON that `normalizeJson` reads, for frames of type `F`: an array; an
object, with `frames` and `sequence` when they are arrays and `fps` and `frame_rate` when they
are numbers; or anything else (`null`, a string, a number, a boolean). -/
inductive ClipJson (F : Type) where
  | array (items : List F)
  | object (frames sequence : Option (List F)) (fps frame_rate : Option JSNumber)
  | other

/-- The result `{ arr, localFps }` of `normalizeJson`; `arr` is `none` for `null`. -/
structure Normalized (F : Type) where
  arr : Option (List F)
  localFps : ℚ

/-- Source `normalizeJson(json)`. It reads the module variable `fps` (line 37), and
`window.__canonicalMeta.fps` when that is a number (`canonicalMetaFps`). -/
def normalizeJson {F : Type} (canonicalMetaFps : Option JSNumber) (fps : ℚ)
    (json : ClipJson F) : Normalized F :=
  match json with
  | .array items =>
    { arr := some items,
      localFps := clampRate
        (match canonicalMetaFps with
         | some metaFps => orThirty metaFps
         | none => .finite fps) }
  | .object frames sequence declaredFps frameRate =>
    { arr :=
        (match sequence with
         | some items => some items
         | none => frames),
      localFps := clampRate
        (match frameRate with
         | some rate => rate
         | none =>
           match declaredFps with
           | some rate => rate
           | none => .finite fps) }
  | .other => { arr := none, localFps := clampRate (.finite fps) }

/-- Source `sentenceMode`. -/
structure SentenceMode where
  active : Bool
  glosses : List String
  currentIndex : Nat
  loop : Bool
  deriving DecidableEq

/-- Source `fingerspellingState`; `popupElement` says whether the element is set. -/
structure FingerspellingState where
  active : Bool
  currentWord : String
  popupElement : Bool
  deriving DecidableEq

/-- The module state of `player.js` together with `fingerspellingState`. `raf` says whether
the variable holds a request id (`false` for `null`). -/
structure Player (F : Type) where
  frames : Option (List F)
  fps : ℚ
  raf : Bool
  startTime : ℚ
  frameIndex : Int
  pausedAt : Int
  playing : Bool
  sentenceMode : SentenceMode
  fingerspellingState : FingerspellingState

/-- The module state when the modules have been loaded (`player.js` lines 6-20,
`fingerspell.js` lines 4-8), with the overlay element found or not. -/
def initialPlayer (F : Type) (popupElement : Bool) : Player F :=
  { frames := none, fps := 30, raf := false, startTime := 0, frameIndex := 0, pausedAt := 0,
    playing := false,
    sentenceMode := { active := false, glosses := [], currentIndex := 0, loop := false },
    fingerspellingState := { active := false, currentWord := "", popupElement := popupElement } }

/-- Source `frames.length`, `0` when `frames` is `null`: the tests `!frames || !frames.length`
say that this count is `0`. -/
def frameCount {F : Type} (s : Player F) : Nat :=
  match s.frames with
  | some items => items.length
  | none => 0

/-- Source `hideFingerspellPopup()`. -/
def hideFingerspellPopup (state : FingerspellingState) : FingerspellingState :=
  if state.popupElement then { state with active := false, currentWord := "" } else state

/-- Source `s.toUpperCase()`, on ASCII letters. -/
def toUpperCase (s : String) : String :=
  ⟨s.data.map Char.toUpper⟩

/-- The characters that `/[^A-Z0-9]/g` leaves in place. -/
def isUpperOrDigit (c : Char) : Bool :=
  (decide ('A' ≤ c) && decide (c ≤ 'Z')) || (decide ('0' ≤ c) && decide (c ≤ '9'))

/-- The local `normalized` of `fingerspell` (line 121). -/
def fingerspellNormalized (word : String) : String :=
  ⟨(toUpperCase word).data.filter isUpperOrDigit⟩

/-- Source `fingerspell(word)` up to its first `await` (lines 115-134); `word` is `none` for a
value that is not a string. The result is `none` when the function has returned `false` by
then, and else the state with the overlay activated. -/
def fingerspellStart (state : FingerspellingState) (word : Option String) :
    Option FingerspellingState :=
  match word with
  | none => none
  | some w =>
    if w = "" then none
    else if (fingerspellNormalized w).length = 0 then none
    else some { state with active := true, currentWord := fingerspellNormalized w }

/-- Source `fingerspell(word)` after its letter loop (lines 177-193), `displayedCount` letter
images having loaded: the value returned and the state left. -/
def fingerspellFinish (displayedCount : Nat) (state : FingerspellingState) :
    Bool × FingerspellingState :=
  if displayedCount = 0 then (false, hideFingerspellPopup state)
  else (true, hideFingerspellPopup state)

/-- Source `fingerspell(word)` run without interruption: the value its promise resolves to, and
the state left. -/
def fingerspell (displayedCount : Nat) (state : FingerspellingState) (word : Option String) :
    Bool × FingerspellingState :=
  match fingerspellStart state word with
  | none => (false, state)
  | some started => fingerspellFinish displayedCount started

/-- Source `pause()`. -/
def pause {F : Type} (s : Player F) : Player F :=
  { s with playing := false, raf := false, pausedAt := s.frameIndex }

/-- Source `stop()`. -/
def stop {F : Type} (s : Player F) : Player F :=
  { s with playing := false, raf := false, frameIndex := 0, pausedAt := 0 }

/-- Source `play()`, `performance.now()` reading `now`; the quotient, the product and the
difference of line 236 are each rounded to a double. -/
def play {F : Type} (now : ℚ) (s : Player F) : Player F :=
  if frameCount s = 0 then s
  else
    { s with playing := true,
             startTime :=
               if s.pausedAt > 0 then
                 toDouble (now - toDouble (s.pausedAt * toDouble (1000 / s.fps)))
               else now,
             raf := true }

/-- Source `tick(t)`; the quotient of line 214, the difference of line 216 and the quotient of
line 217 are each rounded to a double, and `Math.floor` is exact. -/
def tick {F : Type} (t : ℚ) (s : Player F) : Player F :=
  if s.playing = false ∨ frameCount s = 0 then s
  else
    let msPerFrame : ℚ := toDouble (1000 / s.fps)
    let startTime : ℚ := if s.startTime = 0 then t else s.startTime
    let elapsed : ℚ := toDouble (t - startTime)
    let nextIdx : Int := ⌊toDouble (elapsed / msPerFrame)⌋
    let s1 : Player F := { s with startTime := startTime, frameIndex := nextIdx }
    if nextIdx ≥ (frameCount s : Int) then pause s1 else { s1 with raf := true }

/-- Source `stepOnce()`. -/
def stepOnce {F : Type} (s : Player F) : Player F :=
  if frameCount s = 0 then s
  else { pause s with frameIndex := min (s.frameIndex + 1) ((frameCount s : Int) - 1) }

/-- Source `stopSentencePlayback()`. -/
def stopSentencePlayback {F : Type} (s : Player F) : Player F :=
  { s with sentenceMode := { s.sentenceMode with active := false, currentIndex := 0 },
           fingerspellingState := hideFingerspellPopup s.fingerspellingState,
           playing := false, raf := false }

/-- The statement `sentenceMode.currentIndex++`. -/
def advance {F : Type} (s : Player F) : Player F :=
  { s with sentenceMode :=
      { s.sentenceMode with currentIndex := s.sentenceMode.currentIndex + 1 } }

/-- Where an activation of `playNextWordInSentence` stands when it gives up control: suspended
at the `await` of `loadWordByName(word)` (line 84), of `waitForWordComplete(totalFrames)`
(line 100) or of `fingerspell(word)` (line 115), or returned. Every recursive call is the last
statement of its caller, so the activations that wait for one another return together and one
value stands for the whole chain. -/
inductive Chain where
  | loading (word : String)
  | waiting (totalFrames : Nat)
  | spelling (word : String)
  | returned
  deriving DecidableEq, Repr

/-- What `loadWordByName` resolves to: `{ success: true, json }` or `{ success: false }`. -/
inductive LoadResult (F : Type) where
  | success (json : ClipJson F)
  | failure

/-- Source `playNextWordInSentence()` from its entry up to its first suspension or its return
(lines 66-84). The recursive call of line 71 is made before anything is awaited; `fuel` bounds
the depth of that recursion, and `none` says that the bound was reached. -/
def playNextWordInSentence {F : Type} : Nat → Player F → Option (Player F × Chain)
  | 0, _ => none
  | fuel + 1, s =>
    if s.sentenceMode.active = false ∨
        s.sentenceMode.currentIndex ≥ s.sentenceMode.glosses.length then
      if s.sentenceMode.loop = true ∧ s.sentenceMode.glosses.length > 0 then
        playNextWordInSentence fuel
          { s with sentenceMode := { s.sentenceMode with currentIndex := 0 } }
      else some (stopSentencePlayback s, .returned)
    else
      some (s, .loading (s.sentenceMode.glosses.getD s.sentenceMode.currentIndex ""))

/-- The test of `checkComplete` (line 134). -/
def waitIsOver {F : Type} (s : Player F) (totalFrames : Nat) : Bool :=
  !s.sentenceMode.active ||
    (decide (s.frameIndex ≥ (totalFrames : Int) - 1) && !s.fingerspellingState.active)

/-- Lines 102-105: what follows the `await` of `waitForWordComplete`. -/
def afterWait {F : Type} (fuel : Nat) (s : Player F) : Option (Player F × Chain) :=
  if s.sentenceMode.active then playNextWordInSentence fuel (advance s)
  else some (s, .returned)

/-- One run of `checkComplete` (lines 131-139), with what follows when it resolves the
promise. -/
def checkComplete {F : Type} (fuel : Nat) (totalFrames : Nat) (s : Player F) :
    Option (Player F × Chain) :=
  if waitIsOver s totalFrames then afterWait fuel s else some (s, .waiting totalFrames)

/-- Lines 116-118: what follows the `await` of `fingerspell(word)`, which resolved to
`result`. -/
def afterFingerspell {F : Type} (fuel : Nat) (_result : Bool) (s : Player F) :
    Option (Player F × Chain) :=
  playNextWordInSentence fuel (advance s)

/-- Lines 86-126: what follows the `await` of `loadWordByName(word)`, which resolved to
`result`, up to the next suspension; `performance.now()` reads `now`. A promise that is
already resolved when it is awaited lets nothing else run in between, so the activation goes
on: this is so for `waitForWordComplete` when its first test succeeds and for `fingerspell`
when it returns `false` at once. -/
def afterLoad {F : Type} (fuel : Nat) (canonicalMetaFps : Option JSNumber) (now : ℚ)
    (word : String) (result : LoadResult F) (s : Player F) : Option (Player F × Chain) :=
  match result with
  | .success json =>
    match (normalizeJson canonicalMetaFps s.fps json).arr with
    | some (frame :: more) =>
      checkComplete fuel (frame :: more).length
        { s with frames := some (frame :: more),
                 fps := (normalizeJson canonicalMetaFps s.fps json).localFps,
                 frameIndex := 0, pausedAt := 0, playing := true, startTime := now,
                 raf := true }
    | _ => playNextWordInSentence fuel (advance s)
  | .failure =>
    if FINGERSPELLING_ENABLED then
      match fingerspellStart s.fingerspellingState (some word) with
      | some started => some ({ s with fingerspellingState := started }, .spelling word)
      | none => afterFingerspell fuel false s
    else playNextWordInSentence fuel (advance s)

/-- The promise of `fingerspell(word)` resolves, `displayedCount` letter images having loaded,
and lines 116-118 follow. -/
def afterSpelling {F : Type} (fuel : Nat) (displayedCount : Nat) (s : Player F) :
    Option (Player F × Chain) :=
  afterFingerspell fuel (fingerspellFinish displayedCount s.fingerspellingState).1
    { s with fingerspellingState :=
        (fingerspellFinish displayedCount s.fingerspellingState).2 }

/-- Source `loadWord(wordToLoad)` up to its `await` (lines 178-188), for a word that is not
blank. -/
def loadWordStart {F : Type} (s : Player F) : Player F :=
  stop (if s.sentenceMode.active then stopSentencePlayback s else s)

/-- Source `loadWord(wordToLoad)` after its `await` (lines 190-209), the request having
resolved to `result`; the rendering of the first frame is taken not to throw. -/
def loadWordFinish {F : Type} (canonicalMetaFps : Option JSNumber) (now : ℚ)
    (result : LoadResult F) (s : Player F) : Player F :=
  match result with
  | .success json =>
    match (normalizeJson canonicalMetaFps s.fps json).arr with
    | some (frame :: more) =>
      play now
        { s with frames := some (frame :: more),
                 fps := (normalizeJson canonicalMetaFps s.fps json).localFps,
                 frameIndex := 0, pausedAt := 0 }
    | _ => { s with frames := none }
  | .failure => { s with frames := none }

/-- The player with the activations of `playNextWordInSentence` that are under way, oldest
first, and the clips requested so far as pairs of `currentIndex` and word, oldest first (a
ghost log, written when an activation suspends at line 84). -/
structure World (F : Type) where
  player : Player F
  chains : List Chain
  requests : List (Nat × String)

/-- The log after an activation has given up control in `chain`. -/
def logRequest {F : Type} (requests : List (Nat × String)) (s : Player F) (chain : Chain) :
    List (Nat × String) :=
  match chain with
  | .loading word => requests ++ [(s.sentenceMode.currentIndex, word)]
  | _ => requests

/-- The world after activation `i` has run from its suspension to `r`. -/
def World.resume {F : Type} (w : World F) (i : Nat) (r : Player F × Chain) : World F :=
  { player := r.1, chains := w.chains.set i r.2, requests := logRequest w.requests r.1 r.2 }

/-- Source `startSentencePlayback(glosses)`, the check box `loopSentence` reading `loop`: the
call of line 156 starts a new activation. -/
def startSentencePlayback {F : Type} (fuel : Nat) (glosses : List String) (loop : Bool)
    (w : World F) : Option (World F) :=
  if glosses.length = 0 then some w
  else
    (playNextWordInSentence fuel
      { w.player with sentenceMode :=
          { active := true, glosses := glosses, currentIndex := 0, loop := loop } }).map
      fun r =>
        { player := r.1, chains := w.chains ++ [r.2],
          requests := logRequest w.requests r.1 r.2 }

/-- What can happen to the player: the clip request of activation `i` resolves; an animation
frame runs the `checkComplete` of activation `i`; the `fingerspell` call of activation `i`
resolves; an animation frame runs `tick(t)`; a call of `startSentencePlayback`, of
`stopSentencePlayback`, of `loadWord` (up to its request), the request of `loadWord`
resolving; and the buttons `play`, `pause`, `stop`, `stepOnce`. -/
inductive Event (F : Type) where
  | loaded (i : Nat) (result : LoadResult F) (now : ℚ)
  | frame (i : Nat)
  | spelled (i : Nat) (displayedCount : Nat)
  | tick (t : ℚ)
  | start (glosses : List String) (loop : Bool)
  | stopSentence
  | loadWord
  | wordLoaded (result : LoadResult F) (now : ℚ)
  | play (now : ℚ)
  | pause
  | stop
  | stepOnce

/-- One event. An event for an activation that is not suspended where the event needs it
leaves the world as it is; `none` says that `playNextWordInSentence` reached the bound
`fuel`. -/
def step {F : Type} (fuel : Nat) (canonicalMetaFps : Option JSNumber) (w : World F) :
    Event F → Option (World F)
  | .loaded i result now =>
    match w.chains[i]? with
    | some (.loading word) =>
      (afterLoad fuel canonicalMetaFps now word result w.player).map (w.resume i)
    | _ => some w
  | .frame i =>
    match w.chains[i]? with
    | some (.waiting totalFrames) =>
      (checkComplete fuel totalFrames w.player).map (w.resume i)
    | _ => some w
  | .spelled i displayedCount =>
    match w.chains[i]? with
    | some (.spelling _) => (afterSpelling fuel displayedCount w.player).map (w.resume i)
    | _ => some w
  | .tick t => some { w with player := tick t w.player }
  | .start glosses loop => startSentencePlayback fuel glosses loop w
  | .stopSentence => some { w with player := stopSentencePlayback w.player }
  | .loadWord => some { w with player := loadWordStart w.player }
  | .wordLoaded result now =>
    some { w with player := loadWordFinish canonicalMetaFps now result w.player }
  | .play now => some { w with player := play now w.player }
  | .pause => some { w with player := pause w.player }
  | .stop => some { w with player := stop w.player }
  | .stepOnce => some { w with player := stepOnce w.player }

/-- A sequence of events, in order. -/
def run {F : Type} (fuel : Nat) (canonicalMetaFps : Option JSNumber) :
    List (Event F) → World F → Option (World F)
  | [], w => some w
  | event :: rest, w =>
    match step fuel canonicalMetaFps w event with
    | some w1 => run fuel canonicalMetaFps rest w1
    | none => none

/-- The world when the page has been loaded: no activation, nothing requested. -/
def initialWorld (F : Type) (popupElement : Bool) : World F :=
  { player := initialPlayer F popupElement, chains := [], requests := [] }

/-- The event is neither a start nor a stop of sentence playback (`loadWord` stops it too). -/
def Event.isQuiet {F : Type} : Event F → Bool
  | .start _ _ => false
  | .stopSentence => false
  | .loadWord => false
  | _ => true

/-- A player with a clip of five frames at 30 frames a second, playing at frame 3. -/
def samplePlayer : Player Nat :=
  { initialPlayer Nat true with
    frames := some [0, 1, 2, 3, 4], frameIndex := 3, playing := true, raf := true,
    startTime := 1 }

/-- A player with a clip of ten frames at 24 frames a second, playing at frame 7. -/
def clipAt24 : Player Nat :=
  { initialPlayer Nat true with
    frames := some [0, 1, 2, 3, 4, 5, 6, 7, 8, 9], fps := 24, frameIndex := 7,
    playing := true, raf := true, startTime := 1 }

/-- A player in a session over two glosses, the clip of the first one requested. -/
def sampleSession : Player Nat :=
  { initialPlayer Nat true with
    sentenceMode := { active := true, glosses := ["hat", "lamp"], currentIndex := 0,
                      loop := false } }

/-- A clip JSON with an empty frame list and no declared rate. -/
def emptyClip : ClipJson Nat := .object (some []) none none none

/-- A clip JSON with three frames and no declared rate. -/
def shortClip : ClipJson Nat := .object (some [0, 1, 2]) none none none

/-- The first `k` requests of a session over `glosses`: each gloss with its position. -/
def requestsUpTo (glosses : List String) (k : Nat) : List (Nat × String) :=
  (List.range k).map fun i => (i, glosses.getD i "")

/-- The frame rate is one that `normalizeJson` returns. -/
def FpsInRange {F : Type} (s : Player F) : Prop :=
  1 ≤ s.fps ∧ s.fps ≤ 120

/-- The world after a session over the gloss `pc` with looping on was started, Stop was
pressed while the clip was requested, and the request failed: the word is being
fingerspelled. -/
def stoppedWhileSpelling : World Nat :=
  { player :=
      { initialPlayer Nat true with
        sentenceMode := { active := false, glosses := ["pc"], currentIndex := 0, loop := true },
        fingerspellingState := { active := true, currentWord := "PC", popupElement := true } },
    chains := [.spelling "pc"], requests := [(0, "pc")] }

/-- The state of a session over `glosses` with looping off that a single activation works on,
which stands in `chain`: either it has returned, the scheduler is idle and every gloss has
been requested, or the session is active at a position inside the list and the glosses up to
that position have been requested. -/
def SessionOk (glosses : List String) (mode : SentenceMode) (chain : Chain)
    (requests : List (Nat × String)) : Prop :=
  mode.glosses = glosses ∧ mode.loop = false ∧
  ((chain = .returned ∧ mode.active = false ∧ mode.currentIndex = 0 ∧
      requests = requestsUpTo glosses glosses.length) ∨
   (chain ≠ .returned ∧ mode.active = true ∧ mode.currentIndex < glosses.length ∧
      requests = requestsUpTo glosses (mode.currentIndex + 1)))

/-- The world holds one activation, and `SessionOk` holds of it. -/
def SessionInv {F : Type} (glosses : List String) (w : World F) : Prop :=
  ∃ chain, w.chains = [chain] ∧ SessionOk glosses w.player.sentenceMode chain w.requests

/-- The number of frames of the clip that a request resolved to, `0` when there is none. -/
def clipLength {F : Type} : LoadResult F → Nat
  | .success json =>
    match (normalizeJson none 30 json).arr with
    | some items => items.length
    | none => 0
  | .failure => 0

/-- The events of one word of a session that nothing interrupts: the clip request resolves to
`result` when the clock reads 1, an animation frame runs `tick` when the clock reads a power
of two that is more than 2048 ms per frame of the clip (the clip has ended by then at every
rate of at least one frame a second, whatever the rounding), an animation frame runs
`checkComplete`, and the fingerspelling resolves with `displayedCount` letters shown. An event
that the word does not wait for changes nothing. -/
def wordEvents {F : Type} (result : LoadResult F) (displayedCount : Nat) : List (Event F) :=
  [.loaded 0 result 1, .tick (2 ^ (Nat.log 2 (clipLength result) + 12)), .frame 0,
   .spelled 0 displayedCount]

/-- The events of `count` words from position `i` on: `outcomes k` is what the clip request of
the gloss at position `k` resolves to, `displayed k` the number of letters shown when it is
fingerspelled. -/
def sessionEvents {F : Type} (outcomes : Nat → LoadResult F) (displayed : Nat → Nat) :
    Nat → Nat → List (Event F)
  | _, 0 => []
  | i, count + 1 =>
    wordEvents (outcomes i) (displayed i) ++ sessionEvents outcomes displayed (i + 1) count

/-- The overlay is initialised and not active. -/
def OverlayIdle {F : Type} (s : Player F) : Prop :=
  s.fingerspellingState.popupElement = true ∧ s.fingerspellingState.active = false

/-- The session has requested the clip of the gloss at position `i` and waits for it. -/
def Requested {F : Type} (glosses : List String) (i : Nat) (w : World F) : Prop :=
  i < glosses.length ∧ w.chains = [.loading (glosses.getD i "")] ∧ OverlayIdle w.player ∧
  w.player.sentenceMode =
    { active := true, glosses := glosses, currentIndex := i, loop := false } ∧
  w.requests = requestsUpTo glosses (i + 1)

/-- The session has returned: the scheduler is idle and every gloss has been requested. -/
def Finished {F : Type} (glosses : List String) (w : World F) : Prop :=
  w.chains = [.returned] ∧ w.player.sentenceMode.active = false ∧
  w.player.sentenceMode.currentIndex = 0 ∧
  w.requests = requestsUpTo glosses glosses.length

/-- The session is done with the gloss at position `i`: it has requested the next clip, or it
has returned after the last gloss. -/
def Advanced {F : Type} (glosses : List String) (i : Nat) (w : World F) : Prop :=
  (i + 1 < glosses.length ∧ Requested glosses (i + 1) w) ∨
  (i + 1 = glosses.length ∧ Finished glosses w)

/-- The session plays the clip of the gloss at position `i`, of `n` frames, and waits for its
end; `shown` says that the last frame has been reached. -/
def Playing {F : Type} (glosses : List String) (i n : Nat) (shown : Bool) (w : World F) :
    Prop :=
  i < glosses.length ∧ w.chains = [.waiting n] ∧ OverlayIdle w.player ∧
  w.player.sentenceMode =
    { active := true, glosses := glosses, currentIndex := i, loop := false } ∧
  w.requests = requestsUpTo glosses (i + 1) ∧
  (if shown then w.player.frameIndex ≥ (n : Int) - 1
   else w.player.playing = true ∧ w.player.startTime = 1 ∧ frameCount w.player = n ∧
     n ≠ 0 ∧ 1 ≤ w.player.fps)

/-- The session has the gloss at position `i` fingerspelled and waits for the end of it. -/
def Spelling {F : Type} (glosses : List String) (i : Nat) (w : World F) : Prop :=
  i < glosses.length ∧ w.chains = [.spelling (glosses.getD i "")] ∧
  w.player.fingerspellingState.popupElement = true ∧
  w.player.sentenceMode =
    { active := true, glosses := glosses, currentIndex := i, loop := false } ∧
  w.requests = requestsUpTo glosses (i + 1)

end ISL

namespace ISL

/-! ## Lemmatizer -/

theorem jsLength_append (a b : String) : jsLength (a ++ b) = jsLength a + jsLength b := by
  simp [jsLength, String.data_append, List.map_append, List.sum_append]

theorem endsWith_split {s suffix : String} (h : endsWith s suffix = true) :
    s = dropSuffix s suffix ++ suffix := by
  have h1 : suffix.data <:+ s.data := by
    simpa [endsWith] using h
  have h2 := List.suffix_iff_eq_append.mp h1
  apply String.ext
  simp only [dropSuffix, String.data_append]
  exact h2.symm

theorem jsLength_dropSuffix {s suffix : String} (h : endsWith s suffix = true) :
    jsLength s = jsLength (dropSuffix s suffix) + jsLength suffix := by
  have h1 := endsWith_split h
  calc jsLength s = jsLength (dropSuffix s suffix ++ suffix) := by rw [← h1]
    _ = jsLength (dropSuffix s suffix) + jsLength suffix := jsLength_append _ _

theorem rules_regular : ∀ r ∈ LEMMA_SUFFIX_RULES, r.Regular := by
  intro r hr
  simp only [LEMMA_SUFFIX_RULES, List.mem_cons, List.mem_singleton, List.not_mem_nil,
    or_false] at hr
  rcases hr with h | h | h | h | h | h | h <;> subst h <;>
    refine ⟨by decide, by decide, by decide⟩

theorem stem_length_of_applies {lower : String} {r : SuffixRule} (hr : r.Regular)
    (h1 : endsWith lower r.suffix = true) (h2 : r.min < jsLength lower) :
    2 ≤ jsLength (dropSuffix lower r.suffix ++ r.replacement) := by
  have h3 := jsLength_dropSuffix h1
  have h4 := hr.2.2
  rw [jsLength_append]
  omega

theorem lemmatizeLoop_eq_find (lower : String) (rules : List SuffixRule)
    (hr : ∀ r ∈ rules, r.Regular) :
    lemmatizeLoop lower rules =
      match rules.find? (ruleApplies lower) with
      | some rule => dropSuffix lower rule.suffix ++ rule.replacement
      | none => lower := by
  induction rules with
  | nil => rfl
  | cons r rest ih =>
    have hreg := hr r (List.mem_cons_self _ _)
    have ih1 := ih fun x hx => hr x (List.mem_cons_of_mem _ hx)
    by_cases h1 : endsWith lower r.suffix = true
    · by_cases h2 : r.min < jsLength lower
      · by_cases h3 : r.suffix = "s"
        · have hd : r.skipDouble = true := hreg.2.1 h3
          have hl : lastCharOf r.suffix = "s" := by rw [h3]; decide
          have hss : r.suffix ++ lastCharOf r.suffix = "ss" := by rw [hl, h3]; decide
          by_cases h4 : endsWith lower "ss" = true
          · simp [lemmatizeLoop, List.find?, ruleApplies, h1, h2, h3, hd, hl, h4, ih1,
              Nat.not_le.mpr h2, show ("s" : String) ++ "s" = "ss" by decide]
          · have hstem := stem_length_of_applies hreg h1 h2
            simp only [h3] at hstem h1
            simp [lemmatizeLoop, List.find?, ruleApplies, h1, h2, h3, hd, h4,
              Nat.not_le.mpr h2, show ("s" : String) ++ "s" = "ss" by decide, hstem,
              show lastCharOf "s" = "s" by decide]
        · have hd : r.skipDouble = false := by
            cases hsd : r.skipDouble
            · rfl
            · exact absurd (hreg.1 hsd) h3
          have hstem := stem_length_of_applies hreg h1 h2
          simp [lemmatizeLoop, List.find?, ruleApplies, h1, h2, h3, hd, Nat.not_le.mpr h2,
            hstem]
      · simp [lemmatizeLoop, List.find?, ruleApplies, h1, h2, ih1, Nat.le_of_not_lt h2]
    · simp [lemmatizeLoop, List.find?, ruleApplies, h1, ih1]

theorem lookup_mem {l : List (String × String)} {k v : String} (h : l.lookup k = some v) :
    (k, v) ∈ l := by
  obtain ⟨l₁, l₂, h1, _⟩ := List.lookup_eq_some_iff.mp h
  rw [h1]
  simp

theorem overrides_nonempty {k v : String} (h : LEMMA_OVERRIDES.lookup k = some v) : v ≠ "" := by
  have h1 : ∀ e ∈ LEMMA_OVERRIDES, e.2 ≠ "" := by decide
  exact h1 _ (lookup_mem h)

/-- Away from the property names inherited from `Object.prototype`, `lemmatizeWord` is the
lemmatizer of the specification. -/
theorem lemmatizeWord_eq_lemmaBySpec (word : String)
    (hkey : toLowerCase word ∉ OBJECT_PROTOTYPE_KEYS) :
    lemmatizeWord word = .str (lemmaBySpec word) := by
  by_cases hw : word = ""
  · subst hw; decide
  · have hloop := lemmatizeLoop_eq_find (toLowerCase word) LEMMA_SUFFIX_RULES rules_regular
    cases hl : LEMMA_OVERRIDES.lookup (toLowerCase word) with
    | some v =>
      have hv := overrides_nonempty hl
      simp [lemmatizeWord, lemmaBySpec, jsGet, hl, hw, truthy?, JSValue.truthy, hv]
    | none =>
      simp only [lemmatizeWord, lemmaBySpec, jsGet, hl, hw, hkey, truthy?, if_false, hloop]
      simp

/-- C10: at the word `constructor` (and likewise `__proto__`) the override read
`LEMMA_OVERRIDES[lower]` yields the member inherited from `Object.prototype`, so
`lemmatizeWord` returns that object where the specified lemmatizer returns the unchanged
word; on the claim's own examples the two agree. -/
theorem lemmatizeWord_inherited_key :
    lemmatizeWord "constructor" = .inherited "constructor" ∧
    lemmaBySpec "constructor" = "constructor" ∧
    lemmatizeWord "__proto__" = .inherited "__proto__" ∧
    lemmaBySpec "__proto__" = "__proto__" ∧
    lemmatizeWord "Happiest" = .str "happy" ∧ lemmatizeWord "cities" = .str "city" ∧
    lemmatizeWord "wolves" = .str "wolf" ∧ lemmatizeWord "dress" = .str "dress" ∧
    lemmatizeWord "beds" = .str "beds" := by
  decide

theorem lemmatizeWord_eq_lemmaBySpec_witness :
    toLowerCase "Cities" ∉ OBJECT_PROTOTYPE_KEYS ∧
      lemmatizeWord "Cities" = .str (lemmaBySpec "Cities") :=
  ⟨by decide, lemmatizeWord_eq_lemmaBySpec "Cities" (by decide)⟩

/-! ## Alias table and span resolution -/

set_option maxRecDepth 100000 in
theorem alias_values_in_vocabulary : ∀ e ∈ ALIAS_TO_CANONICAL, e.2 ∈ AVAILABLE_WORDS := by
  decide

theorem vocabulary_nonempty_words : ∀ w ∈ AVAILABLE_WORDS, w ≠ "" := by
  decide

theorem alias_lookup_in_vocabulary {k v : String} (h : ALIAS_TO_CANONICAL.lookup k = some v) :
    v ∈ AVAILABLE_WORDS :=
  alias_values_in_vocabulary _ (lookup_mem h)

set_option maxRecDepth 100000 in
theorem alias_lookup_empty : ALIAS_TO_CANONICAL.lookup "" = none := by
  decide

/-- Away from the property names inherited from `Object.prototype`, `resolveCanonicalPhrase`
is the resolution of the specification. -/
theorem resolveCanonicalPhrase_eq_resolveBySpec (c l : String)
    (hc : c ∉ OBJECT_PROTOTYPE_KEYS) (hl : l ∉ OBJECT_PROTOTYPE_KEYS) :
    resolveCanonicalPhrase c l = resolveBySpec c l := by
  unfold resolveCanonicalPhrase resolveBySpec
  by_cases h1 : c ∈ AVAILABLE_WORDS
  · simp [h1]
  · by_cases h2 : l ∈ AVAILABLE_WORDS
    · have h3 : l ≠ "" := vocabulary_nonempty_words l h2
      simp [h1, h2, h3]
    · simp only [h1, h2, and_false, if_false]
      cases h4 : ALIAS_TO_CANONICAL.lookup c with
      | some v =>
        have hv : v ≠ "" := vocabulary_nonempty_words v (alias_lookup_in_vocabulary h4)
        simp [jsGet, h4, truthy?, JSValue.truthy, hv]
      | none =>
        by_cases h5 : l = ""
        · subst h5
          simp [jsGet, h4, hc, truthy?, alias_lookup_empty]
        · cases h6 : ALIAS_TO_CANONICAL.lookup l with
          | some v =>
            have hv : v ≠ "" := vocabulary_nonempty_words v (alias_lookup_in_vocabulary h6)
            simp [jsGet, h4, h6, hc, h5, truthy?, JSValue.truthy, hv]
          | none =>
            simp [jsGet, h4, h6, hc, hl, h5, truthy?]

set_option maxRecDepth 100000 in
/-- C4: for the span `constructor` (lemmatized form as `join` renders it) the alias read
`ALIAS_TO_CANONICAL[candidate]` yields the member inherited from `Object.prototype`, so
`resolveCanonicalPhrase` reports an alias resolution to that object where the specified rules
give no resolution; the priority of the lemma rule over the alias rule holds as stated
(`skirts`). -/
theorem resolveCanonicalPhrase_inherited_key :
    resolveCanonicalPhrase "constructor" (lemmatizeWord "constructor").toJSString =
      some ⟨.inherited "constructor", .alias⟩ ∧
    resolveBySpec "constructor" (lemmatizeWord "constructor").toJSString = none ∧
    ALIAS_TO_CANONICAL.lookup "skirts" = some "skirt" ∧
    resolveCanonicalPhrase "skirts" "skirt" = some ⟨.str "skirt", .lemma_⟩ := by
  decide

set_option maxRecDepth 100000 in
theorem resolveCanonicalPhrase_eq_resolveBySpec_witness :
    "pc" ∉ OBJECT_PROTOTYPE_KEYS ∧ "pc" ∉ OBJECT_PROTOTYPE_KEYS ∧
      resolveCanonicalPhrase "pc" "pc" = resolveBySpec "pc" "pc" :=
  ⟨by decide, by decide, resolveCanonicalPhrase_eq_resolveBySpec "pc" "pc" (by decide)
    (by decide)⟩

/-! ## Gloss sequence builder -/

section Builder

variable {σ : Type}

theorem wellFormed_of_isWellFormed {t : Token σ} (h : t.isWellFormed = true) :
    t.WellFormed := by
  unfold Token.isWellFormed at h
  unfold Token.WellFormed
  cases hk : t.kind <;> cases hc : t.canonical <;> simp_all
  all_goals
    rename_i v
    cases v <;> simp_all

theorem wellFormed_all {tokens : List (Token σ)} (h : ∀ t ∈ tokens, t.isWellFormed = true) :
    ∀ t ∈ tokens, t.WellFormed :=
  fun t ht => wellFormed_of_isWellFormed (h t ht)

theorem tokenWord_of_wellFormed {t : Token σ} (h : t.WellFormed) :
    tokenWord t = if t.kind = .raw then .str t.original else t.canonical.getD (.str "") := by
  by_cases hk : t.kind = .raw
  · simp [tokenWord, h.2 hk, hk, truthy?]
  · obtain ⟨c, hc, hcan⟩ := h.1 hk
    simp [tokenWord, hcan, hk, truthy?, JSValue.truthy, hc]

theorem tokenWord_str_of_wellFormed {t : Token σ} (h : t.WellFormed) :
    ∃ p, tokenWord t = .str p := by
  by_cases hk : t.kind = .raw
  · exact ⟨t.original, by simp [tokenWord, h.2 hk, truthy?]⟩
  · obtain ⟨c, hc, hcan⟩ := h.1 hk
    exact ⟨c, by simp [tokenWord, hcan, truthy?, JSValue.truthy, hc]⟩

theorem bucketLoop_eq (ts : List (Token σ)) (timeFirst others : List (Token σ × JSValue))
    (h : ∀ t ∈ ts, ∃ p, tokenWord t = .str p) :
    bucketLoop ts timeFirst others =
      some (timeFirst ++ (ts.filter inTimeBucket).map (fun t => (t, tokenWord t)),
            others ++ (ts.filter fun t => !inTimeBucket t).map (fun t => (t, tokenWord t))) := by
  induction ts generalizing timeFirst others with
  | nil => simp [bucketLoop]
  | cons t rest ih =>
    have ih1 := fun a b => ih a b fun x hx => h x (List.mem_cons_of_mem _ hx)
    obtain ⟨p, hp⟩ := h t (List.mem_cons_self _ _)
    by_cases hk : t.kind = .raw
    · simp [bucketLoop, hk, ih1, inTimeBucket]
    · by_cases ht : isTimePhrase p = true
      · simp [bucketLoop, hk, hp, ht, ih1, inTimeBucket]
      · simp [bucketLoop, hk, hp, ht, ih1, inTimeBucket]

theorem buildGlossSequence_eq (tokens : List (Token σ)) (h : ∀ t ∈ tokens, t.WellFormed) :
    buildGlossSequence tokens =
      some (((tokens.filter isSelected).filter inTimeBucket).map tokenWord ++
            ((tokens.filter isSelected).filter fun t => !inTimeBucket t).map tokenWord) := by
  have h1 : ∀ t ∈ tokens.filter isSelected, ∃ p, tokenWord t = .str p := fun t ht =>
    tokenWord_str_of_wellFormed (h t (List.mem_of_mem_filter ht))
  simp [buildGlossSequence, bucketLoop_eq _ _ _ h1, List.map_map, Function.comp_def]

theorem isSelected_iff (t : Token σ) :
    isSelected t = decide (((t.kind = .matched ∨ t.kind = .semantic) ∧ t.accepted ≠ false) ∨
      (t.kind = .raw ∧ FINGERSPELLING_ENABLED = true)) := by
  cases hk : t.kind <;> cases ha : t.accepted <;> simp [isSelected, hk, ha, FINGERSPELLING_ENABLED]

/-- C5: for a list of tokens of the data model, `buildGlossSequence` returns a sequence that
holds, up to order, exactly one entry for every token that is (matched or semantic and not
rejected) or (raw, fingerspelling being enabled) and none for any other token: the canonical
word of a matched or semantic token, the original surface text of a raw token. -/
theorem buildGlossSequence_selection (tokens : List (Token σ))
    (hwf : ∀ t ∈ tokens, t.isWellFormed = true) :
    ∃ out, buildGlossSequence tokens = some out ∧
      out.Perm
        ((tokens.filter fun t =>
            decide (((t.kind = .matched ∨ t.kind = .semantic) ∧ t.accepted ≠ false) ∨
              (t.kind = .raw ∧ FINGERSPELLING_ENABLED = true))).map
          fun t => if t.kind = .raw then JSValue.str t.original
                   else t.canonical.getD (.str "")) ∧
      out.length =
        (tokens.filter fun t =>
            decide (((t.kind = .matched ∨ t.kind = .semantic) ∧ t.accepted ≠ false) ∨
              (t.kind = .raw ∧ FINGERSPELLING_ENABLED = true))).length := by
  have hsel : (fun t : Token σ =>
      decide (((t.kind = .matched ∨ t.kind = .semantic) ∧ t.accepted ≠ false) ∨
        (t.kind = .raw ∧ FINGERSPELLING_ENABLED = true))) = isSelected := by
    funext t; exact (isSelected_iff t).symm
  have hword : ∀ t ∈ tokens.filter isSelected,
      tokenWord t = (fun t : Token σ => if t.kind = .raw then JSValue.str t.original
        else t.canonical.getD (.str "")) t := fun t ht =>
    tokenWord_of_wellFormed (wellFormed_all hwf t (List.mem_of_mem_filter ht))
  have hperm : (((tokens.filter isSelected).filter inTimeBucket).map tokenWord ++
      ((tokens.filter isSelected).filter fun t => !inTimeBucket t).map tokenWord).Perm
      ((tokens.filter isSelected).map tokenWord) := by
    rw [← List.map_append]
    exact (List.filter_append_perm _ _).map _
  refine ⟨_, buildGlossSequence_eq tokens (wellFormed_all hwf), ?_, ?_⟩
  · rw [hsel, ← List.map_congr_left hword]
    exact hperm
  · rw [hsel, hperm.length_eq, List.length_map]

/-- C6: for a list of tokens of the data model, the output of `buildGlossSequence` is the
words of the selected tokens that pass the builder's time test, in their original relative
order, followed by the words of the other selected tokens, in their original relative order;
it is a permutation of the selected words, and both parts are subsequences of them. For
matched tokens hat, monday, shirt the output is monday, hat, shirt. -/
theorem buildGlossSequence_stable_reorder (tokens : List (Token σ))
    (hwf : ∀ t ∈ tokens, t.isWellFormed = true) :
    buildGlossSequence tokens =
      some (((tokens.filter isSelected).filter inTimeBucket).map tokenWord ++
            ((tokens.filter isSelected).filter fun t => !inTimeBucket t).map tokenWord) ∧
    (((tokens.filter isSelected).filter inTimeBucket).map tokenWord ++
        ((tokens.filter isSelected).filter fun t => !inTimeBucket t).map tokenWord).Perm
      ((tokens.filter isSelected).map tokenWord) ∧
    (((tokens.filter isSelected).filter inTimeBucket).map tokenWord).Sublist
      ((tokens.filter isSelected).map tokenWord) ∧
    (((tokens.filter isSelected).filter fun t => !inTimeBucket t).map tokenWord).Sublist
      ((tokens.filter isSelected).map tokenWord) ∧
    buildGlossSequence
        ([matchToken ⟨.str "hat", .exact⟩ "hat", matchToken ⟨.str "monday", .exact⟩ "monday",
          matchToken ⟨.str "shirt", .exact⟩ "shirt"] : List (Token σ)) =
      some [.str "monday", .str "hat", .str "shirt"] := by
  refine ⟨buildGlossSequence_eq tokens (wellFormed_all hwf), ?_, ?_, ?_, ?_⟩
  · rw [← List.map_append]
    exact (List.filter_append_perm _ _).map _
  · exact (List.filter_sublist _).map _
  · exact (List.filter_sublist _).map _
  · rfl

theorem inTimeBucket_iff {t : Token σ} (h : t.WellFormed) :
    inTimeBucket t = true ↔
      t.kind ≠ .raw ∧ ∃ c, t.canonical = some (.str c) ∧ ∃ w ∈ splitSpace c, w ∈ TIME_WORDS := by
  by_cases hk : t.kind = .raw
  · simp [inTimeBucket, hk]
  · obtain ⟨c, hc, hcan⟩ := h.1 hk
    simp [inTimeBucket, hk, tokenWord, hcan, truthy?, JSValue.truthy, hc, isTimePhrase]

/-- C7, as amended: for a list of tokens of the data model the output is the words of a time
bucket followed by the words of the other bucket, where a selected token is in the time
bucket exactly when it is matched or semantic and a space-separated word of its canonical is
in `TIME_WORDS`; a selected raw token is always in the other bucket, whatever its text. -/
theorem buildGlossSequence_time_bucket (tokens : List (Token σ))
    (hwf : ∀ t ∈ tokens, t.isWellFormed = true) :
    ∃ timeTokens otherTokens : List (Token σ),
      buildGlossSequence tokens = some (timeTokens.map tokenWord ++ otherTokens.map tokenWord) ∧
      (∀ t, t ∈ timeTokens ↔
        t ∈ tokens ∧ isSelected t = true ∧ t.kind ≠ .raw ∧
          ∃ c, t.canonical = some (.str c) ∧ ∃ w ∈ splitSpace c, w ∈ TIME_WORDS) ∧
      (∀ t, t ∈ otherTokens ↔
        t ∈ tokens ∧ isSelected t = true ∧
          (t.kind = .raw ∨
            ∃ c, t.canonical = some (.str c) ∧ ∀ w ∈ splitSpace c, w ∉ TIME_WORDS)) := by
  refine ⟨(tokens.filter isSelected).filter inTimeBucket,
    (tokens.filter isSelected).filter (fun t => !inTimeBucket t),
    buildGlossSequence_eq tokens (wellFormed_all hwf), ?_, ?_⟩
  · intro t
    constructor
    · intro ht
      have h1 := List.mem_filter.mp ht
      have h2 := List.mem_filter.mp h1.1
      exact ⟨h2.1, h2.2, (inTimeBucket_iff (wellFormed_all hwf t h2.1)).mp h1.2⟩
    · rintro ⟨h1, h2, h3⟩
      exact List.mem_filter.mpr ⟨List.mem_filter.mpr ⟨h1, h2⟩,
        (inTimeBucket_iff (wellFormed_all hwf t h1)).mpr h3⟩
  · intro t
    constructor
    · intro ht
      have h1 := List.mem_filter.mp ht
      have h2 := List.mem_filter.mp h1.1
      have hw := wellFormed_all hwf t h2.1
      refine ⟨h2.1, h2.2, ?_⟩
      by_cases hk : t.kind = .raw
      · exact Or.inl hk
      · obtain ⟨c, hc, hcan⟩ := hw.1 hk
        refine Or.inr ⟨c, hcan, fun w hw1 hw2 => ?_⟩
        have h3 : inTimeBucket t = true := (inTimeBucket_iff hw).mpr ⟨hk, c, hcan, w, hw1, hw2⟩
        simp [h3] at h1
    · rintro ⟨h1, h2, h3⟩
      have hw := wellFormed_all hwf t h1
      refine List.mem_filter.mpr ⟨List.mem_filter.mpr ⟨h1, h2⟩, ?_⟩
      have h4 : ¬ inTimeBucket t = true := by
        intro h5
        obtain ⟨hk, c, hcan, w, hw1, hw2⟩ := (inTimeBucket_iff hw).mp h5
        rcases h3 with h3 | ⟨c2, hcan2, h3⟩
        · exact hk h3
        · rw [hcan] at hcan2
          cases hcan2
          exact h3 w hw1 hw2
      simpa using h4

end Builder

theorem buildGlossSequence_selection_witness :
    (∀ t ∈ sampleTokens, t.isWellFormed = true) ∧
    ∃ out, buildGlossSequence sampleTokens = some out ∧
      out.Perm
        ((sampleTokens.filter fun t =>
            decide (((t.kind = .matched ∨ t.kind = .semantic) ∧ t.accepted ≠ false) ∨
              (t.kind = .raw ∧ FINGERSPELLING_ENABLED = true))).map
          fun t => if t.kind = .raw then JSValue.str t.original
                   else t.canonical.getD (.str "")) ∧
      out.length =
        (sampleTokens.filter fun t =>
            decide (((t.kind = .matched ∨ t.kind = .semantic) ∧ t.accepted ≠ false) ∨
              (t.kind = .raw ∧ FINGERSPELLING_ENABLED = true))).length :=
  ⟨by decide, buildGlossSequence_selection sampleTokens (by decide)⟩

theorem buildGlossSequence_stable_reorder_witness :
    (∀ t ∈ sampleTokens, t.isWellFormed = true) ∧
    buildGlossSequence sampleTokens = some [.str "monday", .str "hat", .str "tomorrow"] := by
  refine ⟨by decide, ?_⟩
  have h := (buildGlossSequence_stable_reorder sampleTokens (by decide)).1
  rw [h]
  decide

/-- C7 as stated fails on the tokens of `hat tomorrow`: the raw token `tomorrow` is selected
and its text is in `TIME_WORDS`, yet it is emitted after the non-time token `hat`. -/
theorem raw_time_word_stays_behind :
    (segmentWords ["hat", "tomorrow"] : List (Token Unit)) =
      [matchToken ⟨.str "hat", .exact⟩ "hat",
       rawToken "tomorrow" "tomorrow" (some (.str "tomorrow"))] ∧
    "tomorrow" ∈ TIME_WORDS ∧
    buildGlossSequence
        ([matchToken ⟨.str "hat", .exact⟩ "hat",
          rawToken "tomorrow" "tomorrow" (some (.str "tomorrow"))] : List (Token Unit)) =
      some [.str "hat", .str "tomorrow"] ∧
    buildGlossSequence
        ([matchToken ⟨.str "hat", .exact⟩ "hat",
          rawToken "tomorrow" "tomorrow" (some (.str "tomorrow"))] : List (Token Unit)) ≠
      some [.str "tomorrow", .str "hat"] := by
  set_option maxRecDepth 100000 in decide

theorem buildGlossSequence_time_bucket_witness :
    (∀ t ∈ sampleTokens, t.isWellFormed = true) ∧
    ∃ timeTokens otherTokens : List (Token Unit),
      buildGlossSequence sampleTokens =
        some (timeTokens.map tokenWord ++ otherTokens.map tokenWord) ∧
      (∀ t, t ∈ timeTokens ↔
        t ∈ sampleTokens ∧ isSelected t = true ∧ t.kind ≠ .raw ∧
          ∃ c, t.canonical = some (.str c) ∧ ∃ w ∈ splitSpace c, w ∈ TIME_WORDS) ∧
      (∀ t, t ∈ otherTokens ↔
        t ∈ sampleTokens ∧ isSelected t = true ∧
          (t.kind = .raw ∨
            ∃ c, t.canonical = some (.str c) ∧ ∀ w ∈ splitSpace c, w ∉ TIME_WORDS)) :=
  ⟨by decide, buildGlossSequence_time_bucket sampleTokens (by decide)⟩

/-! ## Splitting and joining on single spaces -/

theorem splitSpaceChars_ne_nil (cs : List Char) : splitSpaceChars cs ≠ [] := by
  cases cs with
  | nil => simp [splitSpaceChars]
  | cons c cs =>
    unfold splitSpaceChars
    split
    · simp
    · split <;> simp

theorem splitSpaceChars_no_space (cs : List Char) : ∀ w ∈ splitSpaceChars cs, ' ' ∉ w := by
  induction cs with
  | nil => intro w hw; simp [splitSpaceChars] at hw; simp [hw]
  | cons c cs ih =>
    intro w hw
    unfold splitSpaceChars at hw
    by_cases hc : c = ' '
    · simp only [hc, if_true] at hw
      rcases List.mem_cons.mp hw with rfl | hw
      · simp
      · exact ih w hw
    · simp only [hc, if_false] at hw
      cases hs : splitSpaceChars cs with
      | nil => exact absurd hs (splitSpaceChars_ne_nil cs)
      | cons v vs =>
        rw [hs] at hw ih
        rcases List.mem_cons.mp hw with rfl | hw
        · intro hmem
          rcases List.mem_cons.mp hmem with h | h
          · exact hc h.symm
          · exact ih v (List.mem_cons_self _ _) h
        · exact ih w (List.mem_cons_of_mem _ hw)

theorem splitSpaceChars_of_no_space (w : List Char) (h : ' ' ∉ w) : splitSpaceChars w = [w] := by
  induction w with
  | nil => rfl
  | cons c w ih =>
    have hc : c ≠ ' ' := fun hc => h (by simp [hc])
    have hw : ' ' ∉ w := fun hw => h (List.mem_cons_of_mem _ hw)
    simp [splitSpaceChars, hc, ih hw]

theorem splitSpaceChars_append (w rest : List Char) (h : ' ' ∉ w) :
    splitSpaceChars (w ++ ' ' :: rest) = w :: splitSpaceChars rest := by
  induction w with
  | nil => simp [splitSpaceChars]
  | cons c w ih =>
    have hc : c ≠ ' ' := fun hc => h (by simp [hc])
    have hw : ' ' ∉ w := fun hw => h (List.mem_cons_of_mem _ hw)
    simp [splitSpaceChars, hc, ih hw]

theorem splitSpace_joinSpace (ws : List String) (hne : ws ≠ [])
    (h : ∀ w ∈ ws, ' ' ∉ w.data) : splitSpace (joinSpace ws) = ws := by
  induction ws with
  | nil => exact absurd rfl hne
  | cons w rest ih =>
    have hw : ' ' ∉ w.data := h w (List.mem_cons_self _ _)
    cases rest with
    | nil => simp [splitSpace, joinSpace, splitSpaceChars_of_no_space _ hw]
    | cons v vs =>
      have ih1 := ih (by simp) fun x hx => h x (List.mem_cons_of_mem _ hx)
      have hdata : (joinSpace (w :: v :: vs)).data =
          w.data ++ ' ' :: (joinSpace (v :: vs)).data := by
        simp [joinSpace, String.data_append]
      unfold splitSpace at ih1 ⊢
      rw [hdata, splitSpaceChars_append _ _ hw, List.map_cons, ih1]

theorem splitSpace_no_space (s : String) : ∀ w ∈ splitSpace s, ' ' ∉ w.data := by
  intro w hw
  obtain ⟨cs, hcs, rfl⟩ := List.mem_map.mp hw
  exact splitSpaceChars_no_space _ cs hcs

theorem rawWordsOf_no_space {sentence : String} {rawWords : List String}
    (h : rawWordsOf sentence = some (some rawWords)) : ∀ w ∈ rawWords, ' ' ∉ w.data := by
  unfold rawWordsOf at h
  simp only at h
  split at h
  · simp at h
  · split at h
    · split at h
      · simp at h
      · simp only [Option.some.injEq] at h
        subst h
        exact splitSpace_no_space _
    · simp at h

/-! ## Segmenter -/

section Segmenter

variable {σ : Type}

theorem findMatch_none {normalizedWords : List String} {lemmaWords : List JSValue}
    {position : Nat} (k : Nat) (h : findMatch normalizedWords lemmaWords position k = none) :
    ∀ len, 1 ≤ len → len ≤ k → resolveSpan normalizedWords lemmaWords position len = none := by
  induction k with
  | zero => intro len h1 h2; omega
  | succ k ih =>
    intro len h1 h2
    unfold findMatch at h
    cases hr : resolveSpan normalizedWords lemmaWords position (k + 1) with
    | some r => simp [hr] at h
    | none =>
      simp only [hr] at h
      by_cases hk : len = k + 1
      · rw [hk]; exact hr
      · exact ih h len h1 (by omega)

theorem findMatch_some {normalizedWords : List String} {lemmaWords : List JSValue}
    {position : Nat} (k : Nat) {len : Nat} {resolved : Resolved}
    (h : findMatch normalizedWords lemmaWords position k = some (len, resolved)) :
    1 ≤ len ∧ len ≤ k ∧ resolveSpan normalizedWords lemmaWords position len = some resolved ∧
      ∀ longer, len < longer → longer ≤ k →
        resolveSpan normalizedWords lemmaWords position longer = none := by
  induction k with
  | zero => simp [findMatch] at h
  | succ k ih =>
    unfold findMatch at h
    cases hr : resolveSpan normalizedWords lemmaWords position (k + 1) with
    | some r =>
      simp only [hr, Option.some.injEq, Prod.mk.injEq] at h
      obtain ⟨h1, h2⟩ := h
      subst h1 h2
      exact ⟨by omega, Nat.le_refl _, hr, fun longer h3 h4 => by omega⟩
    | none =>
      simp only [hr] at h
      obtain ⟨h1, h2, h3, h4⟩ := ih h
      refine ⟨h1, by omega, h3, fun longer h5 h6 => ?_⟩
      by_cases hk : longer = k + 1
      · rw [hk]; exact hr
      · exact h4 longer h5 (by omega)

/-- With fuel for every remaining word the loop performs a longest-match pass and pushes
exactly the tokens of that pass. -/
theorem segmentLoop_trace (rawWords normalizedWords : List String) (lemmaWords : List JSValue)
    (fuel position : Nat) (hfuel : normalizedWords.length - position ≤ fuel) :
    ∃ pieces : List (Piece σ),
      LongestMatch rawWords normalizedWords lemmaWords position pieces ∧
      pieces.filterMap Piece.token? =
        segmentLoop rawWords normalizedWords lemmaWords fuel position := by
  induction fuel generalizing position with
  | zero => exact ⟨[], .done (by omega), by simp [segmentLoop]⟩
  | succ fuel ih =>
    by_cases hlt : position < normalizedWords.length
    · cases hf : findMatch normalizedWords lemmaWords position
          (normalizedWords.length - position) with
      | some found =>
        obtain ⟨len, resolved⟩ := found
        obtain ⟨h1, h2, h3, h4⟩ := findMatch_some _ hf
        obtain ⟨rest, hrest, htok⟩ := ih (position + len) (by omega)
        refine ⟨_, .matched h1 (by omega) h3 (fun longer h5 h6 => h4 longer h5 (by omega)) hrest,
          ?_⟩
        simp [segmentLoop, hlt, hf, Piece.token?, htok]
      | none =>
        have hnone := findMatch_none _ hf
        obtain ⟨rest, hrest, htok⟩ := ih (position + 1) (by omega)
        by_cases hw : normalizedWords.getD position "" ∈ FUNCTION_WORDS
        · refine ⟨_, .dropped hlt (fun len h5 h6 => hnone len h5 (by omega)) hw hrest, ?_⟩
          simp only [List.filterMap_cons, Piece.token?, htok, segmentLoop, hlt, hf, hw,
            ↓reduceIte, not_true_eq_false, not_false_eq_true]
        · refine ⟨_, .raw hlt (fun len h5 h6 => hnone len h5 (by omega)) hw hrest, ?_⟩
          simp only [List.filterMap_cons, Piece.token?, htok, segmentLoop, hlt, hf, hw,
            ↓reduceIte, not_true_eq_false, not_false_eq_true]
    · exact ⟨[], .done (by omega), by simp [segmentLoop, hlt]⟩

theorem slice_append_drop {α : Type} (xs : List α) (position len : Nat) :
    slice xs position (position + len) ++ xs.drop (position + len) = xs.drop position := by
  have h : position + len - position = len := by omega
  rw [slice, h, ← List.drop_drop, List.take_append_drop]

theorem getD_cons_drop (xs : List String) (position : Nat) (h : position < xs.length) :
    xs.getD position "" :: xs.drop (position + 1) = xs.drop position := by
  rw [List.drop_eq_getElem_cons h]
  simp [List.getD_eq_getElem?_getD, List.getElem?_eq_getElem h]

theorem LongestMatch.flatMap_words {rawWords normalizedWords : List String}
    {lemmaWords : List JSValue} {position : Nat} {pieces : List (Piece σ)}
    (hlen : rawWords.length = normalizedWords.length)
    (h : LongestMatch rawWords normalizedWords lemmaWords position pieces) :
    pieces.flatMap Piece.words = rawWords.drop position := by
  induction h with
  | done hend => simp [List.drop_eq_nil_of_le (hlen ▸ hend)]
  | matched hpos hfit hres hlongest hrest ih =>
    simp only [List.flatMap_cons, Piece.words, ih]
    exact slice_append_drop _ _ _
  | raw hlt hnone hword hrest ih =>
    simp only [List.flatMap_cons, Piece.words, ih, List.singleton_append]
    exact getD_cons_drop _ _ (hlen ▸ hlt)
  | dropped hlt hnone hword hrest ih =>
    simp only [List.flatMap_cons, Piece.words, ih, List.singleton_append]
    exact getD_cons_drop _ _ (hlen ▸ hlt)

theorem slice_ne_nil {α : Type} (xs : List α) (position len : Nat) (hpos : 1 ≤ len)
    (hfit : position + len ≤ xs.length) : slice xs position (position + len) ≠ [] := by
  intro h
  have h1 := congrArg List.length h
  simp [slice, List.length_take, List.length_drop] at h1
  omega

theorem LongestMatch.pieces_ok {rawWords : List String} {lemmaWords : List JSValue}
    {position : Nat} {pieces : List (Piece σ)}
    (h : LongestMatch rawWords (rawWords.map toLowerCase) lemmaWords position pieces) :
    ∀ p ∈ pieces,
      match p with
      | .token t span => span ≠ [] ∧ t.original = joinSpace span
      | .dropped word => toLowerCase word ∈ FUNCTION_WORDS := by
  induction h with
  | done hend => intro p hp; simp at hp
  | matched hpos hfit hres hlongest hrest ih =>
    intro p hp
    rcases List.mem_cons.mp hp with rfl | hp
    · exact ⟨slice_ne_nil _ _ _ hpos (by simpa using hfit), rfl⟩
    · exact ih p hp
  | raw hlt hnone hword hrest ih =>
    intro p hp
    rcases List.mem_cons.mp hp with rfl | hp
    · exact ⟨by simp, rfl⟩
    · exact ih p hp
  | @dropped position rest hlt hnone hword hrest ih =>
    intro p hp
    rcases List.mem_cons.mp hp with rfl | hp
    · have hlt1 : position < rawWords.length := by simpa using hlt
      have h1 : (rawWords.map toLowerCase).getD position "" =
          toLowerCase (rawWords.getD position "") := by
        simp [List.getD_eq_getElem?_getD, List.getElem?_eq_getElem hlt1]
      show toLowerCase (rawWords.getD position "") ∈ FUNCTION_WORDS
      rw [← h1]; exact hword
    · exact ih p hp

/-- The segmenter's tokens over any word sequence: a longest-match pass from the first word,
whose pieces cover the words exactly. -/
theorem segmentWords_trace (rawWords : List String) :
    ∃ pieces : List (Piece σ),
      LongestMatch rawWords (rawWords.map toLowerCase)
        ((rawWords.map toLowerCase).map lemmatizeWord) 0 pieces ∧
      pieces.filterMap Piece.token? = segmentWords rawWords ∧
      pieces.flatMap Piece.words = rawWords := by
  obtain ⟨pieces, h1, h2⟩ := segmentLoop_trace (σ := σ) rawWords (rawWords.map toLowerCase)
    ((rawWords.map toLowerCase).map lemmatizeWord) (rawWords.map toLowerCase).length 0
    (by omega)
  refine ⟨pieces, h1, h2, ?_⟩
  have h3 := h1.flatMap_words (by simp)
  simpa using h3

/-- C1: for every sentence, with `rawWords` its cleaned word sequence, the segmenter's pass
splits `rawWords` into consecutive pieces, left to right with no gap and no overlap: each
token (in token order) covers a non-empty span of words, its `original` is that span joined
by single spaces (and splits back into it), and every word that produced no token is a
function word: its lower-cased form is in `FUNCTION_WORDS`. -/
theorem segmentation_partitions_words (sentence : String) (rawWords : List String)
    (h : rawWordsOf sentence = some (some rawWords)) :
    ∃ pieces : List (Piece σ),
      pieces.flatMap Piece.words = rawWords ∧
      pieces.filterMap Piece.token? = segmentWords rawWords ∧
      ∀ p ∈ pieces, p.Covers := by
  obtain ⟨pieces, h1, h2, h3⟩ := segmentWords_trace (σ := σ) rawWords
  refine ⟨pieces, h3, h2, fun p hp => ?_⟩
  have hok := h1.pieces_ok p hp
  have hsub : ∀ w ∈ p.words, w ∈ rawWords := fun w hw => by
    rw [← h3]
    exact List.mem_flatMap.mpr ⟨p, hp, hw⟩
  cases p with
  | token t span =>
    obtain ⟨hne, horig⟩ := hok
    refine ⟨hne, horig, ?_⟩
    rw [horig]
    exact splitSpace_joinSpace span hne fun w hw => rawWordsOf_no_space h w (hsub w hw)
  | dropped word => exact hok

/-- C2: over every word sequence the segmenter performs a longest-match pass from the first
word: at each cursor it reaches, a matched token covers the longest span starting there
that `resolveCanonicalPhrase` resolves, and a raw token or a dropped stop-word is produced
only where no span of any length starting there resolves. The words `good morning morning`
give the match `good morning` followed by the raw token `morning`. -/
theorem segmentation_longest_match (rawWords : List String) :
    (∃ pieces : List (Piece σ),
      LongestMatch rawWords (rawWords.map toLowerCase)
        ((rawWords.map toLowerCase).map lemmatizeWord) 0 pieces ∧
      pieces.filterMap Piece.token? = segmentWords rawWords ∧
      pieces.flatMap Piece.words = rawWords) ∧
    (segmentWords ["good", "morning", "morning"] : List (Token Unit)) =
      [matchToken ⟨.str "good morning", .exact⟩ "good morning",
       rawToken "morning" "morning" (some (.str "morn"))] := by
  refine ⟨segmentWords_trace rawWords, ?_⟩
  set_option maxRecDepth 100000 in decide

end Segmenter

theorem segmentation_partitions_words_witness :
    rawWordsOf "today I am happy" = some (some ["today", "I", "am", "happy"]) ∧
    ∃ pieces : List (Piece Unit),
      pieces.flatMap Piece.words = ["today", "I", "am", "happy"] ∧
      pieces.filterMap Piece.token? = segmentWords ["today", "I", "am", "happy"] ∧
      ∀ p ∈ pieces, p.Covers :=
  ⟨by decide,
    segmentation_partitions_words "today I am happy" ["today", "I", "am", "happy"] (by decide)⟩

/-! ## Canonical words -/

section Canonical

variable {V σ : Type}

/-- What `resolveCanonicalPhrase` can return as canonical: a vocabulary word, or a member
inherited from `Object.prototype`. -/
theorem resolveCanonicalPhrase_canonical {c l : String} {r : Resolved}
    (h : resolveCanonicalPhrase c l = some r) :
    (∃ w ∈ AVAILABLE_WORDS, r.canonical = .str w) ∨ ∃ k, r.canonical = .inherited k := by
  have hget : ∀ key v, jsGet ALIAS_TO_CANONICAL key = some v →
      (∃ w ∈ AVAILABLE_WORDS, v = .str w) ∨ ∃ k, v = .inherited k := by
    intro key v hv
    unfold jsGet at hv
    cases hl : ALIAS_TO_CANONICAL.lookup key with
    | some w =>
      simp only [hl, Option.some.injEq] at hv
      exact Or.inl ⟨w, alias_lookup_in_vocabulary hl, hv.symm⟩
    | none =>
      simp only [hl] at hv
      split at hv
      · simp only [Option.some.injEq] at hv
        exact Or.inr ⟨key, hv.symm⟩
      · simp at hv
  unfold resolveCanonicalPhrase at h
  split at h
  · rename_i h1
    simp only [Option.some.injEq] at h
    subst h
    exact Or.inl ⟨c, h1, rfl⟩
  · split at h
    · rename_i h1
      simp only [Option.some.injEq] at h
      subst h
      exact Or.inl ⟨l, h1.2, rfl⟩
    · split at h
      · cases hg : jsGet ALIAS_TO_CANONICAL c with
        | none => simp [hg] at h
        | some v =>
          simp only [hg, Option.map_some', Option.some.injEq] at h
          subst h
          exact hget c v hg
      · split at h
        · cases hg : jsGet ALIAS_TO_CANONICAL l with
          | none => simp [hg] at h
          | some v =>
            simp only [hg, Option.map_some', Option.some.injEq] at h
            subst h
            exact hget l v hg
        · simp at h

theorem LongestMatch.token_shape {rawWords normalizedWords : List String}
    {lemmaWords : List JSValue} {position : Nat} {pieces : List (Piece σ)}
    (h : LongestMatch rawWords normalizedWords lemmaWords position pieces) :
    ∀ t ∈ pieces.filterMap Piece.token?, SegmentedShape t := by
  induction h with
  | done hend => intro t ht; simp at ht
  | matched hpos hfit hres hlongest hrest ih =>
    intro t ht
    simp only [List.filterMap_cons, Piece.token?, List.mem_cons] at ht
    rcases ht with rfl | ht
    · exact Or.inr ⟨rfl, rfl, _, rfl, resolveCanonicalPhrase_canonical hres⟩
    · exact ih t ht
  | raw hlt hnone hword hrest ih =>
    intro t ht
    simp only [List.filterMap_cons, Piece.token?, List.mem_cons] at ht
    rcases ht with rfl | ht
    · exact Or.inl ⟨rfl, rfl⟩
    · exact ih t ht
  | dropped hlt hnone hword hrest ih =>
    intro t ht
    simp only [List.filterMap_cons, Piece.token?] at ht
    exact ih t ht

theorem segmentWords_shape (rawWords : List String) :
    ∀ t ∈ (segmentWords rawWords : List (Token σ)), SegmentedShape t := by
  obtain ⟨pieces, h1, h2, _⟩ := segmentWords_trace (σ := σ) rawWords
  rw [← h2]
  exact h1.token_shape

theorem scan_word_mem (B : SemanticBackend V σ) (vector : V) (norm : σ) (tokenLength : Nat)
    (entries : List (IndexEntry V σ)) (init : Option (String × σ)) {best : String × σ}
    (h : entries.foldl (scanStep B vector norm tokenLength) init = some best) :
    init = some best ∨ best.1 ∈ entries.map fun e => e.word := by
  induction entries generalizing init with
  | nil => exact Or.inl (by simpa using h)
  | cons e rest ih =>
    rw [List.foldl_cons] at h
    rcases ih _ h with h1 | h1
    · unfold scanStep at h1
      split at h1
      · exact Or.inl h1
      · split at h1
        · exact Or.inl h1
        · cases init with
          | none =>
            simp only [Option.some.injEq] at h1
            exact Or.inr (by simp [← h1])
          | some b =>
            simp only at h1
            split at h1
            · simp only [Option.some.injEq] at h1
              exact Or.inr (by simp [← h1])
            · exact Or.inl h1
    · exact Or.inr (by simp only [List.map_cons, List.mem_cons]; exact Or.inr h1)

theorem semanticIndexEntries_words (B : SemanticBackend V σ) :
    (semanticIndexEntries B).map (fun e => e.word) = AVAILABLE_WORDS := by
  simp [semanticIndexEntries, List.map_map, Function.comp_def]

/-- A word found by the semantic fallback is a vocabulary word. -/
theorem findSemanticFallbackForToken_word (B : SemanticBackend V σ) (token : Token σ)
    {found : String × σ} (h : findSemanticFallbackForToken B token = some (some found)) :
    found.1 ∈ AVAILABLE_WORDS := by
  unfold findSemanticFallbackForToken at h
  split at h
  · simp at h
  · split at h
    · split at h
      · simp at h
      · simp only at h
        split at h
        · simp at h
        · split at h
          · simp at h
          · split at h
            · rename_i best hbest
              split at h
              · simp only [Option.some.injEq] at h
                subst h
                rcases scan_word_mem B _ _ _ _ _ hbest with h1 | h1
                · simp at h1
                · rw [semanticIndexEntries_words] at h1
                  exact h1
              · simp at h
            · simp at h
    · simp at h

theorem fallbackLoop_tokens (B : SemanticBackend V σ) (tokens : List (Token σ)) (i : Nat)
    {result : List (Token σ) × List (Applied σ)} (h : fallbackLoop B i tokens = some result) :
    ∀ t ∈ result.1, t ∈ tokens ∨
      (t.kind = .semantic ∧ ∃ w ∈ AVAILABLE_WORDS, t.canonical = some (.str w)) := by
  induction tokens generalizing i result with
  | nil =>
    simp only [fallbackLoop, Option.some.injEq] at h
    subst h
    intro t ht
    simp at ht
  | cons token rest ih =>
    unfold fallbackLoop at h
    have step : ∀ (head : Token σ) (extra : List (Applied σ) → List (Applied σ)),
        (head = token ∨
          (head.kind = .semantic ∧ ∃ w ∈ AVAILABLE_WORDS, head.canonical = some (.str w))) →
        (fallbackLoop B (i + 1) rest).map (fun r => (head :: r.1, extra r.2)) = some result →
        ∀ t ∈ result.1, t ∈ token :: rest ∨
          (t.kind = .semantic ∧ ∃ w ∈ AVAILABLE_WORDS, t.canonical = some (.str w)) := by
      intro head extra hhead hmap t ht
      cases hr : fallbackLoop B (i + 1) rest with
      | none => simp [hr] at hmap
      | some r =>
        simp only [hr, Option.map_some', Option.some.injEq] at hmap
        subst hmap
        rcases List.mem_cons.mp ht with rfl | ht
        · rcases hhead with rfl | hsem
          · exact Or.inl (List.mem_cons_self _ _)
          · exact Or.inr hsem
        · rcases ih (i + 1) hr t ht with h1 | h1
          · exact Or.inl (List.mem_cons_of_mem _ h1)
          · exact Or.inr h1
    split at h
    · exact step token (fun a => a) (Or.inl rfl) h
    · split at h
      · simp at h
      · exact step token (fun a => a) (Or.inl rfl) h
      · rename_i fallback hfound
        exact step _ (fun a => _ :: a)
          (Or.inr ⟨rfl, fallback.1, findSemanticFallbackForToken_word B token hfound, rfl⟩) h

theorem applySemanticFallback_tokens (B : SemanticBackend V σ) (tokens : List (Token σ))
    {result : List (Token σ) × List (Applied σ)}
    (h : applySemanticFallback B tokens = some result) :
    ∀ t ∈ result.1, t ∈ tokens ∨
      (t.kind = .semantic ∧ ∃ w ∈ AVAILABLE_WORDS, t.canonical = some (.str w)) := by
  unfold applySemanticFallback at h
  split at h
  · simp only [Option.some.injEq] at h
    subst h
    exact fun t ht => Or.inl ht
  · exact fallbackLoop_tokens B tokens 0 h

theorem bucketLoop_words_are_strings (ts : List (Token σ))
    (timeFirst others : List (Token σ × JSValue))
    {result : List (Token σ × JSValue) × List (Token σ × JSValue)}
    (h : bucketLoop ts timeFirst others = some result) :
    ∀ t ∈ ts, t.kind ≠ .raw → ∃ p, tokenWord t = .str p := by
  induction ts generalizing timeFirst others with
  | nil => intro t ht; simp at ht
  | cons token rest ih =>
    intro t ht hk
    unfold bucketLoop at h
    simp only at h
    split at h
    · split at h
      · rename_i phrase hword
        rcases List.mem_cons.mp ht with rfl | ht
        · exact ⟨phrase, hword⟩
        · split at h
          · exact ih _ _ h t ht hk
          · exact ih _ _ h t ht hk
      · simp at h
    · rename_i hraw
      rcases List.mem_cons.mp ht with rfl | ht
      · exact absurd hk hraw
      · exact ih _ _ h t ht hk

theorem buildGlossSequence_words_are_strings (tokens : List (Token σ)) {out : List JSValue}
    (h : buildGlossSequence tokens = some out) :
    ∀ t ∈ tokens, isSelected t = true → t.kind ≠ .raw → ∃ p, tokenWord t = .str p := by
  intro t ht hsel hk
  unfold buildGlossSequence at h
  simp only at h
  cases hb : bucketLoop (tokens.filter isSelected) [] [] with
  | none => simp [hb] at h
  | some r =>
    exact bucketLoop_words_are_strings _ _ _ hb t (List.mem_filter.mpr ⟨ht, hsel⟩) hk

/-- The tokens `convertSentenceToGloss` returns: a raw token without canonical, or a matched
or semantic token whose canonical is a vocabulary word. -/
theorem convertSentenceToGloss_token_shape (B : SemanticBackend V σ) (sentence : String)
    (conv : Conversion σ) (h : convertSentenceToGloss B sentence = some conv) :
    ∀ t ∈ conv.tokens,
      (t.kind = .raw ∧ t.canonical = none) ∨
        ((t.kind = .matched ∨ t.kind = .semantic) ∧
          ∃ w ∈ AVAILABLE_WORDS, t.canonical = some (.str w)) := by
  unfold convertSentenceToGloss at h
  cases hw : rawWordsOf sentence with
  | none => simp [hw] at h
  | some words =>
    cases words with
    | none =>
      simp only [hw, Option.some.injEq] at h
      subst h
      intro t ht
      simp at ht
    | some rawWords =>
      simp only [hw] at h
      cases hf : applySemanticFallback B (segmentWords rawWords) with
      | none => simp [hf] at h
      | some result =>
        obtain ⟨tokens, applied⟩ := result
        simp only [hf] at h
        cases hg : buildGlossSequence tokens with
        | none => simp [hg] at h
        | some glosses =>
          simp only [hg, Option.some.injEq] at h
          subst h
          intro t ht
          rcases applySemanticFallback_tokens B _ hf t ht with hseg | ⟨hk, w, hw1, hw2⟩
          · rcases segmentWords_shape rawWords t hseg with hraw | ⟨hk, hacc, v, hv, hcase⟩
            · exact Or.inl hraw
            · rcases hcase with ⟨w, hw1, hw2⟩ | ⟨k, hk2⟩
              · exact Or.inr ⟨Or.inl hk, w, hw1, by rw [hv, hw2]⟩
              · have hsel : isSelected t = true := by simp [isSelected, hk, hacc]
                obtain ⟨p, hp⟩ := buildGlossSequence_words_are_strings tokens hg t ht hsel
                  (by simp [hk])
                simp [tokenWord, hv, hk2, truthy?, JSValue.truthy] at hp
          · exact Or.inr ⟨Or.inr hk, w, hw1, hw2⟩

/-- Every token list `convertSentenceToGloss` returns is a token list of the data model, and
stays one when `accepted` flags are edited. -/
theorem convertSentenceToGloss_wellFormed (B : SemanticBackend V σ) (sentence : String)
    (conv : Conversion σ) (h : convertSentenceToGloss B sentence = some conv) :
    ∀ t ∈ conv.tokens, ∀ flag : Bool,
      ({ t with accepted := flag } : Token σ).isWellFormed = true := by
  intro t ht flag
  rcases convertSentenceToGloss_token_shape B sentence conv h t ht with
    ⟨hk, hc⟩ | ⟨hk, w, hw1, hw2⟩
  · simp [Token.isWellFormed, hk, hc]
  · have hne : w ≠ "" := vocabulary_nonempty_words w hw1
    rcases hk with hk | hk <;> simp [Token.isWellFormed, hk, hw2, hne]

/-- C3: for every sentence and every backend, every token returned by
`convertSentenceToGloss` that has a `canonical` is of kind match or semantic and its canonical
is a member of `AVAILABLE_WORDS`; every value of the alias map is a vocabulary word. -/
theorem canonical_in_vocabulary (B : SemanticBackend V σ) (sentence : String)
    (conv : Conversion σ) (h : convertSentenceToGloss B sentence = some conv) :
    (∀ t ∈ conv.tokens, ∀ c, t.canonical = some c →
      (t.kind = .matched ∨ t.kind = .semantic) ∧ ∃ w ∈ AVAILABLE_WORDS, c = .str w) ∧
    ∀ e ∈ ALIAS_TO_CANONICAL, e.2 ∈ AVAILABLE_WORDS := by
  refine ⟨fun t ht c hc => ?_, alias_values_in_vocabulary⟩
  rcases convertSentenceToGloss_token_shape B sentence conv h t ht with
    ⟨_, hnone⟩ | ⟨hk, w, hw1, hw2⟩
  · rw [hnone] at hc
    cases hc
  · rw [hw2] at hc
    cases hc
    exact ⟨hk, w, hw1, rfl⟩

end Canonical

set_option maxRecDepth 100000 in
theorem canonical_in_vocabulary_witness :
    convertSentenceToGloss sampleBackend "tomorrow hat" = some sampleConversion ∧
    (∀ t ∈ sampleConversion.tokens, ∀ c, t.canonical = some c →
      (t.kind = .matched ∨ t.kind = .semantic) ∧ ∃ w ∈ AVAILABLE_WORDS, c = .str w) ∧
    ∀ e ∈ ALIAS_TO_CANONICAL, e.2 ∈ AVAILABLE_WORDS :=
  ⟨by decide,
    canonical_in_vocabulary sampleBackend "tomorrow hat" sampleConversion (by decide)⟩

/-! ## End-to-end examples -/

set_option maxRecDepth 100000 in
/-- C8: for the input `today I am happy`, with any backend, `convertSentenceToGloss` returns
exactly the two tokens `today` and `happy`, both matched with source exact; `I` and `am` are
function words and give no token, no semantic fallback is applied, and the gloss sequence
is today, happy. -/
theorem convert_today_i_am_happy {V σ : Type} (B : SemanticBackend V σ) :
    convertSentenceToGloss B "today I am happy" =
      some { tokens := [matchToken ⟨.str "today", .exact⟩ "today",
                        matchToken ⟨.str "happy", .exact⟩ "happy"],
             semanticApplied := [],
             currentGlosses := [.str "today", .str "happy"] } ∧
    toLowerCase "I" ∈ FUNCTION_WORDS ∧ toLowerCase "am" ∈ FUNCTION_WORDS := by
  refine ⟨?_, by decide, by decide⟩
  rfl


set_option maxRecDepth 100000 in
/-- C9 as stated fails: for the words of `the pc is loud` the segmenter itself resolves `pc`,
through the alias table, to a matched token with canonical `computer`; no raw token is left
for the semantic fallback. -/
theorem pc_is_matched_by_the_segmenter :
    rawWordsOf "the pc is loud" = some (some ["the", "pc", "is", "loud"]) ∧
    (segmentWords ["the", "pc", "is", "loud"] : List (Token Unit)) =
      [matchToken ⟨.str "computer", .alias⟩ "pc", matchToken ⟨.str "loud", .exact⟩ "loud"] ∧
    ¬ ∃ t ∈ (segmentWords ["the", "pc", "is", "loud"] : List (Token Unit)), t.kind = .raw := by
  decide

set_option maxRecDepth 100000 in
/-- C9, as amended: for the input `the pc is loud`, with any backend, `the` and `is` are
function words and give no token, `pc` is an alias key and the segmenter resolves it to a
matched token with canonical `computer` and source alias, `loud` is matched with source
exact, no token is raw, no semantic fallback is applied, and the gloss sequence is
computer, loud. -/
theorem convert_the_pc_is_loud {V σ : Type} (B : SemanticBackend V σ) :
    convertSentenceToGloss B "the pc is loud" =
      some { tokens := [matchToken ⟨.str "computer", .alias⟩ "pc",
                        matchToken ⟨.str "loud", .exact⟩ "loud"],
             semanticApplied := [],
             currentGlosses := [.str "computer", .str "loud"] } ∧
    ALIAS_TO_CANONICAL.lookup "pc" = some "computer" ∧
    toLowerCase "the" ∈ FUNCTION_WORDS ∧ toLowerCase "is" ∈ FUNCTION_WORDS := by
  refine ⟨?_, by decide, by decide, by decide⟩
  rfl

/-! ## Lemmatizer: idempotence on the vocabulary and the length of stems -/

theorem lemmaIsFixed_spec {word : String} (h : lemmaIsFixed word = true) :
    ∃ stem, lemmatizeWord word = .str stem ∧ lemmatizeWord stem = .str stem := by
  unfold lemmaIsFixed at h
  cases hl : lemmatizeWord word with
  | str stem =>
    rw [hl] at h
    exact ⟨stem, rfl, by simpa using h⟩
  | inherited k => simp [hl] at h

/-- C11: for every vocabulary entry `w` of `AVAILABLE_WORDS`, `lemmatizeWord w` is a string
`s` with `lemmatizeWord s = s`, and the same holds for each space-separated word of `w`:
lemmatizing a vocabulary-derived stem again changes nothing. -/
theorem lemmatizeWord_idempotent_on_vocabulary (w : String) (hw : w ∈ AVAILABLE_WORDS) :
    (∃ stem, lemmatizeWord w = .str stem ∧ lemmatizeWord stem = .str stem) ∧
    ∀ v ∈ splitSpace w,
      ∃ stem, lemmatizeWord v = .str stem ∧ lemmatizeWord stem = .str stem := by
  have h : ∀ w ∈ AVAILABLE_WORDS,
      lemmaIsFixed w = true ∧ ∀ v ∈ splitSpace w, lemmaIsFixed v = true := by
    set_option maxRecDepth 100000 in decide
  exact ⟨lemmaIsFixed_spec (h w hw).1, fun v hv => lemmaIsFixed_spec ((h w hw).2 v hv)⟩

theorem lemmatizeWord_idempotent_on_vocabulary_witness :
    "good morning" ∈ AVAILABLE_WORDS ∧
    (∃ stem, lemmatizeWord "good morning" = .str stem ∧ lemmatizeWord stem = .str stem) ∧
    ∀ v ∈ splitSpace "good morning",
      ∃ stem, lemmatizeWord v = .str stem ∧ lemmatizeWord stem = .str stem :=
  ⟨by decide, lemmatizeWord_idempotent_on_vocabulary "good morning" (by decide)⟩

theorem rules_leave_three : ∀ r ∈ LEMMA_SUFFIX_RULES,
    jsLength r.suffix + 2 ≤ r.min + jsLength r.replacement := by
  decide

theorem ruleApplies_spec {lower : String} {r : SuffixRule} (h : ruleApplies lower r = true) :
    endsWith lower r.suffix = true ∧ r.min < jsLength lower := by
  unfold ruleApplies at h
  simp only [Bool.and_eq_true, decide_eq_true_eq] at h
  exact ⟨h.1.1, h.1.2⟩

/-- C29: for every lower-cased word and every rule of `LEMMA_SUFFIX_RULES` whose suffix,
minimum-length and `ss` conditions hold, the derived stem has at least 3 UTF-16 units; the
loop of `lemmatizeWord` returns the stem of the first applicable rule (the guard on stems
shorter than 2 never rejects it) or, with no applicable rule, the word itself; so a result
that differs from the word has at least 3 units. -/
theorem suffix_stems_have_three_characters :
    (∀ (lower : String) (r : SuffixRule), r ∈ LEMMA_SUFFIX_RULES → ruleApplies lower r = true →
      3 ≤ jsLength (dropSuffix lower r.suffix ++ r.replacement)) ∧
    (∀ lower : String,
      (∃ r, LEMMA_SUFFIX_RULES.find? (ruleApplies lower) = some r ∧
        lemmatizeLoop lower LEMMA_SUFFIX_RULES = dropSuffix lower r.suffix ++ r.replacement) ∨
      (LEMMA_SUFFIX_RULES.find? (ruleApplies lower) = none ∧
        lemmatizeLoop lower LEMMA_SUFFIX_RULES = lower)) ∧
    (∀ lower : String, lemmatizeLoop lower LEMMA_SUFFIX_RULES = lower ∨
      3 ≤ jsLength (lemmatizeLoop lower LEMMA_SUFFIX_RULES)) := by
  have h1 : ∀ (lower : String) (r : SuffixRule), r ∈ LEMMA_SUFFIX_RULES →
      ruleApplies lower r = true →
      3 ≤ jsLength (dropSuffix lower r.suffix ++ r.replacement) := by
    intro lower r hr happ
    obtain ⟨he, hm⟩ := ruleApplies_spec happ
    have h3 := jsLength_dropSuffix he
    have h4 := rules_leave_three r hr
    rw [jsLength_append]
    omega
  have h2 : ∀ lower : String,
      (∃ r, LEMMA_SUFFIX_RULES.find? (ruleApplies lower) = some r ∧
        lemmatizeLoop lower LEMMA_SUFFIX_RULES = dropSuffix lower r.suffix ++ r.replacement) ∨
      (LEMMA_SUFFIX_RULES.find? (ruleApplies lower) = none ∧
        lemmatizeLoop lower LEMMA_SUFFIX_RULES = lower) := by
    intro lower
    have h := lemmatizeLoop_eq_find lower LEMMA_SUFFIX_RULES rules_regular
    cases hf : LEMMA_SUFFIX_RULES.find? (ruleApplies lower) with
    | some r => exact Or.inl ⟨r, rfl, by rw [h, hf]⟩
    | none => exact Or.inr ⟨rfl, by rw [h, hf]⟩
  refine ⟨h1, h2, fun lower => ?_⟩
  rcases h2 lower with ⟨r, hf, hl⟩ | ⟨_, hl⟩
  · right
    rw [hl]
    exact h1 lower r (List.mem_of_find?_eq_some hf) (List.find?_some hf)
  · exact Or.inl hl

/-! ## Toggling a semantic token -/

section Toggle

variable {σ : Type}

theorem timeWords_append (a b : List (Token σ)) :
    timeWords (a ++ b) = timeWords a ++ timeWords b := by
  simp [timeWords]

theorem otherWords_append (a b : List (Token σ)) :
    otherWords (a ++ b) = otherWords a ++ otherWords b := by
  simp [otherWords]

theorem buildGlossSequence_eq_words (tokens : List (Token σ))
    (h : ∀ t ∈ tokens, t.isWellFormed = true) :
    buildGlossSequence tokens = some (timeWords tokens ++ otherWords tokens) :=
  buildGlossSequence_eq tokens (wellFormed_all h)

/-- C13: in a token list of the data model, let `t` be a semantic token that is accepted,
standing after the tokens `pre` and before the tokens `post`. Setting only its `accepted` to
false changes the output of `buildGlossSequence` from `a ++ word :: b` to `a ++ b`, where
`word` is the token's word and `a`, `b` are the words emitted before and after it: the output
of the other tokens, in unchanged order. Setting `accepted` back to true gives the first list
of tokens again, hence the first output. Both outputs are computed from the token list. -/
theorem toggle_semantic_token (pre post : List (Token σ)) (t : Token σ)
    (hwf : ∀ x ∈ pre ++ t :: post, x.isWellFormed = true)
    (hkind : t.kind = .semantic) (hacc : t.accepted = true) :
    ∃ a b : List JSValue,
      buildGlossSequence (pre ++ t :: post) = some (a ++ tokenWord t :: b) ∧
      buildGlossSequence (pre ++ { t with accepted := false } :: post) = some (a ++ b) ∧
      a ++ b = timeWords (pre ++ post) ++ otherWords (pre ++ post) ∧
      a = (if inTimeBucket t = true then timeWords pre
           else timeWords (pre ++ post) ++ otherWords pre) ∧
      ({ ({ t with accepted := false } : Token σ) with accepted := true } : Token σ) = t := by
  have hsel : isSelected t = true := by simp [isSelected, hkind, hacc]
  have hsel' : isSelected ({ t with accepted := false } : Token σ) = false := by
    simp [isSelected, hkind]
  have hwf' : ∀ x ∈ pre ++ ({ t with accepted := false } : Token σ) :: post,
      x.isWellFormed = true := by
    intro x hx
    rcases List.mem_append.mp hx with h | h
    · exact hwf x (List.mem_append_left _ h)
    · rcases List.mem_cons.mp h with rfl | h
      · have := hwf t (by simp)
        simpa [Token.isWellFormed] using this
      · exact hwf x (List.mem_append_right _ (List.mem_cons_of_mem _ h))
    
  have hrestore : ({ ({ t with accepted := false } : Token σ) with accepted := true }
      : Token σ) = t := by
    cases t
    simp_all
  have hold := buildGlossSequence_eq_words _ hwf
  have hnew := buildGlossSequence_eq_words _ hwf'
  have hnew2 : timeWords (pre ++ ({ t with accepted := false } : Token σ) :: post) ++
      otherWords (pre ++ ({ t with accepted := false } : Token σ) :: post) =
      timeWords pre ++ timeWords post ++ (otherWords pre ++ otherWords post) := by
    simp [timeWords, otherWords, List.filter_cons, hsel']
  by_cases hb : inTimeBucket t = true
  · refine ⟨timeWords pre, timeWords post ++ (otherWords pre ++ otherWords post), ?_, ?_, ?_,
      by simp [hb], hrestore⟩
    · rw [hold]
      simp [timeWords, otherWords, List.filter_cons, hsel, hb]
    · rw [hnew, hnew2]
      simp
    · simp [timeWords_append, otherWords_append]
  · refine ⟨timeWords (pre ++ post) ++ otherWords pre, otherWords post, ?_, ?_, ?_,
      by simp [hb], hrestore⟩
    · rw [hold]
      simp [timeWords, otherWords, List.filter_cons, hsel, hb]
    · rw [hnew, hnew2]
      simp [timeWords_append]
    · simp [timeWords_append, otherWords_append]

end Toggle

theorem toggle_semantic_token_witness :
    (∀ x ∈ samplePre ++ lanternToken true :: samplePost, x.isWellFormed = true) ∧
    (lanternToken true).kind = .semantic ∧ (lanternToken true).accepted = true ∧
    ∃ a b : List JSValue,
      buildGlossSequence (samplePre ++ lanternToken true :: samplePost) =
        some (a ++ tokenWord (lanternToken true) :: b) ∧
      buildGlossSequence (samplePre ++ { lanternToken true with accepted := false } ::
          samplePost) = some (a ++ b) ∧
      a ++ b = timeWords (samplePre ++ samplePost) ++ otherWords (samplePre ++ samplePost) ∧
      a = (if inTimeBucket (lanternToken true) = true then timeWords samplePre
           else timeWords (samplePre ++ samplePost) ++ otherWords samplePre) ∧
      ({ ({ lanternToken true with accepted := false } : Token Unit) with accepted := true }
        : Token Unit) = lanternToken true :=
  ⟨by decide, by decide, by decide,
    toggle_semantic_token samplePre samplePost (lanternToken true) (by decide)
      (by decide) (by decide)⟩

/-- C14: the word `lampe` is left raw by the segmenter and is promoted to the semantic token
`lampeToken true` when the lookup finds `lamp`; once toggled to rejected, the token is not
emitted by `buildGlossSequence` at all, neither with its original text nor with its canonical
word, although fingerspelling is enabled and `renderWarnings` lists the same token under the
message that announces fingerspelling; the raw token of the same word is emitted with its
original text. -/
theorem rejected_semantic_token_is_dropped :
    FINGERSPELLING_ENABLED = true ∧
    (segmentWords ["lampe"] : List (Token Unit)) =
      [rawToken "lampe" "lampe" (some (.str "lampe"))] ∧
    promote (rawToken "lampe" "lampe" (some (.str "lampe")) : Token Unit) ("lamp", ()) =
      lampeToken true ∧
    buildGlossSequence [lampeToken false] = some [] ∧
    skippedWarning [lampeToken false] =
      some "⚠ Words not in dataset (will be fingerspelled): lampe" ∧
    buildGlossSequence
        [(rawToken "lampe" "lampe" (some (.str "lampe")) : Token Unit)] =
      some [.str "lampe"] ∧
    skippedWarning [(rawToken "lampe" "lampe" (some (.str "lampe")) : Token Unit)] =
      some "⚠ Words not in dataset (will be fingerspelled): lampe" := by
  refine ⟨rfl, ?_, ?_, ?_, ?_, ?_, ?_⟩ <;> decide

/-! ## Sentence cleaning -/

theorem splitBy_ne_nil (sep : Char → Bool) (cs : List Char) : splitBy sep cs ≠ [] := by
  cases cs with
  | nil => simp [splitBy]
  | cons c cs =>
    unfold splitBy
    split
    · simp
    · split <;> simp

theorem splitBy_cons_sep {sep : Char → Bool} {c : Char} (cs : List Char) (h : sep c = true) :
    splitBy sep (c :: cs) = [] :: splitBy sep cs := by
  simp [splitBy, h]

theorem splitBy_cons_word {sep : Char → Bool} {c : Char} {cs w : List Char}
    {r : List (List Char)} (h : sep c = false) (hs : splitBy sep cs = w :: r) :
    splitBy sep (c :: cs) = (c :: w) :: r := by
  simp [splitBy, h, hs]

theorem splitBy_congr {p q : Char → Bool} (cs : List Char) (h : ∀ c ∈ cs, p c = q c) :
    splitBy p cs = splitBy q cs := by
  induction cs with
  | nil => rfl
  | cons c cs ih =>
    have h1 := h c (List.mem_cons_self _ _)
    have h2 := ih fun x hx => h x (List.mem_cons_of_mem _ hx)
    simp [splitBy, h1, h2]

theorem splitSpaceChars_eq_splitBy (cs : List Char) :
    splitSpaceChars cs = splitBy (fun c => c == ' ') cs := by
  induction cs with
  | nil => rfl
  | cons c cs ih =>
    by_cases hc : c = ' '
    · simp [splitSpaceChars, splitBy, hc, ih]
    · simp [splitSpaceChars, splitBy, hc, ih]

theorem wordRuns_cons_sep {sep : Char → Bool} {c : Char} (cs : List Char) (h : sep c = true) :
    wordRuns sep (c :: cs) = wordRuns sep cs := by
  simp [wordRuns, splitBy_cons_sep cs h]

theorem splitBy_concat_sep {sep : Char → Bool} {c : Char} (cs : List Char)
    (h : sep c = true) : splitBy sep (cs ++ [c]) = splitBy sep cs ++ [[]] := by
  induction cs with
  | nil => simp [splitBy, h]
  | cons d cs ih =>
    by_cases hd : sep d = true
    · simp [splitBy, hd, ih]
    · obtain ⟨w, r, hs⟩ := List.exists_cons_of_ne_nil (splitBy_ne_nil sep cs)
      have hd' : sep d = false := by simpa using hd
      rw [List.cons_append, splitBy_cons_word hd' (by rw [ih, hs]; rfl),
        splitBy_cons_word hd' hs]
      rfl

theorem wordRuns_concat_sep {sep : Char → Bool} {c : Char} (cs : List Char)
    (h : sep c = true) : wordRuns sep (cs ++ [c]) = wordRuns sep cs := by
  simp [wordRuns, splitBy_concat_sep cs h]

theorem wordRuns_dropWhile (sep : Char → Bool) (cs : List Char) :
    wordRuns sep (cs.dropWhile sep) = wordRuns sep cs := by
  induction cs with
  | nil => rfl
  | cons c cs ih =>
    by_cases hc : sep c = true
    · rw [List.dropWhile_cons_of_pos hc, ih, wordRuns_cons_sep cs hc]
    · rw [List.dropWhile_cons_of_neg hc]

theorem wordRuns_rdropWhile (sep : Char → Bool) (cs : List Char) :
    wordRuns sep (cs.rdropWhile sep) = wordRuns sep cs := by
  induction cs using List.reverseRecOn with
  | nil => rfl
  | append_singleton cs c ih =>
    by_cases hc : sep c = true
    · rw [List.rdropWhile_concat_pos _ _ _ hc, ih, wordRuns_concat_sep cs hc]
    · rw [List.rdropWhile_concat_neg _ _ _ hc]

theorem isWhiteSpace_space : isWhiteSpace ' ' = true := by decide

theorem collapse_cons_word {c : Char} (b : Bool) (cs : List Char)
    (h : isWhiteSpace c = false) :
    collapseWhiteSpace b (c :: cs) = c :: collapseWhiteSpace false cs := by
  simp [collapseWhiteSpace, h]

theorem collapse_true_cons_space {c : Char} (cs : List Char) (h : isWhiteSpace c = true) :
    collapseWhiteSpace true (c :: cs) = collapseWhiteSpace true cs := by
  simp [collapseWhiteSpace, h]

theorem collapse_false_cons_space {c : Char} (cs : List Char) (h : isWhiteSpace c = true) :
    collapseWhiteSpace false (c :: cs) = ' ' :: collapseWhiteSpace true cs := by
  simp [collapseWhiteSpace, h]

/-- Collapsing white space keeps the first piece (when not in a run) and the non-empty
pieces. -/
theorem splitBy_collapse (cs : List Char) :
    wordRuns isWhiteSpace (collapseWhiteSpace true cs) = wordRuns isWhiteSpace cs ∧
    ∃ w r r', splitBy isWhiteSpace (collapseWhiteSpace false cs) = w :: r ∧
      splitBy isWhiteSpace cs = w :: r' ∧
      (r.filter fun x => !x.isEmpty) = r'.filter fun x => !x.isEmpty := by
  induction cs with
  | nil => exact ⟨rfl, [], [], [], rfl, rfl, rfl⟩
  | cons c cs ih =>
    obtain ⟨ih1, w, r, r', h1, h2, h3⟩ := ih
    by_cases hc : isWhiteSpace c = true
    · refine ⟨?_, [], splitBy isWhiteSpace (collapseWhiteSpace true cs),
        splitBy isWhiteSpace cs, ?_, splitBy_cons_sep cs hc, ih1⟩
      · rw [wordRuns_cons_sep cs hc, ← ih1, collapse_true_cons_space cs hc]
      · rw [collapse_false_cons_space cs hc]
        exact splitBy_cons_sep _ isWhiteSpace_space
    · have hc' : isWhiteSpace c = false := by simpa using hc
      have e1 : splitBy isWhiteSpace (c :: collapseWhiteSpace false cs) = (c :: w) :: r :=
        splitBy_cons_word hc' h1
      have e2 : splitBy isWhiteSpace (c :: cs) = (c :: w) :: r' := splitBy_cons_word hc' h2
      refine ⟨?_, c :: w, r, r', ?_, e2, h3⟩
      · rw [collapse_cons_word true cs hc']
        unfold wordRuns
        rw [e1, e2]
        simp [List.filter_cons, h3]
      · rw [collapse_cons_word false cs hc']
        exact e1

theorem wordRuns_collapse (cs : List Char) :
    wordRuns isWhiteSpace (collapseWhiteSpace false cs) = wordRuns isWhiteSpace cs := by
  obtain ⟨_, w, r, r', h1, h2, h3⟩ := splitBy_collapse cs
  simp only [wordRuns, h1, h2, List.filter_cons, h3]

theorem collapse_chain (cs : List Char) : ∀ b : Bool,
    List.Chain' (fun x y => ¬(isWhiteSpace x = true ∧ isWhiteSpace y = true))
        (collapseWhiteSpace b cs) ∧
      (b = true → ∀ c ∈ (collapseWhiteSpace b cs).head?, isWhiteSpace c = false) := by
  induction cs with
  | nil => intro b; simp [collapseWhiteSpace]
  | cons c cs ih =>
    intro b
    by_cases hc : isWhiteSpace c = true
    · cases b with
      | true =>
        rw [collapse_true_cons_space cs hc]
        exact ih true
      | false =>
        rw [collapse_false_cons_space cs hc]
        refine ⟨List.chain'_cons'.mpr ⟨fun y hy h => ?_, (ih true).1⟩, by simp⟩
        have := (ih true).2 rfl y hy
        simp [this] at h
    · have hc' : isWhiteSpace c = false := by simpa using hc
      rw [collapse_cons_word b cs hc']
      refine ⟨List.chain'_cons'.mpr ⟨fun y _ h => ?_, (ih false).1⟩, fun _ => by simp [hc']⟩
      simp [hc'] at h

theorem collapse_space_only (cs : List Char) : ∀ b : Bool,
    ∀ c ∈ collapseWhiteSpace b cs, isWhiteSpace c = true → c = ' ' := by
  induction cs with
  | nil => intro b c hc; simp [collapseWhiteSpace] at hc
  | cons d cs ih =>
    intro b c hc hws
    by_cases hd : isWhiteSpace d = true
    · cases b with
      | true =>
        rw [collapse_true_cons_space cs hd] at hc
        exact ih true c hc hws
      | false =>
        rw [collapse_false_cons_space cs hd] at hc
        rcases List.mem_cons.mp hc with h | h
        · exact h
        · exact ih true c h hws
    · have hd' : isWhiteSpace d = false := by simpa using hd
      rw [collapse_cons_word b cs hd'] at hc
      rcases List.mem_cons.mp hc with h | h
      · rw [h] at hws
        simp [hd'] at hws
      · exact ih false c h hws

/-- On a list without two adjacent white-space characters that does not end in white space,
every piece after the first is non-empty, and the first is empty only when the list starts
with white space. -/
theorem splitBy_normal (t : List Char) (hne : t ≠ [])
    (hchain : List.Chain' (fun x y => ¬(isWhiteSpace x = true ∧ isWhiteSpace y = true)) t)
    (hlast : ∀ c ∈ t.getLast?, isWhiteSpace c = false) :
    ∃ w r, splitBy isWhiteSpace t = w :: r ∧ (∀ x ∈ r, x ≠ []) ∧
      (w = [] → ∀ c ∈ t.head?, isWhiteSpace c = true) := by
  induction t with
  | nil => exact absurd rfl hne
  | cons c t ih =>
    cases t with
    | nil =>
      have hc : isWhiteSpace c = false := hlast c (by simp)
      exact ⟨[c], [], by simp [splitBy, hc], by simp, by simp⟩
    | cons d t =>
      have hch := List.chain'_cons'.mp hchain
      obtain ⟨w, r, h1, h2, h3⟩ := ih (by simp) hch.2 (fun x hx => hlast x (by simpa using hx))
      by_cases hc : isWhiteSpace c = true
      · have hd : isWhiteSpace d = false := by
          have := hch.1 d (by simp)
          simpa [hc] using this
        have hw : w ≠ [] := fun hw => by
          have := h3 hw d (by simp)
          simp [hd] at this
        refine ⟨[], w :: r, by rw [splitBy_cons_sep _ hc, h1], ?_, fun _ x hx => ?_⟩
        · intro x hx
          rcases List.mem_cons.mp hx with rfl | hx
          · exact hw
          · exact h2 x hx
        · simp only [List.head?_cons, Option.mem_def, Option.some.injEq] at hx
          rw [← hx]; exact hc
      · have hc' : isWhiteSpace c = false := by simpa using hc
        exact ⟨c :: w, r, splitBy_cons_word hc' h1, h2, by simp⟩

/-- The core of the cleaning on characters: after collapsing white space and trimming, the
split on single spaces gives the maximal runs of characters that are not white space. -/
theorem split_trim_collapse (cs : List Char) :
    ((((collapseWhiteSpace false cs).dropWhile isWhiteSpace).rdropWhile isWhiteSpace = []) ↔
      wordRuns isWhiteSpace cs = []) ∧
    ((((collapseWhiteSpace false cs).dropWhile isWhiteSpace).rdropWhile isWhiteSpace ≠ []) →
      splitSpaceChars (((collapseWhiteSpace false cs).dropWhile isWhiteSpace).rdropWhile
        isWhiteSpace) = wordRuns isWhiteSpace cs) := by
  have hruns : wordRuns isWhiteSpace
      (((collapseWhiteSpace false cs).dropWhile isWhiteSpace).rdropWhile isWhiteSpace) =
      wordRuns isWhiteSpace cs := by
    rw [wordRuns_rdropWhile, wordRuns_dropWhile, wordRuns_collapse]
  generalize ht : ((collapseWhiteSpace false cs).dropWhile isWhiteSpace).rdropWhile
    isWhiteSpace = t at hruns
  have key : t ≠ [] → splitSpaceChars t = wordRuns isWhiteSpace cs := by
    intro hne
    have hpre : t <+: (collapseWhiteSpace false cs).dropWhile isWhiteSpace := by
      rw [← ht]; exact List.rdropWhile_prefix _ _
    have hsuf := List.dropWhile_suffix (l := collapseWhiteSpace false cs) isWhiteSpace
    have hchain := List.Chain'.left_of_append
      (hpre.choose_spec ▸ ((collapse_chain cs false).1).suffix hsuf)
    have hsub : ∀ c ∈ t, c ∈ collapseWhiteSpace false cs := fun c hc =>
      hsuf.subset (hpre.subset hc)
    have hspace : ∀ c ∈ t, (c == ' ') = isWhiteSpace c := by
      intro c hc
      by_cases hws : isWhiteSpace c = true
      · rw [collapse_space_only cs false c (hsub c hc) hws]
        rfl
      · have hws' : isWhiteSpace c = false := by simpa using hws
        have hcs : c ≠ ' ' := fun h => by rw [h] at hws'; simp [isWhiteSpace_space] at hws'
        simp [hws', hcs]
    have hlast : ∀ c ∈ t.getLast?, isWhiteSpace c = false := by
      intro c hc
      have h1 := List.rdropWhile_last_not isWhiteSpace
        ((collapseWhiteSpace false cs).dropWhile isWhiteSpace) (by rw [ht]; exact hne)
      simp only [ht] at h1
      rw [List.getLast?_eq_getLast _ hne] at hc
      simp only [Option.mem_def, Option.some.injEq] at hc
      rw [← hc]
      simpa using h1
    have hvne : (collapseWhiteSpace false cs).dropWhile isWhiteSpace ≠ [] := by
      intro h
      rw [h] at hpre
      exact hne (List.prefix_nil.mp hpre)
    have hhead : ∀ c ∈ t.head?, isWhiteSpace c = false := by
      intro c hc
      have h1 := hpre.head hne
      have h2 := List.head_dropWhile_not isWhiteSpace (collapseWhiteSpace false cs) hvne
      rw [List.head?_eq_head hne] at hc
      simp only [Option.mem_def, Option.some.injEq] at hc
      rw [← hc, h1]
      exact h2
    obtain ⟨w, r, h1, h2, h3⟩ := splitBy_normal t hne hchain hlast
    have hw : w ≠ [] := by
      intro hw
      obtain ⟨c, rest, hc⟩ := List.exists_cons_of_ne_nil hne
      have a := h3 hw c (by simp [hc])
      have b := hhead c (by simp [hc])
      simp [a] at b
    rw [splitSpaceChars_eq_splitBy, splitBy_congr t hspace, ← hruns]
    unfold wordRuns
    rw [h1, List.filter_eq_self.mpr]
    intro x hx
    rcases List.mem_cons.mp hx with rfl | hx
    · simpa using hw
    · simpa using h2 x hx
  refine ⟨⟨fun h => ?_, fun h => ?_⟩, key⟩
  · rw [← hruns, h]; rfl
  · by_contra hne
    have := key hne
    rw [h] at this
    exact splitSpaceChars_ne_nil t this

theorem splitBy_map_dash (l : List Char) :
    splitBy isWhiteSpace (l.map fun c => if c = '-' ∨ c = '/' then ' ' else c) =
      splitBy isSeparator l := by
  induction l with
  | nil => rfl
  | cons c l ih =>
    by_cases hd : c = '-' ∨ c = '/'
    · have hs : isSeparator c = true := by
        rcases hd with h | h <;> simp [isSeparator, h]
      rw [List.map_cons, if_pos hd, splitBy_cons_sep _ isWhiteSpace_space,
        splitBy_cons_sep _ hs, ih]
    · have hsep : isSeparator c = isWhiteSpace c := by
        simp only [not_or] at hd
        simp [isSeparator, hd.1, hd.2]
      rw [List.map_cons, if_neg hd]
      by_cases hw : isWhiteSpace c = true
      · rw [splitBy_cons_sep _ hw, splitBy_cons_sep _ (hsep ▸ hw), ih]
      · have hw' : isWhiteSpace c = false := by simpa using hw
        obtain ⟨w, r, hs⟩ := List.exists_cons_of_ne_nil (splitBy_ne_nil isSeparator l)
        rw [splitBy_cons_word hw' (ih ▸ hs), splitBy_cons_word (hsep ▸ hw') hs]

theorem filter_stripped (l : List Char) :
    ((l.filter fun c => c ∉ ['.', ',', '!', '?', ';', ':']).filter
        fun c => c ∉ ['\'', '’', '"']) = l.filter fun c => !isStripped c := by
  rw [List.filter_filter]
  congr 1
  funext c
  simp only [isStripped, List.mem_cons, List.mem_singleton, List.not_mem_nil, or_false,
    not_or, Bool.decide_and, decide_not, Bool.decide_or, Bool.not_or]
  cases decide (c = '.') <;> cases decide (c = ',') <;> cases decide (c = '!') <;>
    cases decide (c = '?') <;> cases decide (c = ';') <;> cases decide (c = ':') <;>
    cases decide (c = '\'') <;> cases decide (c = '’') <;> cases decide (c = '"') <;> rfl

theorem cleanSentence_data (text : String) :
    (cleanSentence text).data =
      ((collapseWhiteSpace false
          ((text.data.filter fun c => !isStripped c).map
            fun c => if c = '-' ∨ c = '/' then ' ' else c)).dropWhile
        isWhiteSpace).rdropWhile isWhiteSpace := by
  simp only [cleanSentence, jsTrim, filter_stripped]
  rfl

/-- The words the cleaning produces are the words of the reference reading. -/
theorem cleanSentence_words (text : String) :
    (cleanSentence text = "" ↔ wordsBySpec text = []) ∧
    (cleanSentence text ≠ "" → splitSpace (cleanSentence text) = wordsBySpec text) := by
  have h := split_trim_collapse ((text.data.filter fun c => !isStripped c).map
    fun c => if c = '-' ∨ c = '/' then ' ' else c)
  rw [← cleanSentence_data] at h
  have hruns : wordRuns isWhiteSpace ((text.data.filter fun c => !isStripped c).map
      fun c => if c = '-' ∨ c = '/' then ' ' else c) =
      wordRuns isSeparator (text.data.filter fun c => !isStripped c) := by
    unfold wordRuns
    rw [splitBy_map_dash]
  rw [hruns] at h
  have hempty : cleanSentence text = "" ↔ (cleanSentence text).data = [] :=
    ⟨fun e => by rw [e], fun e => String.ext e⟩
  refine ⟨?_, fun hne => ?_⟩
  · rw [hempty, h.1]
    simp [wordsBySpec]
  · have hne' : (cleanSentence text).data ≠ [] := fun e => hne (hempty.mpr e)
    simp only [splitSpace, wordsBySpec, h.2 hne']

set_option maxRecDepth 100000 in
/-- C12 as stated fails: a quote inside a word is deleted, not turned into a space, so
`good'morning` is the single word `goodmorning`, which the segmenter leaves raw. -/
theorem quote_does_not_separate_words :
    rawWordsOf "good'morning" = some (some ["goodmorning"]) ∧
    rawWordsOf "good'morning" ≠ some (some ["good", "morning"]) ∧
    (segmentWords ["goodmorning"] : List (Token Unit)) =
      [rawToken "goodmorning" "goodmorning" (some (.str "goodmorn"))] := by
  decide

set_option maxRecDepth 100000 in
/-- C12, as amended: for every text, the cleaning deletes the sentence punctuation
`. , ! ? ; :` and the quote characters (nothing is put in their place), treats `-` and `/`
like white space, and yields as words the maximal runs of the remaining characters between
separators; it yields no word exactly when there is none. So a quote inside a word joins its
two parts (`good'morning` is the word `goodmorning`), while a hyphen separates them
(`good-morning` gives `good`, `morning`, segmented as the phrase `good morning`). -/
theorem cleaning_deletes_quotes_and_splits_on_dashes (text : String) :
    (cleanSentence text = "" ↔ wordsBySpec text = []) ∧
    (cleanSentence text ≠ "" → splitSpace (cleanSentence text) = wordsBySpec text) ∧
    rawWordsOf "good'morning" = some (some ["goodmorning"]) ∧
    rawWordsOf "good-morning" = some (some ["good", "morning"]) ∧
    (segmentWords ["good", "morning"] : List (Token Unit)) =
      [matchToken ⟨.str "good morning", .exact⟩ "good morning"] := by
  refine ⟨(cleanSentence_words text).1, (cleanSentence_words text).2, ?_, ?_, ?_⟩ <;> decide

/-! ## Semantic fallback: frame and gating -/

section Fallback

variable {V σ : Type}

theorem findSemanticFallbackForToken_ge (B : SemanticBackend V σ) (token : Token σ)
    {found : String × σ} (h : findSemanticFallbackForToken B token = some (some found)) :
    B.ge found.2 B.minSimilarity = true := by
  unfold findSemanticFallbackForToken at h
  split at h
  · simp at h
  · split at h
    · split at h
      · simp at h
      · simp only at h
        split at h
        · simp at h
        · split at h
          · simp at h
          · split at h
            · rename_i best hbest
              split at h
              · rename_i hge
                simp only [Option.some.injEq] at h
                subst h
                exact hge
              · simp at h
            · simp at h
    · simp at h

/-- The loop of `applySemanticFallback` from index `i`, when no lookup throws. -/
theorem fallbackLoop_effect (B : SemanticBackend V σ) (tokens : List (Token σ))
    (hok : ∀ t ∈ tokens, t.kind = .raw → findSemanticFallbackForToken B t ≠ none) (i : Nat) :
    ∃ tokens' applied, fallbackLoop B i tokens = some (tokens', applied) ∧
      List.Forall₂ (FallbackEffect B) tokens tokens' ∧
      (applied.map fun a => a.index).Pairwise (· < ·) ∧
      (∀ a ∈ applied, ∃ j t, a.index = i + j ∧ tokens[j]? = some t ∧ t.kind = .raw ∧
        tokens'[j]? = some (promote t (a.canonical, a.score)) ∧ a.original = t.original) ∧
      (∀ j t t', tokens[j]? = some t → tokens'[j]? = some t' → t.kind = .raw →
        t'.kind = .semantic → (i + j) ∈ applied.map fun a => a.index) := by
  induction tokens generalizing i with
  | nil => exact ⟨[], [], rfl, .nil, by simp, by simp, by simp⟩
  | cons token rest ih =>
    obtain ⟨rest', applied, hloop, hall, hsorted, hrec, hmem⟩ :=
      ih (fun t ht => hok t (List.mem_cons_of_mem _ ht)) (i + 1)
    have hrec' : ∀ (head' : Token σ), ∀ a ∈ applied, ∃ j t, a.index = i + j ∧
        (token :: rest)[j]? = some t ∧ t.kind = .raw ∧
        (head' :: rest')[j]? = some (promote t (a.canonical, a.score)) ∧
        a.original = t.original := by
      intro head' a ha
      obtain ⟨j, t, h1, h2, h3, h4, h5⟩ := hrec a ha
      exact ⟨j + 1, t, by omega, by simpa using h2, h3, by simpa using h4, h5⟩
    have hmem' : ∀ (head' : Token σ) (extra : List (Applied σ)),
        (head'.kind = .semantic → token.kind = .raw → i ∈ (extra ++ applied).map fun a => a.index) →
        ∀ j t t', (token :: rest)[j]? = some t → (head' :: rest')[j]? = some t' →
          t.kind = .raw → t'.kind = .semantic →
          (i + j) ∈ (extra ++ applied).map fun a => a.index := by
      intro head' extra hhead j t t' h1 h2 h3 h4
      cases j with
      | zero =>
        simp only [List.getElem?_cons_zero, Option.some.injEq] at h1 h2
        subst h1 h2
        exact hhead h4 h3
      | succ j =>
        simp only [List.getElem?_cons_succ] at h1 h2
        have := hmem j t t' h1 h2 h3 h4
        rw [List.map_append]
        exact List.mem_append_right _ (by rwa [show i + (j + 1) = i + 1 + j by omega])
    by_cases hk : token.kind = .raw
    · cases hf : findSemanticFallbackForToken B token with
      | none => exact absurd hf (hok token (List.mem_cons_self _ _) hk)
      | some found =>
        cases found with
        | none =>
          refine ⟨token :: rest', applied, ?_, .cons (Or.inr (Or.inl ⟨hk, hf, rfl⟩)) hall,
            hsorted, hrec' token, ?_⟩
          · simp [fallbackLoop, hk, hf, hloop]
          · have := hmem' token [] (fun h1 _ => by rw [hk] at h1; cases h1)
            simpa using this
        | some fallback =>
          refine ⟨promote token fallback ::rest',
            { index := i, original := token.original, canonical := fallback.1,
              score := fallback.2 } :: applied, ?_,
            .cons (Or.inr (Or.inr ⟨hk, fallback, hf,
              findSemanticFallbackForToken_ge B token hf, rfl⟩)) hall, ?_, ?_, ?_⟩
          · simp [fallbackLoop, hk, hf, hloop, promote]
          · simp only [List.map_cons, List.pairwise_cons]
            refine ⟨fun x hx => ?_, hsorted⟩
            obtain ⟨a, ha, rfl⟩ := List.mem_map.mp hx
            obtain ⟨j, _, h1, _⟩ := hrec a ha
            omega
          · intro a ha
            rcases List.mem_cons.mp ha with rfl | ha
            · exact ⟨0, token, rfl, by simp, hk, by simp, rfl⟩
            · exact hrec' _ a ha
          · have := hmem' (promote token fallback)
              [{ index := i, original := token.original, canonical := fallback.1,
                 score := fallback.2 }] (fun _ _ => by simp)
            simpa using this
    · refine ⟨token :: rest', applied, ?_, .cons (Or.inl ⟨hk, rfl⟩) hall, hsorted,
        hrec' token, ?_⟩
      · simp [fallbackLoop, hk, hloop]
      · have := hmem' token [] (fun _ h2 => absurd h2 hk)
        simpa using this

theorem applySemanticFallback_eq_loop (B : SemanticBackend V σ) (tokens : List (Token σ)) :
    applySemanticFallback B tokens = fallbackLoop B 0 tokens := by
  unfold applySemanticFallback
  split
  · rename_i h
    have hnone : ∀ t ∈ tokens, t.kind ≠ .raw := by
      intro t ht hk
      have : (tokens.any fun t => decide (t.kind = .raw)) = true :=
        List.any_eq_true.mpr ⟨t, ht, by simp [hk]⟩
      simp [this] at h
    clear h
    suffices ∀ i, fallbackLoop B i tokens = some (tokens, []) from (this 0).symm
    induction tokens with
    | nil => intro i; rfl
    | cons t rest ih =>
      intro i
      have h1 := hnone t (List.mem_cons_self _ _)
      simp [fallbackLoop, h1, ih (fun x hx => hnone x (List.mem_cons_of_mem _ hx)) (i + 1)]
  · rfl

end Fallback

section FallbackFrame

variable {V σ : Type}

theorem FallbackEffect.original_eq {B : SemanticBackend V σ} {t t' : Token σ}
    (h : FallbackEffect B t t') : t'.original = t.original := by
  rcases h with ⟨_, rfl⟩ | ⟨_, _, rfl⟩ | ⟨_, fb, _, _, rfl⟩ <;> rfl

/-- C17: for every token list on which no lookup throws, `applySemanticFallback` returns, and
changes only raw tokens: position by position, a token that is not raw is unchanged, a raw
token whose lookup fails is unchanged, and a raw token whose lookup succeeds becomes semantic
with the found word as canonical, source semantic, the found score (at or above the floor)
and accepted; the number and order of tokens and every `original` are unchanged; the returned
records carry, in increasing order, exactly the indices of the promoted tokens. -/
theorem applySemanticFallback_frame (B : SemanticBackend V σ) (tokens : List (Token σ))
    (hok : ∀ t ∈ tokens, t.kind = .raw → findSemanticFallbackForToken B t ≠ none) :
    ∃ tokens' applied, applySemanticFallback B tokens = some (tokens', applied) ∧
      List.Forall₂ (FallbackEffect B) tokens tokens' ∧
      tokens'.length = tokens.length ∧
      (tokens'.map fun t => t.original) = (tokens.map fun t => t.original) ∧
      (applied.map fun a => a.index).Pairwise (· < ·) ∧
      (∀ i, (i ∈ applied.map fun a => a.index) ↔
        ∃ t t', tokens[i]? = some t ∧ tokens'[i]? = some t' ∧ t.kind = .raw ∧
          t'.kind = .semantic) ∧
      (∀ a ∈ applied, ∃ t, tokens[a.index]? = some t ∧
        tokens'[a.index]? = some (promote t (a.canonical, a.score)) ∧
        a.original = t.original) := by
  obtain ⟨tokens', applied, hloop, hall, hsorted, hrec, hmem⟩ :=
    fallbackLoop_effect B tokens hok 0
  refine ⟨tokens', applied, by rw [applySemanticFallback_eq_loop, hloop], hall,
    hall.length_eq.symm, ?_, hsorted, fun i => ⟨fun hi => ?_, ?_⟩, fun a ha => ?_⟩
  · clear hloop hsorted hrec hmem hok
    induction hall with
    | nil => rfl
    | cons h _ ih => simp [h.original_eq, ih]
  · obtain ⟨a, ha, rfl⟩ := List.mem_map.mp hi
    obtain ⟨j, t, h1, h2, h3, h4, _⟩ := hrec a ha
    have hj : a.index = j := by omega
    rw [hj]
    exact ⟨t, _, h2, h4, h3, rfl⟩
  · rintro ⟨t, t', h1, h2, h3, h4⟩
    have := hmem i t t' h1 h2 h3 h4
    simpa using this
  · obtain ⟨j, t, h1, h2, h3, h4, h5⟩ := hrec a ha
    have hj : a.index = j := by omega
    rw [hj]
    exact ⟨t, h2, h4, h5⟩

end FallbackFrame

theorem applySemanticFallback_frame_witness :
    (∀ t ∈ sampleRawTokens, t.kind = .raw →
      findSemanticFallbackForToken sampleBackend t ≠ none) ∧
    ∃ tokens' applied, applySemanticFallback sampleBackend sampleRawTokens =
        some (tokens', applied) ∧
      List.Forall₂ (FallbackEffect sampleBackend) sampleRawTokens tokens' ∧
      tokens'.length = sampleRawTokens.length ∧
      (tokens'.map fun t => t.original) = (sampleRawTokens.map fun t => t.original) ∧
      (applied.map fun a => a.index).Pairwise (· < ·) ∧
      (∀ i, (i ∈ applied.map fun a => a.index) ↔
        ∃ t t', sampleRawTokens[i]? = some t ∧ tokens'[i]? = some t' ∧ t.kind = .raw ∧
          t'.kind = .semantic) ∧
      (∀ a ∈ applied, ∃ t, sampleRawTokens[a.index]? = some t ∧
        tokens'[a.index]? = some (promote t (a.canonical, a.score)) ∧
        a.original = t.original) :=
  ⟨by decide, applySemanticFallback_frame sampleBackend sampleRawTokens (by decide)⟩

/-! ## Semantic fallback: gating by word count -/

section Gating

variable {V σ : Type}

theorem scan_entry (B : SemanticBackend V σ) (vector : V) (norm : σ) (tokenLength : Nat)
    (entries : List (IndexEntry V σ)) (init : Option (String × σ)) {best : String × σ}
    (h : entries.foldl (scanStep B vector norm tokenLength) init = some best) :
    init = some best ∨
      ∃ e ∈ entries, best.1 = e.word ∧ (e.tokens = 0 ∨ e.tokens = tokenLength) := by
  induction entries generalizing init with
  | nil => exact Or.inl (by simpa using h)
  | cons e rest ih =>
    rw [List.foldl_cons] at h
    rcases ih _ h with h1 | ⟨e', he', h2, h3⟩
    · unfold scanStep at h1
      split at h1
      · exact Or.inl h1
      · rename_i hcount
        have hc : e.tokens = 0 ∨ e.tokens = tokenLength := by omega
        split at h1
        · exact Or.inl h1
        · cases init with
          | none =>
            simp only [Option.some.injEq] at h1
            exact Or.inr ⟨e, List.mem_cons_self _ _, by rw [← h1], hc⟩
          | some b =>
            simp only at h1
            split at h1
            · simp only [Option.some.injEq] at h1
              exact Or.inr ⟨e, List.mem_cons_self _ _, by rw [← h1], hc⟩
            · exact Or.inl h1
    · exact Or.inr ⟨e', List.mem_cons_of_mem _ he', h2, h3⟩

theorem wordTokenCount_pos (text : String) : 1 ≤ wordTokenCount text := by
  unfold wordTokenCount
  split <;> omega

/-- The word found by the semantic fallback has the word count of the text the lookup
counted. -/
theorem findSemanticFallbackForToken_count (B : SemanticBackend V σ) (token : Token σ)
    {found : String × σ} (h : findSemanticFallbackForToken B token = some (some found)) :
    wordTokenCount found.1 = wordTokenCount (lengthText token) := by
  unfold findSemanticFallbackForToken at h
  split at h
  · simp at h
  · split at h
    · split at h
      · simp at h
      · simp only at h
        split at h
        · simp at h
        · split at h
          · simp at h
          · rename_i lt hlt
            split at h
            · rename_i best hbest
              split at h
              · simp only [Option.some.injEq] at h
                subst h
                rcases scan_entry B _ _ _ _ _ hbest with h1 | ⟨e, he, h2, h3⟩
                · simp at h1
                · obtain ⟨w, _, rfl⟩ := List.mem_map.mp he
                  simp only at h2 h3
                  have hpos := wordTokenCount_pos w
                  rw [h2]
                  rcases h3 with h3 | h3
                  · omega
                  · rw [h3]
                    unfold lengthText
                    rfl
              · simp at h
            · simp at h
    · simp at h

end Gating

theorem splitBy_no_sep (sep : Char → Bool) (cs : List Char) :
    ∀ w ∈ splitBy sep cs, ∀ c ∈ w, sep c = false := by
  induction cs with
  | nil => intro w hw c hc; simp [splitBy] at hw; simp [hw] at hc
  | cons d cs ih =>
    intro w hw c hc
    by_cases hd : sep d = true
    · rw [splitBy_cons_sep cs hd] at hw
      rcases List.mem_cons.mp hw with rfl | hw
      · simp at hc
      · exact ih w hw c hc
    · have hd' : sep d = false := by simpa using hd
      obtain ⟨v, r, hs⟩ := List.exists_cons_of_ne_nil (splitBy_ne_nil sep cs)
      rw [splitBy_cons_word hd' hs] at hw
      rw [hs] at ih
      rcases List.mem_cons.mp hw with rfl | hw
      · rcases List.mem_cons.mp hc with rfl | hc
        · exact hd'
        · exact ih v (List.mem_cons_self _ _) c hc
      · exact ih w (List.mem_cons_of_mem _ hw) c hc

/-- The cleaned words of a sentence are non-empty and hold no separator. -/
theorem rawWordsOf_words {sentence : String} {rawWords : List String}
    (h : rawWordsOf sentence = some (some rawWords)) :
    ∀ w ∈ rawWords, w ≠ "" ∧ ∀ c ∈ w.data, isSeparator c = false := by
  have key : ∀ text, cleanSentence text ≠ "" →
      ∀ w ∈ splitSpace (cleanSentence text), w ≠ "" ∧ ∀ c ∈ w.data, isSeparator c = false := by
    intro text hne w hw
    rw [(cleanSentence_words text).2 hne] at hw
    obtain ⟨cs, hcs, rfl⟩ := List.mem_map.mp hw
    have hmem := List.mem_filter.mp hcs
    refine ⟨fun e => ?_, splitBy_no_sep _ _ cs hmem.1⟩
    have : cs = [] := congrArg String.data e
    simp [this] at hmem
  unfold rawWordsOf at h
  simp only at h
  split at h
  · simp at h
  · split at h
    · rename_i text _
      split at h
      · simp at h
      · rename_i hne
        simp only [Option.some.injEq] at h
        subst h
        exact key text hne
    · simp at h

theorem countWords_word (l : List Char) (h : ∀ c ∈ l, isWhiteSpace c = false) :
    countWords true l = 0 ∧ (l ≠ [] → countWords false l = 1) := by
  induction l with
  | nil => simp [countWords]
  | cons c l ih =>
    have hc := h c (List.mem_cons_self _ _)
    have ih1 := (ih fun x hx => h x (List.mem_cons_of_mem _ hx)).1
    simp [countWords, hc, ih1]

theorem wordTokenCount_word {w : String} (hne : w ≠ "")
    (h : ∀ c ∈ w.data, isSeparator c = false) : wordTokenCount w = 1 := by
  have hws : ∀ c ∈ w.data, isWhiteSpace c = false := by
    intro c hc
    have := h c hc
    simp only [isSeparator, Bool.or_eq_false_iff] at this
    exact this.1.1
  have hdata : w.data ≠ [] := fun e => hne (String.ext e)
  simp [wordTokenCount, (countWords_word w.data hws).2 hdata]

section GatingSentence

variable {V σ : Type}

theorem LongestMatch.raw_original {rawWords normalizedWords : List String}
    {lemmaWords : List JSValue} {position : Nat} {pieces : List (Piece σ)}
    (hlen : rawWords.length = normalizedWords.length)
    (h : LongestMatch rawWords normalizedWords lemmaWords position pieces) :
    ∀ t ∈ pieces.filterMap Piece.token?, t.kind = .raw → t.original ∈ rawWords := by
  induction h with
  | done hend => intro t ht; simp at ht
  | matched hpos hfit hres hlongest hrest ih =>
    intro t ht hk
    simp only [List.filterMap_cons, Piece.token?, List.mem_cons] at ht
    rcases ht with rfl | ht
    · simp [matchToken] at hk
    · exact ih t ht hk
  | @raw position rest hlt hnone hword hrest ih =>
    intro t ht hk
    simp only [List.filterMap_cons, Piece.token?, List.mem_cons] at ht
    rcases ht with rfl | ht
    · have hlt' : position < rawWords.length := hlen ▸ hlt
      show rawWords.getD position "" ∈ rawWords
      rw [List.getD_eq_getElem?_getD, List.getElem?_eq_getElem hlt']
      exact List.getElem_mem _
    · exact ih t ht hk
  | dropped hlt hnone hword hrest ih =>
    intro t ht hk
    simp only [List.filterMap_cons, Piece.token?] at ht
    exact ih t ht hk

theorem segmentWords_raw_original (rawWords : List String) :
    ∀ t ∈ (segmentWords rawWords : List (Token σ)), t.kind = .raw →
      t.original ∈ rawWords := by
  obtain ⟨pieces, h1, h2, _⟩ := segmentWords_trace (σ := σ) rawWords
  rw [← h2]
  exact h1.raw_original (by simp)

theorem fallbackLoop_promoted (B : SemanticBackend V σ) (tokens : List (Token σ)) (i : Nat)
    {result : List (Token σ) × List (Applied σ)} (h : fallbackLoop B i tokens = some result) :
    ∀ t' ∈ result.1, t' ∈ tokens ∨
      ∃ t ∈ tokens, t.kind = .raw ∧
        ∃ fb, findSemanticFallbackForToken B t = some (some fb) ∧ t' = promote t fb := by
  induction tokens generalizing i result with
  | nil =>
    simp only [fallbackLoop, Option.some.injEq] at h
    subst h
    intro t ht
    simp at ht
  | cons token rest ih =>
    unfold fallbackLoop at h
    have step : ∀ (head : Token σ) (extra : List (Applied σ) → List (Applied σ)),
        (head = token ∨ (token.kind = .raw ∧
          ∃ fb, findSemanticFallbackForToken B token = some (some fb) ∧
            head = promote token fb)) →
        (fallbackLoop B (i + 1) rest).map (fun r => (head :: r.1, extra r.2)) = some result →
        ∀ t' ∈ result.1, t' ∈ token :: rest ∨
          ∃ t ∈ token :: rest, t.kind = .raw ∧
            ∃ fb, findSemanticFallbackForToken B t = some (some fb) ∧ t' = promote t fb := by
      intro head extra hhead hmap t' ht'
      cases hr : fallbackLoop B (i + 1) rest with
      | none => simp [hr] at hmap
      | some r =>
        simp only [hr, Option.map_some', Option.some.injEq] at hmap
        subst hmap
        rcases List.mem_cons.mp ht' with rfl | ht'
        · rcases hhead with rfl | ⟨hk, fb, hf, hp⟩
          · exact Or.inl (List.mem_cons_self _ _)
          · exact Or.inr ⟨token, List.mem_cons_self _ _, hk, fb, hf, hp⟩
        · rcases ih (i + 1) hr t' ht' with h1 | ⟨t, ht, hk, fb, hf, hp⟩
          · exact Or.inl (List.mem_cons_of_mem _ h1)
          · exact Or.inr ⟨t, List.mem_cons_of_mem _ ht, hk, fb, hf, hp⟩
    split at h
    · exact step token (fun a => a) (Or.inl rfl) h
    · rename_i hk
      have hk' : token.kind = .raw := by simpa using hk
      split at h
      · simp at h
      · exact step token (fun a => a) (Or.inl rfl) h
      · rename_i fallback hfound
        exact step _ (fun a => _ :: a) (Or.inr ⟨hk', fallback, hfound, rfl⟩) h

end GatingSentence

section GatingClaim

variable {V σ : Type}

theorem lengthText_of_original (t : Token σ) (h : t.original ≠ "") :
    lengthText t = t.original := by
  simp [lengthText, jsOr, truthy?, JSValue.truthy, h]

/-- C15: for every backend and every token, a word returned by
`findSemanticFallbackForToken` is a vocabulary word whose word count equals the word count
the lookup took for the token (that of `original || lemma || normalized`): whatever the
scores, a one-word query never gets `good morning` (2 words) or `how are you` (3 words) and a
multi-word query never gets a one-word entry. So every semantic token that
`convertSentenceToGloss` returns has a one-word canonical from the vocabulary. -/
theorem semantic_gating_by_word_count (B : SemanticBackend V σ) :
    (∀ (token : Token σ) (found : String × σ),
      findSemanticFallbackForToken B token = some (some found) →
      found.1 ∈ AVAILABLE_WORDS ∧
        wordTokenCount found.1 = wordTokenCount (lengthText token)) ∧
    (∀ (sentence : String) (conv : Conversion σ),
      convertSentenceToGloss B sentence = some conv →
      ∀ t ∈ conv.tokens, t.kind = .semantic →
        ∃ w ∈ AVAILABLE_WORDS, t.canonical = some (.str w) ∧ wordTokenCount w = 1) ∧
    wordTokenCount "good morning" = 2 ∧ wordTokenCount "how are you" = 3 := by
  refine ⟨fun token found h => ⟨findSemanticFallbackForToken_word B token h,
    findSemanticFallbackForToken_count B token h⟩, ?_, by decide, by decide⟩
  intro sentence conv h
  unfold convertSentenceToGloss at h
  cases hw : rawWordsOf sentence with
  | none => simp [hw] at h
  | some words =>
    cases words with
    | none =>
      simp only [hw, Option.some.injEq] at h
      subst h
      intro t ht
      simp at ht
    | some rawWords =>
      simp only [hw] at h
      cases hf : applySemanticFallback B (segmentWords rawWords) with
      | none => simp [hf] at h
      | some result =>
        obtain ⟨tokens, applied⟩ := result
        simp only [hf] at h
        cases hg : buildGlossSequence tokens with
        | none => simp [hg] at h
        | some glosses =>
          simp only [hg, Option.some.injEq] at h
          subst h
          intro t ht hk
          rw [applySemanticFallback_eq_loop] at hf
          rcases fallbackLoop_promoted B _ 0 hf t ht with hseg | ⟨t0, ht0, hraw, fb, hfb, hp⟩
          · rcases segmentWords_shape rawWords t hseg with ⟨h1, _⟩ | ⟨h1, _⟩ <;>
              rw [h1] at hk <;> cases hk
          · have hmem := segmentWords_raw_original rawWords t0 ht0 hraw
            obtain ⟨hne, hsep⟩ := rawWordsOf_words hw _ hmem
            have hcount := findSemanticFallbackForToken_count B t0 hfb
            rw [lengthText_of_original t0 hne, wordTokenCount_word hne hsep] at hcount
            exact ⟨fb.1, findSemanticFallbackForToken_word B t0 hfb, by rw [hp]; rfl, hcount⟩

end GatingClaim

/-! ## Semantic fallback: the scan keeps the first maximum -/

section Scan

variable {V σ : Type} [LinearOrder σ]

theorem scan_from_some (B : SemanticBackend V σ) (hgt : ∀ a b, B.gt a b = true ↔ b < a)
    (vector : V) (norm : σ) (len : Nat) (es : List (IndexEntry V σ)) (b : String × σ) :
    ∃ r, es.foldl (scanStep B vector norm len) (some b) = some r ∧
      ((r = b ∧ ∀ e ∈ es, (e.tokens = 0 ∨ e.tokens = len) → B.falsy e.norm = false →
          entryScore B vector norm e ≤ b.2) ∨
       ∃ pre e post, es = pre ++ e :: post ∧ (e.tokens = 0 ∨ e.tokens = len) ∧
         B.falsy e.norm = false ∧ r = (e.word, entryScore B vector norm e) ∧
         b.2 < entryScore B vector norm e ∧
         (∀ x ∈ pre, (x.tokens = 0 ∨ x.tokens = len) → B.falsy x.norm = false →
           entryScore B vector norm x < entryScore B vector norm e) ∧
         (∀ x ∈ post, (x.tokens = 0 ∨ x.tokens = len) → B.falsy x.norm = false →
           entryScore B vector norm x ≤ entryScore B vector norm e)) := by
  induction es generalizing b with
  | nil => exact ⟨b, rfl, Or.inl ⟨rfl, by simp⟩⟩
  | cons e es ih =>
    rw [List.foldl_cons]
    by_cases hel : (e.tokens = 0 ∨ e.tokens = len) ∧ B.falsy e.norm = false
    · by_cases hs : b.2 < entryScore B vector norm e
      · have hstep : scanStep B vector norm len (some b) e =
            some (e.word, entryScore B vector norm e) := by
          have h1 : ¬(e.tokens ≠ 0 ∧ e.tokens ≠ len) := by omega
          have hg : B.gt (B.cosineSimilarity vector e.vector norm e.norm) b.2 = true :=
            (hgt _ _).mpr hs
          simp [scanStep, h1, hel.2, entryScore, hg]
        rw [hstep]
        obtain ⟨r, hr, hcase⟩ := ih (e.word, entryScore B vector norm e)
        refine ⟨r, hr, Or.inr ?_⟩
        rcases hcase with ⟨hrb, hall⟩ | ⟨pre, e', post, h1, h2, h3, h4, h5, h6, h7⟩
        · exact ⟨[], e, es, rfl, hel.1, hel.2, hrb, hs, by simp, hall⟩
        · refine ⟨e :: pre, e', post, by rw [h1]; rfl, h2, h3, h4, lt_trans hs h5, ?_, h7⟩
          intro x hx hx1 hx2
          rcases List.mem_cons.mp hx with rfl | hx
          · exact h5
          · exact h6 x hx hx1 hx2
      · have hstep : scanStep B vector norm len (some b) e = some b := by
          have h1 : ¬(e.tokens ≠ 0 ∧ e.tokens ≠ len) := by omega
          have h2 : B.gt (entryScore B vector norm e) b.2 = false := by
            cases hg : B.gt (entryScore B vector norm e) b.2
            · rfl
            · exact absurd ((hgt _ _).mp hg) hs
          simp only [entryScore] at h2
          simp [scanStep, h1, hel.2, h2]
        rw [hstep]
        obtain ⟨r, hr, hcase⟩ := ih b
        refine ⟨r, hr, ?_⟩
        rcases hcase with ⟨hrb, hall⟩ | ⟨pre, e', post, h1, h2, h3, h4, h5, h6, h7⟩
        · refine Or.inl ⟨hrb, fun x hx hx1 hx2 => ?_⟩
          rcases List.mem_cons.mp hx with rfl | hx
          · exact not_lt.mp hs
          · exact hall x hx hx1 hx2
        · refine Or.inr ⟨e :: pre, e', post, by rw [h1]; rfl, h2, h3, h4, h5, ?_, h7⟩
          intro x hx hx1 hx2
          rcases List.mem_cons.mp hx with rfl | hx
          · exact lt_of_le_of_lt (not_lt.mp hs) h5
          · exact h6 x hx hx1 hx2
    · have hstep : scanStep B vector norm len (some b) e = some b := by
        unfold scanStep
        by_cases h1 : e.tokens ≠ 0 ∧ e.tokens ≠ len
        · simp [h1]
        · have h2 : e.tokens = 0 ∨ e.tokens = len := by omega
          have h3 : B.falsy e.norm = true := by
            cases hf : B.falsy e.norm
            · exact absurd ⟨h2, hf⟩ hel
            · rfl
          simp [h1, h3]
      rw [hstep]
      obtain ⟨r, hr, hcase⟩ := ih b
      refine ⟨r, hr, ?_⟩
      rcases hcase with ⟨hrb, hall⟩ | ⟨pre, e', post, h1, h2, h3, h4, h5, h6, h7⟩
      · refine Or.inl ⟨hrb, fun x hx hx1 hx2 => ?_⟩
        rcases List.mem_cons.mp hx with rfl | hx
        · exact absurd ⟨hx1, hx2⟩ hel
        · exact hall x hx hx1 hx2
      · refine Or.inr ⟨e :: pre, e', post, by rw [h1]; rfl, h2, h3, h4, h5, ?_, h7⟩
        intro x hx hx1 hx2
        rcases List.mem_cons.mp hx with rfl | hx
        · exact absurd ⟨hx1, hx2⟩ hel
        · exact h6 x hx hx1 hx2

theorem scan_from_none (B : SemanticBackend V σ) (hgt : ∀ a b, B.gt a b = true ↔ b < a)
    (vector : V) (norm : σ) (len : Nat) (es : List (IndexEntry V σ)) :
    (es.foldl (scanStep B vector norm len) none = none ∧
      ∀ e ∈ es, (e.tokens = 0 ∨ e.tokens = len) → B.falsy e.norm = true) ∨
    ∃ pre e post, es = pre ++ e :: post ∧ (e.tokens = 0 ∨ e.tokens = len) ∧
      B.falsy e.norm = false ∧
      es.foldl (scanStep B vector norm len) none =
        some (e.word, entryScore B vector norm e) ∧
      (∀ x ∈ pre, (x.tokens = 0 ∨ x.tokens = len) → B.falsy x.norm = false →
        entryScore B vector norm x < entryScore B vector norm e) ∧
      (∀ x ∈ post, (x.tokens = 0 ∨ x.tokens = len) → B.falsy x.norm = false →
        entryScore B vector norm x ≤ entryScore B vector norm e) := by
  induction es with
  | nil => exact Or.inl ⟨rfl, by simp⟩
  | cons e es ih =>
    rw [List.foldl_cons]
    by_cases hel : (e.tokens = 0 ∨ e.tokens = len) ∧ B.falsy e.norm = false
    · have hstep : scanStep B vector norm len none e =
          some (e.word, entryScore B vector norm e) := by
        have h1 : ¬(e.tokens ≠ 0 ∧ e.tokens ≠ len) := by omega
        simp [scanStep, h1, hel.2, entryScore]
      rw [hstep]
      obtain ⟨r, hr, hcase⟩ := scan_from_some B hgt vector norm len es
        (e.word, entryScore B vector norm e)
      right
      rcases hcase with ⟨hrb, hall⟩ | ⟨pre, e', post, h1, h2, h3, h4, h5, h6, h7⟩
      · exact ⟨[], e, es, rfl, hel.1, hel.2, by rw [hr, hrb], by simp, hall⟩
      · refine ⟨e :: pre, e', post, by rw [h1]; rfl, h2, h3, by rw [hr, h4], ?_, h7⟩
        intro x hx hx1 hx2
        rcases List.mem_cons.mp hx with rfl | hx
        · exact h5
        · exact h6 x hx hx1 hx2
    · have hfalsy : (e.tokens = 0 ∨ e.tokens = len) → B.falsy e.norm = true := by
        intro h2
        cases hf : B.falsy e.norm
        · exact absurd ⟨h2, hf⟩ hel
        · rfl
      have hstep : scanStep B vector norm len none e = none := by
        unfold scanStep
        by_cases h1 : e.tokens ≠ 0 ∧ e.tokens ≠ len
        · simp [h1]
        · simp [h1, hfalsy (by omega)]
      rw [hstep]
      rcases ih with ⟨hnone, hall⟩ | ⟨pre, e', post, h1, h2, h3, h4, h5, h6⟩
      · refine Or.inl ⟨hnone, fun x hx hx1 => ?_⟩
        rcases List.mem_cons.mp hx with rfl | hx
        · exact hfalsy hx1
        · exact hall x hx hx1
      · refine Or.inr ⟨e :: pre, e', post, by rw [h1]; rfl, h2, h3, h4, ?_, h6⟩
        intro x hx hx1 hx2
        rcases List.mem_cons.mp hx with rfl | hx
        · rw [hfalsy hx1] at hx2
          cases hx2
        · exact h5 x hx hx1 hx2

end Scan

section Lookup

variable {V σ : Type}

theorem semanticIndexEntries_tokens (B : SemanticBackend V σ) :
    ∀ e ∈ semanticIndexEntries B, e.tokens ≠ 0 := by
  intro e he
  obtain ⟨w, _, rfl⟩ := List.mem_map.mp he
  have := wordTokenCount_pos w
  simp only
  omega

/-- The lookup, once the query text has a vector with a usable norm: it returns what the
scan found when that clears the floor, and `null` otherwise. -/
theorem findSemanticFallbackForToken_unfold (B : SemanticBackend V σ) (token : Token σ)
    (query : String) (vector : V)
    (hq : jsOr (jsOr token.lemma_ (token.normalized.map .str)) (some (.str token.original)) =
      some (.str query))
    (horig : token.original ≠ "") (hv : B.embedText query = some vector)
    (hn : B.falsy (B.vectorNorm vector) = false) :
    (scanBest B vector (B.vectorNorm vector) (wordTokenCount token.original) = none →
      findSemanticFallbackForToken B token = some none) ∧
    (∀ best, scanBest B vector (B.vectorNorm vector) (wordTokenCount token.original) =
        some best → B.ge best.2 B.minSimilarity = true →
      findSemanticFallbackForToken B token = some (some best)) ∧
    (∀ best, scanBest B vector (B.vectorNorm vector) (wordTokenCount token.original) =
        some best → B.ge best.2 B.minSimilarity = false →
      findSemanticFallbackForToken B token = some none) := by
  have hl : jsOr (jsOr (some (.str token.original)) token.lemma_)
      (token.normalized.map .str) = some (.str token.original) := by
    simp [jsOr, truthy?, JSValue.truthy, horig]
  have he : (semanticIndexEntries B).isEmpty = false := by
    simp [semanticIndexEntries, AVAILABLE_WORDS]
  refine ⟨fun h => ?_, fun best h hge => ?_, fun best h hge => ?_⟩
  · unfold scanBest at h
    simp [findSemanticFallbackForToken, he, hq, hv, hn, hl, h]
  · unfold scanBest at h
    simp [findSemanticFallbackForToken, he, hq, hv, hn, hl, h, hge]
  · unfold scanBest at h
    simp [findSemanticFallbackForToken, he, hq, hv, hn, hl, h, hge]

end Lookup

section LookupClaim

variable {V σ : Type} [LinearOrder σ]

theorem lookup_first_maximum_core (B : SemanticBackend V σ)
    (hgt : ∀ a b, B.gt a b = true ↔ b < a) (hge : ∀ a b, B.ge a b = true ↔ b ≤ a)
    (token : Token σ) (query : String) (vector : V)
    (hq : jsOr (jsOr token.lemma_ (token.normalized.map .str)) (some (.str token.original)) =
      some (.str query))
    (horig : token.original ≠ "") (hv : B.embedText query = some vector)
    (hn : B.falsy (B.vectorNorm vector) = false)
    (hzero : ∀ e ∈ candidateEntries B (wordTokenCount token.original),
      B.falsy e.norm = true →
        entryScore B vector (B.vectorNorm vector) e < B.minSimilarity) :
    LookupIsFirstMaximum B token vector := by
  obtain ⟨u1, u2, u3⟩ := findSemanticFallbackForToken_unfold B token query vector hq horig hv hn
  have hcand : ∀ x, x ∈ candidateEntries B (wordTokenCount token.original) ↔
      x ∈ semanticIndexEntries B ∧ x.tokens = wordTokenCount token.original := by
    intro x
    simp [candidateEntries, List.mem_filter]
  rcases scan_from_none B hgt vector (B.vectorNorm vector) (wordTokenCount token.original)
      (semanticIndexEntries B) with ⟨hnone, hall⟩ | ⟨pre, e, post, hes, hcount, hnf, hbest, hpre, hpost⟩
  · have hfind := u1 hnone
    refine ⟨fun found hf => (by rw [hfind] at hf; cases hf), fun _ => ?_, fun _ => hfind⟩
    intro x hx
    obtain ⟨hx1, hx2⟩ := (hcand x).mp hx
    exact hzero x hx (hall x hx1 (Or.inr hx2))
  · have hemem : e ∈ semanticIndexEntries B := by rw [hes]; simp
    have hetok : e.tokens = wordTokenCount token.original := by
      rcases hcount with h | h
      · exact absurd h (semanticIndexEntries_tokens B e hemem)
      · exact h
    have hsub : ∀ x, x ∈ pre ∨ x ∈ post → x ∈ semanticIndexEntries B := by
      intro x hx
      rw [hes]
      rcases hx with hx | hx
      · exact List.mem_append_left _ hx
      · exact List.mem_append_right _ (List.mem_cons_of_mem _ hx)
    have hfilter : candidateEntries B (wordTokenCount token.original) =
        (pre.filter fun x => x.tokens = wordTokenCount token.original) ++
          e :: (post.filter fun x => x.tokens = wordTokenCount token.original) := by
      unfold candidateEntries
      rw [hes, List.filter_append, List.filter_cons]
      simp [hetok]
    by_cases hfloor : B.minSimilarity ≤ entryScore B vector (B.vectorNorm vector) e
    · have hfind := u2 _ hbest ((hge _ _).mpr hfloor)
      refine ⟨fun found hf => ?_, fun hf => ?_, fun hall => ?_⟩
      · rw [hfind] at hf
        simp only [Option.some.injEq] at hf
        refine ⟨e, ⟨_, _, hfilter, fun x hx => ?_, fun x hx => ?_⟩, hf.symm, hfloor⟩
        · obtain ⟨hx1, hx2⟩ := List.mem_filter.mp hx
          have hx3 : x.tokens = wordTokenCount token.original := by simpa using hx2
          cases hfx : B.falsy x.norm
          · exact hpre x hx1 (Or.inr hx3) hfx
          · exact lt_of_lt_of_le
              (hzero x ((hcand x).mpr ⟨hsub x (Or.inl hx1), hx3⟩) hfx) hfloor
        · obtain ⟨hx1, hx2⟩ := List.mem_filter.mp hx
          have hx3 : x.tokens = wordTokenCount token.original := by simpa using hx2
          cases hfx : B.falsy x.norm
          · exact hpost x hx1 (Or.inr hx3) hfx
          · exact le_of_lt (lt_of_lt_of_le
              (hzero x ((hcand x).mpr ⟨hsub x (Or.inr hx1), hx3⟩) hfx) hfloor)
      · rw [hfind] at hf
        cases hf
      · exact absurd (hall e ((hcand e).mpr ⟨hemem, hetok⟩)) (not_lt.mpr hfloor)
    · have hlt : entryScore B vector (B.vectorNorm vector) e < B.minSimilarity :=
        not_le.mp hfloor
      have hgef : B.ge (entryScore B vector (B.vectorNorm vector) e) B.minSimilarity = false := by
        cases hg : B.ge (entryScore B vector (B.vectorNorm vector) e) B.minSimilarity
        · rfl
        · exact absurd ((hge _ _).mp hg) hfloor
      have hfind := u3 _ hbest hgef
      refine ⟨fun found hf => (by rw [hfind] at hf; cases hf), fun _ => ?_, fun _ => hfind⟩
      intro x hx
      obtain ⟨hx1, hx2⟩ := (hcand x).mp hx
      cases hfx : B.falsy x.norm
      · rw [hes] at hx1
        rcases List.mem_append.mp hx1 with h | h
        · exact lt_trans (hpre x h (Or.inr hx2) hfx) hlt
        · rcases List.mem_cons.mp h with rfl | h
          · exact hlt
          · exact lt_of_le_of_lt (hpost x h (Or.inr hx2) hfx) hlt
      · exact hzero x hx hfx

/-- C16: let scores be compared by a linear order (`>` and `>=` of the source on numbers
that are not NaN), and take a token with a non-empty `original` whose query text is `query`.
When `embedText` gives no vector, or a vector whose norm is zero, the lookup returns `null`.
Otherwise, given that an entry with an unusable norm scores below the floor (its cosine is
0 in the source), a returned pair is the first entry in vocabulary order that attains the
maximum score among the index entries with the token's word count, together with that score,
which is at or above the floor; and `null` is returned exactly when every such entry scores
below the floor (in particular when there is none). -/
theorem lookup_returns_first_maximum (B : SemanticBackend V σ)
    (hgt : ∀ a b, B.gt a b = true ↔ b < a) (hge : ∀ a b, B.ge a b = true ↔ b ≤ a)
    (token : Token σ) (query : String)
    (hq : jsOr (jsOr token.lemma_ (token.normalized.map .str)) (some (.str token.original)) =
      some (.str query))
    (horig : token.original ≠ "") :
    (B.embedText query = none → findSemanticFallbackForToken B token = some none) ∧
    (∀ vector, B.embedText query = some vector → B.falsy (B.vectorNorm vector) = true →
      findSemanticFallbackForToken B token = some none) ∧
    (∀ vector, B.embedText query = some vector → B.falsy (B.vectorNorm vector) = false →
      (∀ e ∈ candidateEntries B (wordTokenCount token.original), B.falsy e.norm = true →
        entryScore B vector (B.vectorNorm vector) e < B.minSimilarity) →
      LookupIsFirstMaximum B token vector) := by
  have he : (semanticIndexEntries B).isEmpty = false := by
    simp [semanticIndexEntries, AVAILABLE_WORDS]
  refine ⟨fun hv => ?_, fun vector hv hn => ?_, fun vector hv hn hzero =>
    lookup_first_maximum_core B hgt hge token query vector hq horig hv hn hzero⟩
  · simp [findSemanticFallbackForToken, he, hq, hv]
  · simp [findSemanticFallbackForToken, he, hq, hv, hn]

end LookupClaim

theorem lookup_returns_first_maximum_witness :
    (∀ a b, sampleBackend.gt a b = true ↔ b < a) ∧
    (∀ a b, sampleBackend.ge a b = true ↔ b ≤ a) ∧
    jsOr (jsOr (rawToken "tomorrow" "tomorrow" (some (.str "tomorrow")) : Token Nat).lemma_
        ((rawToken "tomorrow" "tomorrow" (some (.str "tomorrow")) : Token Nat).normalized.map
          .str))
      (some (.str (rawToken "tomorrow" "tomorrow" (some (.str "tomorrow")) : Token Nat).original))
      = some (.str "tomorrow") ∧
    (rawToken "tomorrow" "tomorrow" (some (.str "tomorrow")) : Token Nat).original ≠ "" ∧
    LookupIsFirstMaximum sampleBackend
      (rawToken "tomorrow" "tomorrow" (some (.str "tomorrow")) : Token Nat) 0 :=
  ⟨by simp [sampleBackend], by simp [sampleBackend], by decide, by decide,
    (lookup_returns_first_maximum sampleBackend (by simp [sampleBackend])
      (by simp [sampleBackend]) (rawToken "tomorrow" "tomorrow" (some (.str "tomorrow")))
      "tomorrow" (by decide) (by decide)).2.2 0 rfl rfl
      (fun e he h => by
        obtain ⟨w, _, rfl⟩ := List.mem_map.mp (List.mem_of_mem_filter he)
        simp [sampleBackend] at h)⟩

/-! ## The semantic index: build, life cycle, cache -/

section IndexBuild

variable {V σ : Type}

theorem buildIndexLoop_fail (P : EmbeddingProvider V σ) :
    ∀ (words : List String) (k : Nat) (entries : List (IndexEntry V σ)),
      (∃ i word, words[i]? = some word ∧ P.fetchEmbeddingFromEndpoint (k + i) word = none) →
      buildIndexLoop P words k entries = []
  | [], _, _, ⟨i, word, h, _⟩ => by simp at h
  | w :: rest, k, entries, ⟨i, word, h, hf⟩ => by
    unfold buildIndexLoop
    cases hw : P.fetchEmbeddingFromEndpoint k w with
    | none => rfl
    | some vector =>
      simp only
      cases i with
      | zero =>
        simp at h
        subst h
        rw [Nat.add_zero, hw] at hf
        cases hf
      | succ j =>
        refine buildIndexLoop_fail P rest (k + 1) _ ⟨j, word, by simpa using h, ?_⟩
        rw [← hf]; congr 1; omega

theorem buildIndexLoop_ok (P : EmbeddingProvider V σ) :
    ∀ (words : List String) (k : Nat) (entries : List (IndexEntry V σ)),
      (∀ i word, words[i]? = some word → P.fetchEmbeddingFromEndpoint (k + i) word ≠ none) →
      (buildIndexLoop P words k entries).map (fun e => e.word) =
        entries.map (fun e => e.word) ++ words
  | [], _, _, _ => by simp [buildIndexLoop]
  | w :: rest, k, entries, h => by
    unfold buildIndexLoop
    cases hw : P.fetchEmbeddingFromEndpoint k w with
    | none => exact absurd hw (h 0 w (by simp))
    | some vector =>
      simp only
      rw [buildIndexLoop_ok P rest (k + 1) _ (fun i word hi => by
        have := h (i + 1) word (by simpa using hi)
        rwa [show k + (i + 1) = k + 1 + i by omega] at this)]
      simp [indexEntry]

theorem generateLocalSemanticIndex_words (P : EmbeddingProvider V σ) :
    (generateLocalSemanticIndex P).map (fun e => e.word) = AVAILABLE_WORDS := by
  simp [generateLocalSemanticIndex, indexEntry, Function.comp_def]

/-- C18: with an endpoint configured, if the call of the endpoint fails for some vocabulary
word (the `k`-th call is the one for the `k`-th word), `loadSemanticIndex` leaves method local,
dimension 64, ready, and the locally generated index as entries, which has one entry per
vocabulary word in vocabulary order, each with the local embedding of its word; the method is
remote exactly when the endpoint answered for every vocabulary word. -/
theorem failed_remote_build_falls_back_to_local (P : EmbeddingProvider V σ)
    (state : SemanticIndexState V σ) (hend : P.endpoint = true) :
    ((∃ k word, AVAILABLE_WORDS[k]? = some word ∧
        P.fetchEmbeddingFromEndpoint k word = none) →
      loadSemanticIndex P state =
        { method := .local_, ready := true, entries := generateLocalSemanticIndex P,
          dimension := 64 }) ∧
    ((generateLocalSemanticIndex P).map (fun e => e.word) = AVAILABLE_WORDS ∧
      ∀ e ∈ generateLocalSemanticIndex P, e.vector = localSimpleEmbedding P e.word) ∧
    ((loadSemanticIndex P state).method = .remote ↔
      ∀ k word, AVAILABLE_WORDS[k]? = some word →
        P.fetchEmbeddingFromEndpoint k word ≠ none) := by
  have hfail : (∃ k word, AVAILABLE_WORDS[k]? = some word ∧
        P.fetchEmbeddingFromEndpoint k word = none) →
      loadSemanticIndex P state =
        { method := .local_, ready := true, entries := generateLocalSemanticIndex P,
          dimension := 64 } := by
    rintro ⟨k, word, hk, hf⟩
    have := buildIndexLoop_fail P AVAILABLE_WORDS 0 [] ⟨k, word, hk, by simpa using hf⟩
    simp [loadSemanticIndex, hend, buildIndexWithEndpoint, this, LOCAL_EMBED_DIM]
  refine ⟨hfail, ⟨generateLocalSemanticIndex_words P, ?_⟩, ?_, ?_⟩
  · intro e he
    obtain ⟨w, _, rfl⟩ := List.mem_map.mp he
    rfl
  · intro hm k word hk hf
    rw [hfail ⟨k, word, hk, hf⟩] at hm
    cases hm
  · intro hall
    have hw := buildIndexLoop_ok P AVAILABLE_WORDS 0 [] (fun i word hi => by
      simpa using hall i word hi)
    simp only [loadSemanticIndex, hend, if_true, buildIndexWithEndpoint]
    cases hb : buildIndexLoop P AVAILABLE_WORDS 0 [] with
    | nil =>
      rw [hb] at hw
      have hnil : AVAILABLE_WORDS = [] := by simpa using hw.symm
      exact absurd hnil (by decide)
    | cons first rest => rfl

theorem failed_remote_build_falls_back_to_local_witness :
    sampleProvider.endpoint = true ∧
    loadSemanticIndex sampleProvider sampleIndexState =
      { method := .local_, ready := true, entries := generateLocalSemanticIndex sampleProvider,
        dimension := 64 } :=
  ⟨rfl, (failed_remote_build_falls_back_to_local sampleProvider sampleIndexState rfl).1
    ⟨18, "hat", by decide, rfl⟩⟩

theorem ensure_sound (P : EmbeddingProvider V σ) (L : IndexLifecycle V σ) (h : L.Sound) :
    (ensureSemanticIndexReady P L).1.Sound ∧
    ((ensureSemanticIndexReady P L).2 = .state ∨
      (ensureSemanticIndexReady P L).2 = .promise 0) := by
  rcases h with ⟨hl, hb, hr⟩ | ⟨hl, hb⟩
  · refine ⟨Or.inr ?_, Or.inr ?_⟩
    · cases he : P.endpoint <;> simp [ensureSemanticIndexReady, hl, hb, hr, he]
    · simp [ensureSemanticIndexReady, hl, hb, hr]
  · cases hr : L.state.ready
    · exact ⟨Or.inr (by simp [ensureSemanticIndexReady, hl, hb, hr]),
        Or.inr (by simp [ensureSemanticIndexReady, hl, hr])⟩
    · exact ⟨Or.inr (by simp [ensureSemanticIndexReady, hl, hb, hr]),
        Or.inl (by simp [ensureSemanticIndexReady, hr])⟩

theorem settle_sound (P : EmbeddingProvider V σ) (L : IndexLifecycle V σ) (h : L.Sound) :
    (settleBuild P L).Sound := by
  rcases h with ⟨hl, hb, hr⟩ | ⟨hl, hb⟩
  · exact Or.inl (by simp [settleBuild, hl, hb, hr])
  · refine Or.inr ?_
    cases hr : L.state.ready <;> simp [settleBuild, hl, hb, hr]

theorem runIndexEvents_sound (P : EmbeddingProvider V σ) :
    ∀ (events : List IndexEvent) (L : IndexLifecycle V σ), L.Sound →
      (runIndexEvents P events L).1.Sound ∧
      ∀ r ∈ (runIndexEvents P events L).2, r = .state ∨ r = .promise 0
  | [], L, h => ⟨h, by simp [runIndexEvents]⟩
  | .ensure :: rest, L, h => by
    have h1 := ensure_sound P L h
    have h2 := runIndexEvents_sound P rest _ h1.1
    refine ⟨h2.1, ?_⟩
    intro r hr
    simp only [runIndexEvents, List.mem_cons] at hr
    rcases hr with rfl | hr
    · exact h1.2
    · exact h2.2 r hr
  | .settle :: rest, L, h => runIndexEvents_sound P rest _ (settle_sound P L h)

theorem loadSemanticIndex_ready (P : EmbeddingProvider V σ) (state : SemanticIndexState V σ) :
    (loadSemanticIndex P state).ready = true := by
  unfold loadSemanticIndex
  cases P.endpoint
  · rfl
  · simp only [if_true]
    cases buildIndexWithEndpoint P <;> rfl

theorem ensure_of_ready (P : EmbeddingProvider V σ) (L : IndexLifecycle V σ)
    (h : L.state.ready = true) : (ensureSemanticIndexReady P L).1 = L := by
  simp [ensureSemanticIndexReady, h]

theorem settle_of_ready (P : EmbeddingProvider V σ) (L : IndexLifecycle V σ)
    (h : L.state.ready = true) : settleBuild P L = L := by
  unfold settleBuild
  cases L.loading <;> simp [h]

theorem runIndexEvents_of_ready (P : EmbeddingProvider V σ) :
    ∀ (events : List IndexEvent) (L : IndexLifecycle V σ), L.state.ready = true →
      (runIndexEvents P events L).1 = L
  | [], _, _ => rfl
  | .ensure :: rest, L, h => by
    simp only [runIndexEvents, ensure_of_ready P L h]
    exact runIndexEvents_of_ready P rest L h
  | .settle :: rest, L, h => by
    simp only [runIndexEvents, settle_of_ready P L h]
    exact runIndexEvents_of_ready P rest L h

theorem runIndexEvents_append (P : EmbeddingProvider V σ) :
    ∀ (pre post : List IndexEvent) (L : IndexLifecycle V σ),
      (runIndexEvents P (pre ++ post) L).1 =
        (runIndexEvents P post (runIndexEvents P pre L).1).1
  | [], _, _ => rfl
  | .ensure :: rest, post, L => by
    simp only [List.cons_append, runIndexEvents]
    exact runIndexEvents_append P rest post _
  | .settle :: rest, post, L => by
    simp only [List.cons_append, runIndexEvents]
    exact runIndexEvents_append P rest post _

theorem initialLifecycle_sound (P : EmbeddingProvider V σ) : (initialLifecycle P).Sound :=
  Or.inl ⟨rfl, rfl, rfl⟩

/-- C19: over every sequence of calls of `ensureSemanticIndexReady` and settlings of the build
in flight, from the state at module load: `loadSemanticIndex` is started at most once; every
caller receives the state itself or the promise of that one build; a call starts a build
exactly when the index is not ready and no build is pending, and otherwise starts none, and a
settling starts none; once the index is ready its state, entries included, never changes; and a
pending build makes the index ready when it settles. -/
theorem semantic_index_is_built_at_most_once (P : EmbeddingProvider V σ)
    (events : List IndexEvent) :
    (runIndexEvents P events (initialLifecycle P)).1.builds ≤ 1 ∧
    (∀ r ∈ (runIndexEvents P events (initialLifecycle P)).2, r = .state ∨ r = .promise 0) ∧
    (∀ L : IndexLifecycle V σ,
      ((ensureSemanticIndexReady P L).1.builds = L.builds + 1 ↔
        L.state.ready = false ∧ L.loading = none) ∧
      ((ensureSemanticIndexReady P L).1.builds = L.builds ↔
        ¬ (L.state.ready = false ∧ L.loading = none)) ∧
      (settleBuild P L).builds = L.builds) ∧
    (∀ pre post, events = pre ++ post →
      (runIndexEvents P pre (initialLifecycle P)).1.state.ready = true →
      (runIndexEvents P events (initialLifecycle P)).1.state =
        (runIndexEvents P pre (initialLifecycle P)).1.state) ∧
    (∀ L : IndexLifecycle V σ, L.state.ready = false → L.loading ≠ none →
      (settleBuild P L).state.ready = true) := by
  have hs := runIndexEvents_sound P events _ (initialLifecycle_sound P)
  refine ⟨?_, hs.2, ?_, ?_, ?_⟩
  · rcases hs.1 with ⟨_, hb, _⟩ | ⟨_, hb⟩ <;> omega
  · intro L
    cases hr : L.state.ready <;> cases hl : L.loading <;> cases he : P.endpoint <;>
      simp [ensureSemanticIndexReady, settleBuild, hr, hl, he]
  · rintro pre post rfl hready
    rw [runIndexEvents_append, runIndexEvents_of_ready P post _ hready]
  · intro L hr hl
    cases hload : L.loading with
    | none => exact absurd hload hl
    | some b => simp [settleBuild, hload, hr, loadSemanticIndex_ready]

theorem cacheGet_cons (cache : EmbeddingCache V) (key key2 : String) (v : V) :
    cacheGet ((key2, v) :: cache) key = if key2 = key then some v else cacheGet cache key := by
  by_cases h : key2 = key
  · simp [cacheGet, List.find?_cons, h]
  · have hb : (key2 == key) = false := by simpa using h
    simp [cacheGet, List.find?_cons, h, hb]

theorem embedText_hit (P : EmbeddingProvider V σ) (method : Method) (k : Nat)
    (cache : EmbeddingCache V) (text : String) (vector : V)
    (h : cacheGet cache (toLowerCase text) = some vector) :
    embedText P method k cache text = (some vector, cache) := by
  simp [embedText, h]

theorem embedText_local_miss (P : EmbeddingProvider V σ) (k : Nat)
    (cache : EmbeddingCache V) (text : String)
    (h : cacheGet cache (toLowerCase text) = none) :
    embedText P .local_ k cache text =
      (some (localSimpleEmbedding P text),
       (toLowerCase text, localSimpleEmbedding P text) :: cache) := by
  simp [embedText, h]

theorem embedText_local (P : EmbeddingProvider V σ) (k : Nat) (cache : EmbeddingCache V)
    (text : String) (h : EmbeddingCache.Local P cache) :
    (embedText P .local_ k cache text).1 = some (localSimpleEmbedding P text) ∧
    EmbeddingCache.Local P (embedText P .local_ k cache text).2 ∧
    (∀ key vector, cacheGet cache key = some vector →
      cacheGet (embedText P .local_ k cache text).2 key = some vector) ∧
    cacheGet (embedText P .local_ k cache text).2 (toLowerCase text) =
      some (localSimpleEmbedding P text) := by
  cases hc : cacheGet cache (toLowerCase text) with
  | some vector =>
    rw [embedText_hit P _ k cache text vector hc]
    obtain ⟨t, ht, rfl⟩ := h _ _ hc
    have hv : localSimpleEmbedding P t = localSimpleEmbedding P text := by
      simp only [localSimpleEmbedding, ht]
    refine ⟨by rw [hv], h, fun _ _ hk => hk, ?_⟩
    rw [← hv]; exact hc
  | none =>
    rw [embedText_local_miss P k cache text hc]
    refine ⟨rfl, ?_, ?_, ?_⟩
    · intro key vector hk
      rw [cacheGet_cons] at hk
      split at hk
      · next heq => exact ⟨text, heq, (Option.some.inj hk).symm⟩
      · exact h key vector hk
    · intro key vector hk
      show cacheGet (_ :: cache) key = some vector
      rw [cacheGet_cons]
      split
      · next heq => rw [← heq, hc] at hk; cases hk
      · exact hk
    · show cacheGet (_ :: cache) _ = _
      rw [cacheGet_cons, if_pos rfl]

theorem LocalCache.local {P : EmbeddingProvider V σ} {cache : EmbeddingCache V}
    (h : LocalCache P cache) : EmbeddingCache.Local P cache := by
  induction h with
  | empty => intro key vector hk; simp [cacheGet] at hk
  | call cache k text _ ih => exact (embedText_local P k cache text ih).2.1

/-- C28: under the local method, for every cache built by earlier calls of `embedText` and
every text, `embedText` resolves to the vector `localSimpleEmbedding` computes for the text;
a text with the same lower-cased form gets the same vector, whatever calls came before it;
every binding of the cache is still there afterwards with the same vector; and the cache left
is again one built by calls of `embedText`. -/
theorem local_embedding_cache_is_transparent (P : EmbeddingProvider V σ)
    (cache : EmbeddingCache V) (hcache : LocalCache P cache) (k : Nat) (text : String) :
    (embedText P .local_ k cache text).1 = some (localSimpleEmbedding P text) ∧
    (∀ other : String, toLowerCase other = toLowerCase text →
      ∀ j cache2, LocalCache P cache2 →
        (embedText P .local_ j cache2 other).1 = (embedText P .local_ k cache text).1) ∧
    (∀ key vector, cacheGet cache key = some vector →
      cacheGet (embedText P .local_ k cache text).2 key = some vector) ∧
    LocalCache P (embedText P .local_ k cache text).2 := by
  have h := embedText_local P k cache text hcache.local
  refine ⟨h.1, ?_, h.2.2.1, LocalCache.call cache k text hcache⟩
  intro other ho j cache2 h2
  rw [h.1, (embedText_local P j cache2 other h2.local).1]
  simp only [localSimpleEmbedding, ho]

theorem local_embedding_cache_is_transparent_witness :
    LocalCache sampleProvider (embedText sampleProvider .local_ 0 [] "Lamp").2 ∧
    (embedText sampleProvider .local_ 1 (embedText sampleProvider .local_ 0 [] "Lamp").2
      "LAMP").1 = some (localSimpleEmbedding sampleProvider "LAMP") :=
  ⟨LocalCache.call [] 0 "Lamp" LocalCache.empty,
   (local_embedding_cache_is_transparent sampleProvider _
      (LocalCache.call [] 0 "Lamp" LocalCache.empty) 1 "LAMP").1⟩

end IndexBuild

/-! ## The player: stop, fingerspelling, the recursion of the scheduler -/

section PlayerBasics

variable {F : Type}

theorem hideFingerspellPopup_idem (state : FingerspellingState) :
    hideFingerspellPopup (hideFingerspellPopup state) = hideFingerspellPopup state := by
  unfold hideFingerspellPopup
  cases h : state.popupElement <;> simp [h]

/-- C23: for every player state, `stopSentencePlayback` leaves `active = false`,
`currentIndex = 0`, `playing = false` and `raf = null`; calling it a second time gives the
same state as calling it once; and it keeps `glosses`, `loop`, `frames` and `frameIndex`. -/
theorem stopSentencePlayback_is_idempotent (s : Player F) :
    (stopSentencePlayback s).sentenceMode.active = false ∧
    (stopSentencePlayback s).sentenceMode.currentIndex = 0 ∧
    (stopSentencePlayback s).playing = false ∧
    (stopSentencePlayback s).raf = false ∧
    stopSentencePlayback (stopSentencePlayback s) = stopSentencePlayback s ∧
    (stopSentencePlayback s).sentenceMode.glosses = s.sentenceMode.glosses ∧
    (stopSentencePlayback s).sentenceMode.loop = s.sentenceMode.loop ∧
    (stopSentencePlayback s).frames = s.frames ∧
    (stopSentencePlayback s).frameIndex = s.frameIndex := by
  refine ⟨rfl, rfl, rfl, rfl, ?_, rfl, rfl, rfl, rfl⟩
  simp [stopSentencePlayback, hideFingerspellPopup_idem]

theorem fingerspellStart_none_of_no_displayable (state : FingerspellingState) (w : String)
    (h : ∀ c ∈ (toUpperCase w).data, isUpperOrDigit c = false) :
    fingerspellStart state (some w) = none := by
  have hn : fingerspellNormalized w = "" := by
    unfold fingerspellNormalized
    rw [List.filter_eq_nil_iff.mpr (fun c hc => by simp [h c hc])]
  simp [fingerspellStart, hn]

theorem afterLoad_failure_of_no_displayable (fuel : Nat) (canonicalMetaFps : Option JSNumber)
    (now : ℚ) (word : String) (s : Player F)
    (h : ∀ c ∈ (toUpperCase word).data, isUpperOrDigit c = false) :
    afterLoad fuel canonicalMetaFps now word .failure s =
      playNextWordInSentence fuel (advance s) := by
  simp [afterLoad, FINGERSPELLING_ENABLED, fingerspellStart_none_of_no_displayable _ word h,
    afterFingerspell]

/-- C24: for every word that has no character in A-Z or 0-9 after upper-casing, for the empty
word and for a value that is not a string, `fingerspell` resolves to `false` and leaves
`fingerspellingState` as it was (the overlay is not activated, `currentWord` is kept); in the
scheduler the lines after the `await` of `fingerspell` do the same for the result `false` as
for `true`, namely `currentIndex++` followed by the next call of `playNextWordInSentence`;
and after a failed clip load of such a word the scheduler makes that step at once. -/
theorem fingerspell_without_displayable_characters (displayedCount : Nat)
    (state : FingerspellingState) :
    (∀ w : String, (∀ c ∈ (toUpperCase w).data, isUpperOrDigit c = false) →
      fingerspell displayedCount state (some w) = (false, state)) ∧
    fingerspell displayedCount state (some "") = (false, state) ∧
    fingerspell displayedCount state none = (false, state) ∧
    (∀ (fuel : Nat) (s : Player F),
      afterFingerspell fuel false s = afterFingerspell fuel true s ∧
      afterFingerspell fuel false s = playNextWordInSentence fuel (advance s) ∧
      (advance s).sentenceMode.currentIndex = s.sentenceMode.currentIndex + 1) ∧
    (∀ (fuel : Nat) (canonicalMetaFps : Option JSNumber) (now : ℚ) (word : String)
        (s : Player F), (∀ c ∈ (toUpperCase word).data, isUpperOrDigit c = false) →
      afterLoad fuel canonicalMetaFps now word .failure s =
        playNextWordInSentence fuel (advance s)) := by
  refine ⟨?_, rfl, rfl, fun fuel s => ⟨rfl, rfl, rfl⟩, ?_⟩
  · intro w h
    simp [fingerspell, fingerspellStart_none_of_no_displayable state w h]
  · intro fuel canonicalMetaFps now word s h
    exact afterLoad_failure_of_no_displayable fuel canonicalMetaFps now word s h

theorem playNextWordInSentence_inactive_loop (word : String) (rest : List String) :
    ∀ (fuel : Nat) (s : Player F), s.sentenceMode.active = false →
      s.sentenceMode.loop = true → s.sentenceMode.glosses = word :: rest →
      playNextWordInSentence fuel s = none
  | 0, _, _, _, _ => rfl
  | fuel + 1, s, ha, hl, hg => by
    unfold playNextWordInSentence
    rw [if_pos (Or.inl ha), if_pos ⟨hl, by simp [hg]⟩]
    exact playNextWordInSentence_inactive_loop word rest fuel _ ha hl hg

theorem playNextWordInSentence_no_loop_end (fuel : Nat) (s : Player F)
    (h : s.sentenceMode.active = false ∨
      s.sentenceMode.currentIndex ≥ s.sentenceMode.glosses.length)
    (hl : s.sentenceMode.loop = false) :
    playNextWordInSentence (fuel + 1) s = some (stopSentencePlayback s, .returned) := by
  unfold playNextWordInSentence
  rw [if_pos h, if_neg (by simp [hl])]

theorem playNextWordInSentence_next (fuel : Nat) (s : Player F)
    (ha : s.sentenceMode.active = true)
    (hi : s.sentenceMode.currentIndex < s.sentenceMode.glosses.length) :
    playNextWordInSentence (fuel + 1) s =
      some (s, .loading (s.sentenceMode.glosses.getD s.sentenceMode.currentIndex "")) := by
  unfold playNextWordInSentence
  rw [if_neg (by simp [ha]; omega)]

theorem run_append (fuel : Nat) (canonicalMetaFps : Option JSNumber) :
    ∀ (pre post : List (Event F)) (w : World F),
      run fuel canonicalMetaFps (pre ++ post) w =
        (run fuel canonicalMetaFps pre w).bind (run fuel canonicalMetaFps post)
  | [], _, _ => rfl
  | event :: rest, post, w => by
    simp only [List.cons_append, run]
    cases step fuel canonicalMetaFps w event with
    | none => rfl
    | some w1 => exact run_append fuel canonicalMetaFps rest post w1

theorem afterSpelling_inactive_loop (fuel displayedCount : Nat) (s : Player F)
    (word : String) (rest : List String) (ha : s.sentenceMode.active = false)
    (hl : s.sentenceMode.loop = true) (hg : s.sentenceMode.glosses = word :: rest) :
    afterSpelling fuel displayedCount s = none :=
  playNextWordInSentence_inactive_loop word rest fuel _ ha hl hg

/-- C27: with `active = false`, the loop flag set and a gloss list that is not empty,
`playNextWordInSentence` does not return, whatever the bound on the depth of its recursion
(line 71 calls it again with nothing changed); this is the state a session is in when Stop
arrives while a word is being fingerspelled with looping on, and the run of those events
does not end either. With the loop flag off the call returns after `stopSentencePlayback`. -/
theorem inactive_looping_session_recurses_forever (fuel : Nat) :
    (∀ (s : Player F) (word : String) (rest : List String) (index : Nat),
      playNextWordInSentence fuel
        { s with sentenceMode :=
            { active := false, glosses := word :: rest, currentIndex := index,
              loop := true } } = none) ∧
    run fuel none
      [.start ["pc"] true, .stopSentence, .loaded 0 .failure 1, .spelled 0 2]
      (initialWorld Nat true) = none ∧
    (∀ (s : Player F) (glosses : List String) (index : Nat),
      playNextWordInSentence (fuel + 1)
        { s with sentenceMode :=
            { active := false, glosses := glosses, currentIndex := index,
              loop := false } } =
        some (stopSentencePlayback
          { s with sentenceMode :=
              { active := false, glosses := glosses, currentIndex := index,
                loop := false } }, .returned)) := by
  refine ⟨fun s word rest index =>
    playNextWordInSentence_inactive_loop word rest fuel _ rfl rfl rfl, ?_,
    fun s glosses index => playNextWordInSentence_no_loop_end fuel _ (Or.inl rfl) rfl⟩
  cases fuel with
  | zero => rfl
  | succ n =>
    have h3 : run (n + 1) none
        [.start ["pc"] true, .stopSentence, .loaded 0 .failure 1] (initialWorld Nat true) =
        some stoppedWhileSpelling := rfl
    have h4 : run (n + 1) none [.spelled 0 2] stoppedWhileSpelling = none := by
      have h := afterSpelling_inactive_loop (n + 1) 2 stoppedWhileSpelling.player "pc" []
        rfl rfl rfl
      have hs : step (n + 1) none stoppedWhileSpelling (.spelled 0 2) =
          (afterSpelling (n + 1) 2 stoppedWhileSpelling.player).map
            (stoppedWhileSpelling.resume 0) := rfl
      simp only [run, hs, h, Option.map_none']
    exact (run_append (n + 1) none
      [.start ["pc"] true, .stopSentence, .loaded 0 .failure 1] [.spelled 0 2] _).trans
      (by rw [h3]; exact h4)

end PlayerBasics

/-! ## Rounding to a double -/

section Doubles

theorem roundHalfEven_bounds (q : ℚ) : ⌊q⌋ ≤ roundHalfEven q ∧ roundHalfEven q ≤ ⌊q⌋ + 1 := by
  unfold roundHalfEven
  split_ifs <;> constructor <;> omega

theorem roundHalfEven_intCast (n : Int) : roundHalfEven (n : ℚ) = n := by
  unfold roundHalfEven
  simp

theorem le_roundHalfEven (q : ℚ) (n : Int) (h : (n : ℚ) ≤ q) : n ≤ roundHalfEven q :=
  le_trans (Int.le_floor.mpr h) (roundHalfEven_bounds q).1

theorem roundHalfEven_le (q : ℚ) (n : Int) (h : q ≤ (n : ℚ)) : roundHalfEven q ≤ n := by
  have hf : ⌊q⌋ ≤ n := Int.floor_le_floor h |>.trans (by simp)
  rcases lt_or_eq_of_le hf with hlt | heq
  · exact le_trans (roundHalfEven_bounds q).2 (by omega)
  · have hq : q = (n : ℚ) := le_antisymm h (by rw [← heq]; exact Int.floor_le q)
    rw [hq, roundHalfEven_intCast]

theorem roundHalfEven_mono (a b : ℚ) (h : a ≤ b) : roundHalfEven a ≤ roundHalfEven b := by
  have hf : ⌊a⌋ ≤ ⌊b⌋ := Int.floor_le_floor h
  rcases lt_or_eq_of_le hf with hlt | heq
  · exact le_trans (roundHalfEven_bounds a).2 (le_trans (by omega) (roundHalfEven_bounds b).1)
  · have hfr : a - ⌊a⌋ ≤ b - ⌊b⌋ := by rw [heq]; linarith
    unfold roundHalfEven
    rw [heq]
    rw [heq] at hfr
    split_ifs <;> first | omega | (exfalso; linarith)

theorem two_zpow_pos (e : Int) : (0 : ℚ) < 2 ^ e := zpow_pos (by norm_num) e

theorem log_spec (x : ℚ) (hx : 0 < x) :
    (2 : ℚ) ^ Int.log 2 x ≤ x ∧ x < (2 : ℚ) ^ (Int.log 2 x + 1) := by
  have h1 := Int.zpow_log_le_self (b := 2) (by norm_num) hx
  have h2 := Int.lt_zpow_succ_log_self (b := 2) (by norm_num) x
  exact ⟨by simpa using h1, by simpa using h2⟩

theorem log_unique (x : ℚ) (e : Int) (h1 : (2 : ℚ) ^ e ≤ x) (h2 : x < (2 : ℚ) ^ (e + 1)) :
    Int.log 2 x = e := by
  have hx : 0 < x := lt_of_lt_of_le (two_zpow_pos e) h1
  have ha : e ≤ Int.log 2 x :=
    (Int.zpow_le_iff_le_log (b := 2) (by norm_num) hx).mp (by simpa using h1)
  have hb : Int.log 2 x < e + 1 :=
    (Int.lt_zpow_iff_log_lt (b := 2) (by norm_num) hx).mp (by simpa using h2)
  omega

theorem roundPositive_bounds (x : ℚ) (hx : 0 < x) :
    (2 : ℚ) ^ Int.log 2 x ≤ roundPositive x ∧
      roundPositive x ≤ (2 : ℚ) ^ (Int.log 2 x + 1) := by
  obtain ⟨h1, h2⟩ := log_spec x hx
  have hu := two_zpow_pos (Int.log 2 x - 52)
  have e1 : (2 : ℚ) ^ Int.log 2 x = ((2 ^ 52 : Int) : ℚ) * 2 ^ (Int.log 2 x - 52) := by
    rw [zpow_sub₀ (by norm_num)]
    push_cast
    field_simp
    ring
  have e2 : (2 : ℚ) ^ (Int.log 2 x + 1) = ((2 ^ 53 : Int) : ℚ) * 2 ^ (Int.log 2 x - 52) := by
    rw [zpow_sub₀ (by norm_num), zpow_add₀ (by norm_num)]
    push_cast
    field_simp
    ring
  unfold roundPositive
  constructor
  · rw [e1]
    apply mul_le_mul_of_nonneg_right _ hu.le
    exact Int.cast_le.mpr (le_roundHalfEven _ (2 ^ 52) (by rw [le_div_iff₀ hu, ← e1]; exact h1))
  · rw [e2]
    apply mul_le_mul_of_nonneg_right _ hu.le
    exact Int.cast_le.mpr
      (roundHalfEven_le _ (2 ^ 53) (by rw [div_le_iff₀ hu, ← e2]; exact h2.le))

theorem roundPositive_mono (x y : ℚ) (hx : 0 < x) (h : x ≤ y) :
    roundPositive x ≤ roundPositive y := by
  have hy : 0 < y := lt_of_lt_of_le hx h
  have hlog : Int.log 2 x ≤ Int.log 2 y := Int.log_mono_right hx h
  rcases lt_or_eq_of_le hlog with hlt | heq
  · refine le_trans (roundPositive_bounds x hx).2 (le_trans ?_ (roundPositive_bounds y hy).1)
    exact zpow_le_zpow_right₀ (by norm_num) (by omega)
  · unfold roundPositive
    rw [heq]
    have hu := two_zpow_pos (Int.log 2 y - 52)
    apply mul_le_mul_of_nonneg_right _ hu.le
    exact Int.cast_le.mpr (roundHalfEven_mono _ _ (div_le_div_of_nonneg_right h hu.le))

theorem toDouble_of_pos (x : ℚ) (hx : 0 < x) : toDouble x = roundPositive x := by
  unfold toDouble
  rw [if_neg hx.ne', if_pos hx]

theorem toDouble_mono (x y : ℚ) (hx : 0 < x) (h : x ≤ y) : toDouble x ≤ toDouble y := by
  rw [toDouble_of_pos x hx, toDouble_of_pos y (lt_of_lt_of_le hx h)]
  exact roundPositive_mono x y hx h

theorem toDouble_pos (x : ℚ) (hx : 0 < x) : 0 < toDouble x := by
  rw [toDouble_of_pos x hx]
  exact lt_of_lt_of_le (two_zpow_pos _) (roundPositive_bounds x hx).1

theorem toDouble_eval (x : ℚ) (e m : Int) (h1 : (2 : ℚ) ^ e ≤ x) (h2 : x < (2 : ℚ) ^ (e + 1))
    (hm : roundHalfEven (x / 2 ^ (e - 52)) = m) : toDouble x = m * 2 ^ (e - 52) := by
  have hx : 0 < x := lt_of_lt_of_le (two_zpow_pos e) h1
  rw [toDouble_of_pos x hx]
  unfold roundPositive
  rw [log_unique x e h1 h2, hm]

theorem toDouble_two_zpow (e : Int) : toDouble ((2 : ℚ) ^ e) = 2 ^ e := by
  have hm : roundHalfEven ((2 : ℚ) ^ e / 2 ^ (e - 52)) = 2 ^ 52 := by
    have : (2 : ℚ) ^ e / 2 ^ (e - 52) = ((2 ^ 52 : Int) : ℚ) := by
      rw [zpow_sub₀ (by norm_num)]
      push_cast
      field_simp
      norm_num
    rw [this, roundHalfEven_intCast]
  rw [toDouble_eval _ e (2 ^ 52) le_rfl
    (zpow_lt_zpow_right₀ (by norm_num) (by omega)) hm]
  rw [zpow_sub₀ (by norm_num)]
  push_cast
  field_simp
  ring

theorem toDouble_two_pow (k : Nat) : toDouble ((2 : ℚ) ^ k) = 2 ^ k := by
  have := toDouble_two_zpow (k : Int)
  rwa [zpow_natCast] at this

theorem roundHalfEven_near (q : ℚ) (m : Int) (h1 : (m : ℚ) - 1 / 2 < q)
    (h2 : q < (m : ℚ) + 1 / 2) : roundHalfEven q = m := by
  have hlo : m - 1 ≤ ⌊q⌋ := Int.le_floor.mpr (by push_cast; linarith)
  have hhi : ⌊q⌋ ≤ m := by
    have : ⌊q⌋ < m + 1 := Int.floor_lt.mpr (by push_cast; linarith)
    omega
  have hfl := Int.floor_le q
  have hlt := Int.lt_floor_add_one q
  unfold roundHalfEven
  rcases eq_or_lt_of_le hhi with heq | hlt2
  · rw [if_pos (by rw [heq]; linarith), heq]
  · have hf : ⌊q⌋ = m - 1 := by omega
    rw [if_neg (by rw [hf]; push_cast; linarith), if_pos (by rw [hf]; push_cast; linarith), hf]
    omega

theorem roundHalfEven_tie_even (m : Int) (hm : m % 2 = 0) :
    roundHalfEven ((m : ℚ) + 1 / 2) = m := by
  have hf : ⌊(m : ℚ) + 1 / 2⌋ = m := by
    rw [Int.floor_eq_iff]
    constructor <;> linarith
  unfold roundHalfEven
  rw [hf, if_neg (by norm_num), if_neg (by norm_num), if_pos hm]

theorem roundHalfEven_tie_odd (m : Int) (hm : m % 2 = 1) :
    roundHalfEven ((m : ℚ) + 1 / 2) = m + 1 := by
  have hf : ⌊(m : ℚ) + 1 / 2⌋ = m := by
    rw [Int.floor_eq_iff]
    constructor <;> linarith
  unfold roundHalfEven
  rw [hf, if_neg (by norm_num), if_neg (by norm_num), if_neg (by omega)]

theorem toDouble_zero : toDouble 0 = 0 := by
  simp [toDouble]

theorem toDouble_thousand : toDouble 1000 = 1000 := by
  rw [toDouble_eval 1000 9 8796093022208000 (by norm_num) (by norm_num)
    (by
      have : (1000 : ℚ) / 2 ^ ((9 : Int) - 52) = ((8796093022208000 : Int) : ℚ) := by
        norm_num
      rw [this, roundHalfEven_intCast])]
  norm_num

/-- The double `1000 / 24`. -/
theorem double_ms24 : toDouble (1000 / 24) = 5864062014805333 / 140737488355328 := by
  rw [toDouble_eval (1000 / 24) 5 5864062014805333 (by norm_num) (by norm_num)
    (roundHalfEven_near _ _ (by norm_num) (by norm_num))]
  norm_num

/-- The double `7 * (1000 / 24)`. -/
theorem double_offset24 :
    toDouble (7 * (5864062014805333 / 140737488355328)) =
      2565527131477333 / 8796093022208 := by
  rw [toDouble_eval _ 8 5131054262954666 (by norm_num) (by norm_num)
    (roundHalfEven_near _ _ (by norm_num) (by norm_num))]
  norm_num

/-- The double `1000 - 7 * (1000 / 24)`, which is 708.3333333333334. -/
theorem double_start24 :
    toDouble (1000 - 2565527131477333 / 8796093022208) =
      6230565890730667 / 8796093022208 := by
  rw [toDouble_eval _ 9 6230565890730667 (by norm_num) (by norm_num)
    (roundHalfEven_near _ _ (by norm_num) (by norm_num))]
  norm_num

/-- The double `1000 - 708.3333333333334`. -/
theorem double_elapsed24 :
    toDouble (1000 - 6230565890730667 / 8796093022208) =
      2565527131477333 / 8796093022208 := by
  rw [toDouble_eval _ 8 5131054262954666 (by norm_num) (by norm_num)
    (roundHalfEven_near _ _ (by norm_num) (by norm_num))]
  norm_num

/-- The double quotient of the elapsed time by the frame duration, 6.999999999999999. -/
theorem double_quotient24 :
    toDouble (2565527131477333 / 8796093022208 / (5864062014805333 / 140737488355328)) =
      7881299347898367 / 1125899906842624 := by
  rw [toDouble_eval _ 2 7881299347898367 (by norm_num) (by norm_num)
    (roundHalfEven_near _ _ (by norm_num) (by norm_num))]
  norm_num

/-- The double `1000 / 30`. -/
theorem double_ms30 : toDouble (1000 / 30) = 4691249611844267 / 140737488355328 := by
  rw [toDouble_eval (1000 / 30) 5 4691249611844267 (by norm_num) (by norm_num)
    (roundHalfEven_near _ _ (by norm_num) (by norm_num))]
  norm_num

/-- The double `3 * (1000 / 30)` is 100: the product lies half way between two doubles. -/
theorem double_offset30 : toDouble (3 * (4691249611844267 / 140737488355328)) = 100 := by
  rw [toDouble_eval _ 6 7036874417766400 (by norm_num) (by norm_num)
    (by
      have : (3 : ℚ) * (4691249611844267 / 140737488355328) / 2 ^ ((6 : Int) - 52) =
          ((7036874417766400 : Int) : ℚ) + 1 / 2 := by
        norm_num
      rw [this, roundHalfEven_tie_even _ (by decide)])]
  norm_num

end Doubles

/-! ## The player: clock, frame rate, branches of the scheduler -/

section PlayerClock

variable {F : Type}

theorem clampRate_range (x : JSNumber) : 1 ≤ clampRate x ∧ clampRate x ≤ 120 := by
  unfold clampRate
  cases orThirty x with
  | nan => norm_num
  | infinity => norm_num
  | negInfinity => norm_num
  | finite q => exact ⟨le_max_left _ _, max_le (by norm_num) (min_le_left _ _)⟩

theorem clampRate_of_range (q : ℚ) (h1 : 1 ≤ q) (h2 : q ≤ 120) : clampRate (.finite q) = q := by
  have h0 : q ≠ 0 := by linarith
  simp [clampRate, orThirty, h0, h1, h2]

theorem normalizeJson_range (canonicalMetaFps : Option JSNumber) (fps : ℚ) (json : ClipJson F) :
    1 ≤ (normalizeJson canonicalMetaFps fps json).localFps ∧
      (normalizeJson canonicalMetaFps fps json).localFps ≤ 120 := by
  cases json <;> exact clampRate_range _

theorem play_eq (s : Player F) (T : ℚ) (hframes : frameCount s ≠ 0) :
    play T s =
      { s with
        playing := true,
        startTime :=
          if s.pausedAt > 0 then
            toDouble (T - toDouble (s.pausedAt * toDouble (1000 / s.fps)))
          else T,
        raf := true } := by
  unfold play
  rw [if_neg hframes]

theorem tick_frameIndex (s : Player F) (t : ℚ) (hp : s.playing = true)
    (hframes : frameCount s ≠ 0) (hs : s.startTime ≠ 0) :
    (tick t s).frameIndex =
      ⌊toDouble (toDouble (t - s.startTime) / toDouble (1000 / s.fps))⌋ := by
  unfold tick
  rw [if_neg (by simp [hp, hframes])]
  simp only [if_neg hs]
  split <;> rfl

theorem tick_at_origin (s : Player F) (t : ℚ) (hp : s.playing = true)
    (hframes : frameCount s ≠ 0) (hs : s.startTime = 0) :
    (tick t s).frameIndex = 0 := by
  unfold tick
  rw [if_neg (by simp [hp, hframes])]
  simp only [if_pos hs, sub_self, toDouble_zero, zero_div, Int.floor_zero]
  split <;> rfl

theorem tick_eq (s : Player F) (t : ℚ) (hp : s.playing = true) (hframes : frameCount s ≠ 0) :
    tick t s =
      if ⌊toDouble (toDouble (t - (if s.startTime = 0 then t else s.startTime)) /
          toDouble (1000 / s.fps))⌋ ≥ (frameCount s : Int) then
        pause { s with
          startTime := if s.startTime = 0 then t else s.startTime,
          frameIndex := ⌊toDouble (toDouble (t - (if s.startTime = 0 then t else s.startTime)) /
            toDouble (1000 / s.fps))⌋ }
      else
        { s with
          startTime := if s.startTime = 0 then t else s.startTime,
          frameIndex := ⌊toDouble (toDouble (t - (if s.startTime = 0 then t else s.startTime)) /
            toDouble (1000 / s.fps))⌋,
          raf := true } := by
  unfold tick
  rw [if_neg (by simp [hp, hframes])]

theorem tick_forgets_frameIndex (s : Player F) (t : ℚ) (i : Int) (hp : s.playing = true)
    (hframes : frameCount s ≠ 0) : tick t { s with frameIndex := i } = tick t s := by
  rw [tick_eq { s with frameIndex := i } t hp hframes, tick_eq s t hp hframes]
  rfl

theorem resume_at_frame_seven_of_24 (s : Player F) (hfps : s.fps = 24) (hk : s.pausedAt = 7)
    (hframes : frameCount s ≠ 0) :
    (play 1000 s).startTime = 6230565890730667 / 8796093022208 ∧
      (tick 1000 (play 1000 s)).frameIndex = 6 := by
  have hstart : (play 1000 s).startTime = 6230565890730667 / 8796093022208 := by
    rw [play_eq s 1000 hframes]
    show (if s.pausedAt > 0 then
        toDouble (1000 - toDouble (s.pausedAt * toDouble (1000 / s.fps))) else 1000) = _
    rw [hk, hfps, if_pos (by norm_num), double_ms24]
    have h7 : ((7 : Int) : ℚ) = 7 := by norm_num
    rw [h7, double_offset24, double_start24]
  refine ⟨hstart, ?_⟩
  have hfps2 : (play 1000 s).fps = 24 := by rw [play_eq s 1000 hframes]; exact hfps
  rw [tick_frameIndex (play 1000 s) 1000 (by rw [play_eq s 1000 hframes])
    (by rw [play_eq s 1000 hframes]; exact hframes) (by rw [hstart]; norm_num)]
  rw [hstart, hfps2, double_ms24, double_elapsed24, double_quotient24]
  rw [Int.floor_eq_iff]
  constructor <;> norm_num

theorem resume_at_frame_three_of_30 (s : Player F) (hfps : s.fps = 30) (hk : s.pausedAt = 3)
    (hframes : frameCount s ≠ 0) :
    (play 100 s).startTime = 0 ∧ (tick 100 (play 100 s)).frameIndex = 0 := by
  have hstart : (play 100 s).startTime = 0 := by
    rw [play_eq s 100 hframes]
    show (if s.pausedAt > 0 then
        toDouble (100 - toDouble (s.pausedAt * toDouble (1000 / s.fps))) else 100) = _
    rw [hk, hfps, if_pos (by norm_num), double_ms30]
    have h3 : ((3 : Int) : ℚ) = 3 := by norm_num
    rw [h3, double_offset30, sub_self, toDouble_zero]
  exact ⟨hstart, tick_at_origin (play 100 s) 100 (by rw [play_eq s 100 hframes])
    (by rw [play_eq s 100 hframes]; exact hframes) hstart⟩

/-- C25: a clip at 24 frames a second is paused at frame 7, which `pause` remembers, and
resumed when the clock reads 1000: in double arithmetic `play` sets `startTime` to
708.3333333333334, the elapsed time at a tick at 1000 is 291.66666666666663, its quotient by
the frame duration is 6.999999999999999, and `tick` shows frame 6, not 7. And a clip at 30
frames a second paused at frame 3 and resumed when the clock reads 100 gets `startTime = 0`,
which `tick` takes for a clock that was never started: it shows frame 0. -/
theorem resume_lands_before_the_remembered_frame :
    (pause clipAt24).pausedAt = 7 ∧ (pause clipAt24).playing = false ∧
    (play 1000 (pause clipAt24)).startTime = 6230565890730667 / 8796093022208 ∧
    (tick 1000 (play 1000 (pause clipAt24))).frameIndex = 6 ∧
    (pause samplePlayer).pausedAt = 3 ∧
    (play 100 (pause samplePlayer)).startTime = 0 ∧
    (tick 100 (play 100 (pause samplePlayer))).frameIndex = 0 :=
  ⟨rfl, rfl,
   (resume_at_frame_seven_of_24 (pause clipAt24) rfl rfl (by decide)).1,
   (resume_at_frame_seven_of_24 (pause clipAt24) rfl rfl (by decide)).2,
   rfl,
   (resume_at_frame_three_of_30 (pause samplePlayer) rfl rfl (by decide)).1,
   (resume_at_frame_three_of_30 (pause samplePlayer) rfl rfl (by decide)).2⟩

theorem stepOnce_eq (s : Player F) (hframes : frameCount s ≠ 0) :
    stepOnce s =
      { pause s with frameIndex := min (s.frameIndex + 1) ((frameCount s : Int) - 1) } := by
  unfold stepOnce
  rw [if_neg hframes]

theorem play_stepOnce (s : Player F) (T : ℚ) (hframes : frameCount s ≠ 0) :
    play T (stepOnce s) =
      { play T (pause s) with
        frameIndex := min (s.frameIndex + 1) ((frameCount s : Int) - 1) } := by
  have h1 : frameCount ({ pause s with
      frameIndex := min (s.frameIndex + 1) ((frameCount s : Int) - 1) } : Player F) ≠ 0 :=
    hframes
  have h2 : frameCount (pause s) ≠ 0 := hframes
  rw [stepOnce_eq s hframes]
  unfold play
  rw [if_neg h1, if_neg h2]

/-- C26, the inputs that refute it: at frame 7 of a clip of ten frames at 24 frames a second,
`stepOnce` shows frame 8 but remembers frame 7, and a resume when the clock reads 1000 shows
frame 6, not the stepped-to frame 8; at the last frame, 9, `stepOnce` does not advance. -/
theorem step_is_clamped_and_resume_goes_back :
    (stepOnce clipAt24).frameIndex = 8 ∧ (stepOnce clipAt24).pausedAt = 7 ∧
    (tick 1000 (play 1000 (stepOnce clipAt24))).frameIndex = 6 ∧
    (stepOnce { clipAt24 with frameIndex := 9 }).frameIndex = 9 :=
  ⟨by decide, rfl,
   (resume_at_frame_seven_of_24 (stepOnce clipAt24) rfl rfl (by decide)).2, by decide⟩

/-- C26, amended: for a loaded clip, `stepOnce` leaves playback paused (`playing = false`,
`raf = null`), remembers the frame it was called at (`pausedAt` is the old `frameIndex`) and
sets `frameIndex` to the smaller of the old value plus one and the last frame, so it advances
by exactly one frame when it is not called at or after the last frame; a following resume
sets the same `startTime` and every later tick gives the same state as after a `pause` at the
frame before the step, the stepped-to frame plays no part; `stop` resets `frameIndex` and
`pausedAt` to 0; with no clip loaded `stepOnce` does nothing. -/
theorem stepOnce_steps_within_the_clip (s : Player F) (hframes : frameCount s ≠ 0) :
    (stepOnce s).playing = false ∧ (stepOnce s).raf = false ∧
    (stepOnce s).pausedAt = s.frameIndex ∧
    (stepOnce s).frameIndex = min (s.frameIndex + 1) ((frameCount s : Int) - 1) ∧
    (s.frameIndex + 1 < frameCount s → (stepOnce s).frameIndex = s.frameIndex + 1) ∧
    (∀ T t : ℚ, (play T (stepOnce s)).startTime = (play T (pause s)).startTime ∧
      tick t (play T (stepOnce s)) = tick t (play T (pause s))) ∧
    (stop s).frameIndex = 0 ∧ (stop s).pausedAt = 0 ∧
    (∀ idle : Player F, frameCount idle = 0 → stepOnce idle = idle) := by
  have hstep := stepOnce_eq s hframes
  refine ⟨by rw [hstep]; rfl, by rw [hstep]; rfl, by rw [hstep]; rfl, by rw [hstep], ?_, ?_,
    rfl, rfl, ?_⟩
  · intro hlt
    rw [hstep]
    show min (s.frameIndex + 1) ((frameCount s : Int) - 1) = s.frameIndex + 1
    exact min_eq_left (by omega)
  · intro T t
    rw [play_stepOnce s T hframes]
    exact ⟨rfl, tick_forgets_frameIndex (play T (pause s)) t _
      (by rw [play_eq (pause s) T hframes])
      (by rw [play_eq (pause s) T hframes]; exact hframes)⟩
  · intro idle hidle
    unfold stepOnce
    rw [if_pos hidle]

theorem stepOnce_steps_within_the_clip_witness :
    frameCount clipAt24 ≠ 0 ∧
    (stepOnce clipAt24).frameIndex = clipAt24.frameIndex + 1 ∧
    tick 1000 (play 1000 (stepOnce clipAt24)) = tick 1000 (play 1000 (pause clipAt24)) :=
  have h := stepOnce_steps_within_the_clip clipAt24 (by decide)
  ⟨by decide, h.2.2.2.2.1 (by decide), (h.2.2.2.2.2.1 1000 1000).2⟩

end PlayerClock

section PlayerRate

variable {F : Type}

theorem playNextWordInSentence_fps :
    ∀ (fuel : Nat) (s : Player F) (r : Player F × Chain),
      playNextWordInSentence fuel s = some r → r.1.fps = s.fps
  | 0, _, _, h => by cases h
  | fuel + 1, s, r, h => by
    unfold playNextWordInSentence at h
    split at h
    · split at h
      · have := playNextWordInSentence_fps fuel _ r h
        exact this
      · cases h; rfl
    · cases h; rfl

theorem afterWait_fps (fuel : Nat) (s : Player F) (r : Player F × Chain)
    (h : afterWait fuel s = some r) : r.1.fps = s.fps := by
  unfold afterWait at h
  split at h
  · have := playNextWordInSentence_fps fuel _ r h
    exact this
  · cases h; rfl

theorem checkComplete_fps (fuel totalFrames : Nat) (s : Player F) (r : Player F × Chain)
    (h : checkComplete fuel totalFrames s = some r) : r.1.fps = s.fps := by
  unfold checkComplete at h
  split at h
  · exact afterWait_fps fuel s r h
  · cases h; rfl

theorem afterLoad_fps (fuel : Nat) (canonicalMetaFps : Option JSNumber) (now : ℚ)
    (word : String) (result : LoadResult F) (s : Player F) (r : Player F × Chain)
    (h : afterLoad fuel canonicalMetaFps now word result s = some r) (hs : FpsInRange s) :
    FpsInRange r.1 := by
  unfold afterLoad at h
  split at h
  · next json =>
    split at h
    · have := checkComplete_fps _ _ _ r h
      unfold FpsInRange
      rw [this]
      exact normalizeJson_range canonicalMetaFps s.fps json
    · have := playNextWordInSentence_fps fuel _ r h
      unfold FpsInRange
      rw [this]
      exact hs
  · split at h
    · split at h
      · cases h; exact hs
      · have := playNextWordInSentence_fps fuel _ r h
        unfold FpsInRange
        rw [this]
        exact hs
    · have := playNextWordInSentence_fps fuel _ r h
      unfold FpsInRange
      rw [this]
      exact hs

theorem afterSpelling_fps (fuel displayedCount : Nat) (s : Player F) (r : Player F × Chain)
    (h : afterSpelling fuel displayedCount s = some r) : r.1.fps = s.fps := by
  have := playNextWordInSentence_fps fuel _ r h
  exact this

theorem tick_fps (t : ℚ) (s : Player F) : (tick t s).fps = s.fps := by
  simp only [tick]
  split_ifs <;> rfl

theorem play_fps (now : ℚ) (s : Player F) : (play now s).fps = s.fps := by
  unfold play
  split <;> rfl

theorem stepOnce_fps (s : Player F) : (stepOnce s).fps = s.fps := by
  unfold stepOnce
  split <;> rfl

theorem loadWordStart_fps (s : Player F) : (loadWordStart s).fps = s.fps := by
  unfold loadWordStart
  split <;> rfl

theorem loadWordFinish_fps (canonicalMetaFps : Option JSNumber) (now : ℚ)
    (result : LoadResult F) (s : Player F) (hs : FpsInRange s) :
    FpsInRange (loadWordFinish canonicalMetaFps now result s) := by
  unfold loadWordFinish
  split
  · next json =>
    split
    · unfold FpsInRange
      rw [play_fps]
      exact normalizeJson_range canonicalMetaFps s.fps json
    · exact hs
  · exact hs

theorem step_fps (fuel : Nat) (canonicalMetaFps : Option JSNumber) (w w1 : World F)
    (event : Event F) (h : step fuel canonicalMetaFps w event = some w1)
    (hs : FpsInRange w.player) : FpsInRange w1.player := by
  cases event with
  | loaded i result now =>
    simp only [step] at h
    split at h
    · next word _ =>
      obtain ⟨r, hr, rfl⟩ := Option.map_eq_some'.mp h
      exact afterLoad_fps fuel canonicalMetaFps now word result _ r hr hs
    · cases h; exact hs
  | frame i =>
    simp only [step] at h
    split at h
    · obtain ⟨r, hr, rfl⟩ := Option.map_eq_some'.mp h
      have := checkComplete_fps _ _ _ r hr
      unfold FpsInRange
      show 1 ≤ r.1.fps ∧ r.1.fps ≤ 120
      rw [this]; exact hs
    · cases h; exact hs
  | spelled i displayedCount =>
    simp only [step] at h
    split at h
    · obtain ⟨r, hr, rfl⟩ := Option.map_eq_some'.mp h
      have := afterSpelling_fps _ _ _ r hr
      show 1 ≤ r.1.fps ∧ r.1.fps ≤ 120
      rw [this]; exact hs
    · cases h; exact hs
  | tick t =>
    cases h
    show 1 ≤ (tick t w.player).fps ∧ (tick t w.player).fps ≤ 120
    rw [tick_fps]; exact hs
  | start glosses loop =>
    simp only [step, startSentencePlayback] at h
    split at h
    · cases h; exact hs
    · obtain ⟨r, hr, rfl⟩ := Option.map_eq_some'.mp h
      have := playNextWordInSentence_fps _ _ r hr
      show 1 ≤ r.1.fps ∧ r.1.fps ≤ 120
      rw [this]; exact hs
  | stopSentence => cases h; exact hs
  | loadWord =>
    cases h
    show 1 ≤ (loadWordStart w.player).fps ∧ (loadWordStart w.player).fps ≤ 120
    rw [loadWordStart_fps]; exact hs
  | wordLoaded result now =>
    cases h
    exact loadWordFinish_fps canonicalMetaFps now result _ hs
  | play now =>
    cases h
    show 1 ≤ (play now w.player).fps ∧ (play now w.player).fps ≤ 120
    rw [play_fps]; exact hs
  | pause => cases h; exact hs
  | stop => cases h; exact hs
  | stepOnce =>
    cases h
    show 1 ≤ (stepOnce w.player).fps ∧ (stepOnce w.player).fps ≤ 120
    rw [stepOnce_fps]; exact hs

theorem run_fps (fuel : Nat) (canonicalMetaFps : Option JSNumber) :
    ∀ (events : List (Event F)) (w w1 : World F),
      run fuel canonicalMetaFps events w = some w1 → FpsInRange w.player →
      FpsInRange w1.player
  | [], w, w1, h, hs => by cases h; exact hs
  | event :: rest, w, w1, h, hs => by
    simp only [run] at h
    split at h
    · next w2 hstep =>
      exact run_fps fuel canonicalMetaFps rest w2 w1 h
        (step_fps fuel canonicalMetaFps w w2 event hstep hs)
    · cases h

/-- C30, the input that refutes it: after a clip at 60 frames a second, a clip JSON that
declares no rate gets the rate 60, the current value of `fps`, and not 30. -/
theorem undeclared_rate_keeps_the_current_rate :
    (normalizeJson none 60 shortClip).localFps = 60 := by
  norm_num [normalizeJson, shortClip, clampRate, orThirty]

/-- C30, amended: for every clip JSON and every current value of `fps`, `normalizeJson`
returns a rate in [1, 120]; a declared rate of zero or `NaN` gives 30; when no rate is
declared (an object without numeric `fps` and `frame_rate`, an array without
`__canonicalMeta`, or anything else) it is the current `fps`, clamped, which is the current
`fps` itself when that is in [1, 120]; and in every state that the events of the player
lead to from the state at page load, `fps` is in [1, 120], so `1000 / fps` divides by a
number that is not zero. -/
theorem normalizeJson_rate_in_range (canonicalMetaFps : Option JSNumber) (fps : ℚ)
    (json : ClipJson F) :
    (1 ≤ (normalizeJson canonicalMetaFps fps json).localFps ∧
      (normalizeJson canonicalMetaFps fps json).localFps ≤ 120) ∧
    (∀ (frames sequence : Option (List F)) (declared : Option JSNumber),
      (normalizeJson canonicalMetaFps fps
        (.object frames sequence declared (some (.finite 0)))).localFps = 30 ∧
      (normalizeJson canonicalMetaFps fps
        (.object frames sequence declared (some .nan))).localFps = 30 ∧
      (normalizeJson canonicalMetaFps fps
        (.object frames sequence (some (.finite 0)) none)).localFps = 30 ∧
      (normalizeJson canonicalMetaFps fps
        (.object frames sequence (some .nan) none)).localFps = 30) ∧
    (∀ (frames sequence : Option (List F)) (items : List F), 1 ≤ fps → fps ≤ 120 →
      (normalizeJson canonicalMetaFps fps
        (.object frames sequence none none)).localFps = fps ∧
      (normalizeJson none fps (.array items)).localFps = fps ∧
      (normalizeJson canonicalMetaFps fps (.other : ClipJson F)).localFps = fps) ∧
    (∀ (fuel : Nat) (popupElement : Bool) (events : List (Event F)) (w : World F),
      run fuel canonicalMetaFps events (initialWorld F popupElement) = some w →
      1 ≤ w.player.fps ∧ w.player.fps ≤ 120 ∧ w.player.fps ≠ 0) := by
  refine ⟨normalizeJson_range canonicalMetaFps fps json, ?_, ?_, ?_⟩
  · intro frames sequence declared
    refine ⟨?_, ?_, ?_, ?_⟩ <;> norm_num [normalizeJson, clampRate, orThirty]
  · intro frames sequence items h1 h2
    exact ⟨clampRate_of_range fps h1 h2, clampRate_of_range fps h1 h2,
      clampRate_of_range fps h1 h2⟩
  · intro fuel popupElement events w h
    have hr := run_fps fuel canonicalMetaFps events _ w h
      (by unfold FpsInRange initialWorld initialPlayer; norm_num)
    exact ⟨hr.1, hr.2, by linarith [hr.1]⟩

end PlayerRate

section PlayerBranches

variable {F : Type}

/-- C21, the input that refutes it: in a session over `hat`, `lamp`, when the clip of `hat`
loads with an empty frame list the scheduler goes on to request the clip of `lamp` with
`currentIndex = 1` and the overlay untouched, while a failed load of the same clip starts the
fingerspelling of `hat` and keeps `currentIndex = 0`. -/
theorem empty_clip_is_not_fingerspelled :
    (afterLoad 1 none 5 "hat" (.success emptyClip) sampleSession).map
        (fun r => (r.2, r.1.sentenceMode.currentIndex, r.1.fingerspellingState)) =
      some (.loading "lamp", 1, { active := false, currentWord := "", popupElement := true }) ∧
    (afterLoad 1 none 5 "hat" .failure sampleSession).map
        (fun r => (r.2, r.1.sentenceMode.currentIndex, r.1.fingerspellingState)) =
      some (.spelling "hat", 0,
        { active := true, currentWord := "HAT", popupElement := true }) := by
  decide

/-- C21, amended: with fingerspelling enabled, a gloss whose clip loads with an empty or
missing frame list is skipped: `currentIndex` is incremented at once and the next call of
`playNextWordInSentence` follows, with no fingerspelling; only a gloss whose clip load fails
is handed to `fingerspell`, and when that call has activated the overlay the scheduler is
suspended with `currentIndex` unchanged until the call resolves, and then increments
`currentIndex` and goes on. -/
theorem empty_clip_is_skipped_failed_load_is_fingerspelled (fuel : Nat)
    (canonicalMetaFps : Option JSNumber) (now : ℚ) (word : String) (s : Player F) :
    FINGERSPELLING_ENABLED = true ∧
    (∀ json : ClipJson F,
      ((normalizeJson canonicalMetaFps s.fps json).arr = none ∨
        (normalizeJson canonicalMetaFps s.fps json).arr = some []) →
      afterLoad fuel canonicalMetaFps now word (.success json) s =
        playNextWordInSentence fuel (advance s)) ∧
    (∀ started, fingerspellStart s.fingerspellingState (some word) = some started →
      afterLoad fuel canonicalMetaFps now word .failure s =
        some ({ s with fingerspellingState := started }, .spelling word) ∧
      ∀ displayedCount,
        afterSpelling fuel displayedCount { s with fingerspellingState := started } =
          playNextWordInSentence fuel
            (advance { s with fingerspellingState := hideFingerspellPopup started })) := by
  refine ⟨rfl, ?_, ?_⟩
  · intro json h
    unfold afterLoad
    rcases h with h | h <;> simp [h]
  · intro started hstart
    refine ⟨?_, ?_⟩
    · simp [afterLoad, FINGERSPELLING_ENABLED, hstart]
    · intro displayedCount
      unfold afterSpelling afterFingerspell fingerspellFinish
      split <;> rfl

theorem startSentencePlayback_keeps_chains (fuel : Nat) (glosses : List String) (loop : Bool)
    (w w1 : World F) (hg : glosses ≠ [])
    (h : startSentencePlayback fuel glosses loop w = some w1) :
    ∃ chain, w1.chains = w.chains ++ [chain] := by
  unfold startSentencePlayback at h
  rw [if_neg (by simpa using hg)] at h
  obtain ⟨r, _, rfl⟩ := Option.map_eq_some'.mp h
  exact ⟨r.2, rfl⟩

/-- C22: a call of `startSentencePlayback` with a gloss list that is not empty adds a new
activation and leaves every activation under way suspended where it was; in the run where a
session over `hat` waits for its clip and a session over `lamp`, `door` is started, `active`
is true before and after the call, both activations are then suspended at a clip request, and
when the request of the old one resolves it is the old activation that advances the new
session and requests the clip of `door`. -/
theorem new_session_leaves_the_old_one_running :
    (∀ (fuel : Nat) (glosses : List String) (loop : Bool) (w w1 : World F), glosses ≠ [] →
      startSentencePlayback fuel glosses loop w = some w1 →
      ∃ chain, w1.chains = w.chains ++ [chain]) ∧
    (run 1 none [.start ["hat"] false] (initialWorld Nat true)).map
        (fun w => (w.player.sentenceMode.active, w.chains, w.requests)) =
      some (true, [.loading "hat"], [(0, "hat")]) ∧
    (run 1 none [.start ["hat"] false, .start ["lamp", "door"] false]
        (initialWorld Nat true)).map
        (fun w => (w.player.sentenceMode.active, w.chains, w.requests)) =
      some (true, [.loading "hat", .loading "lamp"], [(0, "hat"), (0, "lamp")]) ∧
    (run 1 none
        [.start ["hat"] false, .start ["lamp", "door"] false,
         .loaded 0 (.success emptyClip) 5] (initialWorld Nat true)).map
        (fun w => (w.player.sentenceMode.active, w.chains, w.requests)) =
      some (true, [.loading "door", .loading "lamp"],
        [(0, "hat"), (0, "lamp"), (1, "door")]) := by
  refine ⟨fun fuel glosses loop w w1 hg h =>
    startSentencePlayback_keeps_chains fuel glosses loop w w1 hg h, ?_, ?_, ?_⟩ <;> decide

end PlayerBranches

/-! ## The sentence scheduler: a session that nothing interrupts -/

section Session

variable {F : Type}

theorem requestsUpTo_succ (glosses : List String) (k : Nat) :
    requestsUpTo glosses (k + 1) = requestsUpTo glosses k ++ [(k, glosses.getD k "")] := by
  simp [requestsUpTo, List.range_succ]

theorem next_eq (fuel : Nat) (s : Player F) (ha : s.sentenceMode.active = true)
    (hl : s.sentenceMode.loop = false) :
    playNextWordInSentence (fuel + 1) (advance s) =
      if s.sentenceMode.currentIndex + 1 < s.sentenceMode.glosses.length then
        some (advance s,
          .loading (s.sentenceMode.glosses.getD (s.sentenceMode.currentIndex + 1) ""))
      else some (stopSentencePlayback (advance s), .returned) := by
  by_cases h : s.sentenceMode.currentIndex + 1 < s.sentenceMode.glosses.length
  · rw [if_pos h]
    exact playNextWordInSentence_next fuel (advance s) ha h
  · rw [if_neg h]
    exact playNextWordInSentence_no_loop_end fuel (advance s)
      (Or.inr (by show s.sentenceMode.glosses.length ≤ s.sentenceMode.currentIndex + 1; omega))
      hl

theorem next_ok (fuel : Nat) (glosses : List String) (s : Player F)
    (requests : List (Nat × String)) (c : Chain) (hc : c ≠ .returned)
    (h : SessionOk glosses s.sentenceMode c requests) :
    ∃ r, playNextWordInSentence (fuel + 1) (advance s) = some r ∧
      SessionOk glosses r.1.sentenceMode r.2 (logRequest requests r.1 r.2) := by
  obtain ⟨hg, hl, h | h⟩ := h
  · exact absurd h.1 hc
  · obtain ⟨_, ha, hi, hr⟩ := h
    rw [next_eq fuel s ha hl]
    by_cases hlt : s.sentenceMode.currentIndex + 1 < s.sentenceMode.glosses.length
    · rw [if_pos hlt]
      refine ⟨_, rfl, hg, hl, Or.inr ⟨by simp, ha, by rw [← hg]; exact hlt, ?_⟩⟩
      show requests ++ [(s.sentenceMode.currentIndex + 1,
        s.sentenceMode.glosses.getD (s.sentenceMode.currentIndex + 1) "")] = _
      rw [hr, hg]
      exact (requestsUpTo_succ glosses _).symm
    · rw [if_neg hlt]
      refine ⟨_, rfl, hg, hl, Or.inl ⟨rfl, rfl, rfl, ?_⟩⟩
      show requests = _
      rw [hr]
      congr 1
      rw [← hg]; rw [← hg] at hi
      omega

theorem keep_ok (glosses : List String) (s s1 : Player F) (requests : List (Nat × String))
    (c c1 : Chain) (hc : c ≠ .returned) (hc1 : c1 ≠ .returned)
    (hlog : logRequest requests s1 c1 = requests)
    (hs : s1.sentenceMode = s.sentenceMode)
    (h : SessionOk glosses s.sentenceMode c requests) :
    SessionOk glosses s1.sentenceMode c1 (logRequest requests s1 c1) := by
  rw [hlog, hs]
  obtain ⟨hg, hl, h | h⟩ := h
  · exact absurd h.1 hc
  · exact ⟨hg, hl, Or.inr ⟨hc1, h.2⟩⟩

theorem afterWait_ok (fuel : Nat) (glosses : List String) (s : Player F)
    (requests : List (Nat × String)) (c : Chain) (hc : c ≠ .returned)
    (h : SessionOk glosses s.sentenceMode c requests) :
    ∃ r, afterWait (fuel + 1) s = some r ∧
      SessionOk glosses r.1.sentenceMode r.2 (logRequest requests r.1 r.2) := by
  have ha : s.sentenceMode.active = true := by
    obtain ⟨_, _, h | h⟩ := h
    · exact absurd h.1 hc
    · exact h.2.1
  unfold afterWait
  rw [if_pos ha]
  exact next_ok fuel glosses s requests c hc h

theorem checkComplete_ok (fuel totalFrames : Nat) (glosses : List String) (s : Player F)
    (requests : List (Nat × String)) (c : Chain) (hc : c ≠ .returned)
    (h : SessionOk glosses s.sentenceMode c requests) :
    ∃ r, checkComplete (fuel + 1) totalFrames s = some r ∧
      SessionOk glosses r.1.sentenceMode r.2 (logRequest requests r.1 r.2) := by
  unfold checkComplete
  split
  · exact afterWait_ok fuel glosses s requests c hc h
  · exact ⟨_, rfl, keep_ok glosses s s requests c _ hc (by simp) rfl rfl h⟩

theorem afterSpelling_ok (fuel displayedCount : Nat) (glosses : List String) (s : Player F)
    (requests : List (Nat × String)) (c : Chain) (hc : c ≠ .returned)
    (h : SessionOk glosses s.sentenceMode c requests) :
    ∃ r, afterSpelling (fuel + 1) displayedCount s = some r ∧
      SessionOk glosses r.1.sentenceMode r.2 (logRequest requests r.1 r.2) := by
  unfold afterSpelling afterFingerspell
  exact next_ok fuel glosses _ requests c hc h

theorem afterLoad_ok (fuel : Nat) (canonicalMetaFps : Option JSNumber) (now : ℚ)
    (word : String) (result : LoadResult F) (glosses : List String) (s : Player F)
    (requests : List (Nat × String)) (c : Chain) (hc : c ≠ .returned)
    (h : SessionOk glosses s.sentenceMode c requests) :
    ∃ r, afterLoad (fuel + 1) canonicalMetaFps now word result s = some r ∧
      SessionOk glosses r.1.sentenceMode r.2 (logRequest requests r.1 r.2) := by
  unfold afterLoad
  split
  · split
    · exact checkComplete_ok fuel _ glosses _ requests c hc h
    · exact next_ok fuel glosses s requests c hc h
  · split
    · split
      · exact ⟨_, rfl, keep_ok glosses s _ requests c _ hc (by simp) rfl rfl h⟩
      · exact next_ok fuel glosses s requests c hc h
    · exact next_ok fuel glosses s requests c hc h

theorem tick_sentenceMode (t : ℚ) (s : Player F) :
    (tick t s).sentenceMode = s.sentenceMode ∧
      (tick t s).fingerspellingState = s.fingerspellingState := by
  simp only [tick]
  split_ifs <;> exact ⟨rfl, rfl⟩

theorem play_sentenceMode (now : ℚ) (s : Player F) :
    (play now s).sentenceMode = s.sentenceMode := by
  unfold play
  split <;> rfl

theorem stepOnce_sentenceMode (s : Player F) : (stepOnce s).sentenceMode = s.sentenceMode := by
  unfold stepOnce
  split <;> rfl

theorem loadWordFinish_sentenceMode (canonicalMetaFps : Option JSNumber) (now : ℚ)
    (result : LoadResult F) (s : Player F) :
    (loadWordFinish canonicalMetaFps now result s).sentenceMode = s.sentenceMode := by
  unfold loadWordFinish
  split
  · split
    · rw [play_sentenceMode]
    · rfl
  · rfl

theorem single_chain_get (c : Chain) (i : Nat) :
    ([c] : List Chain)[i]? = if i = 0 then some c else none := by
  cases i <;> simp

theorem resume_single (w : World F) (c : Chain) (hw : w.chains = [c]) (r : Player F × Chain) :
    (w.resume 0 r).chains = [r.2] ∧ (w.resume 0 r).player = r.1 ∧
      (w.resume 0 r).requests = logRequest w.requests r.1 r.2 := by
  simp [World.resume, hw]

theorem keep_inv (glosses : List String) (w : World F) (p : Player F)
    (hp : p.sentenceMode = w.player.sentenceMode) (h : SessionInv glosses w) :
    SessionInv glosses { w with player := p } := by
  obtain ⟨c, hc, hok⟩ := h
  exact ⟨c, hc, by show SessionOk glosses p.sentenceMode c w.requests; rw [hp]; exact hok⟩

theorem step_inv (fuel : Nat) (canonicalMetaFps : Option JSNumber) (glosses : List String)
    (w : World F) (event : Event F) (hq : event.isQuiet = true) (h : SessionInv glosses w) :
    ∃ w1, step (fuel + 1) canonicalMetaFps w event = some w1 ∧ SessionInv glosses w1 := by
  obtain ⟨c, hc, hok⟩ := h
  have hsame : ∃ w1, (some w : Option (World F)) = some w1 ∧ SessionInv glosses w1 :=
    ⟨w, rfl, c, hc, hok⟩
  cases event with
  | loaded i result now =>
    simp only [step, hc, single_chain_get]
    by_cases hi : i = 0
    · subst hi
      simp only [if_true]
      cases c with
      | loading word =>
        obtain ⟨r, hr, hrok⟩ := afterLoad_ok fuel canonicalMetaFps now word result glosses
          w.player w.requests _ (by simp) hok
        refine ⟨w.resume 0 r, by simp [hr], r.2, (resume_single w _ hc r).1, ?_⟩
        rw [(resume_single w _ hc r).2.1, (resume_single w _ hc r).2.2]
        exact hrok
      | waiting n => exact hsame
      | spelling word => exact hsame
      | returned => exact hsame
    · simp only [if_neg hi]
      exact hsame
  | frame i =>
    simp only [step, hc, single_chain_get]
    by_cases hi : i = 0
    · subst hi
      simp only [if_true]
      cases c with
      | waiting n =>
        obtain ⟨r, hr, hrok⟩ := checkComplete_ok fuel n glosses
          w.player w.requests _ (by simp) hok
        refine ⟨w.resume 0 r, by simp [hr], r.2, (resume_single w _ hc r).1, ?_⟩
        rw [(resume_single w _ hc r).2.1, (resume_single w _ hc r).2.2]
        exact hrok
      | loading word => exact hsame
      | spelling word => exact hsame
      | returned => exact hsame
    · simp only [if_neg hi]
      exact hsame
  | spelled i displayedCount =>
    simp only [step, hc, single_chain_get]
    by_cases hi : i = 0
    · subst hi
      simp only [if_true]
      cases c with
      | spelling word =>
        obtain ⟨r, hr, hrok⟩ := afterSpelling_ok fuel displayedCount glosses
          w.player w.requests _ (by simp) hok
        refine ⟨w.resume 0 r, by simp [hr], r.2, (resume_single w _ hc r).1, ?_⟩
        rw [(resume_single w _ hc r).2.1, (resume_single w _ hc r).2.2]
        exact hrok
      | loading word => exact hsame
      | waiting n => exact hsame
      | returned => exact hsame
    · simp only [if_neg hi]
      exact hsame
  | tick t => exact ⟨_, rfl, keep_inv glosses w _ (tick_sentenceMode t _).1 ⟨c, hc, hok⟩⟩
  | start glosses loop => cases hq
  | stopSentence => cases hq
  | loadWord => cases hq
  | wordLoaded result now =>
    exact ⟨_, rfl, keep_inv glosses w _ (loadWordFinish_sentenceMode _ _ _ _) ⟨c, hc, hok⟩⟩
  | play now => exact ⟨_, rfl, keep_inv glosses w _ (play_sentenceMode _ _) ⟨c, hc, hok⟩⟩
  | pause => exact ⟨_, rfl, keep_inv glosses w _ rfl ⟨c, hc, hok⟩⟩
  | stop => exact ⟨_, rfl, keep_inv glosses w _ rfl ⟨c, hc, hok⟩⟩
  | stepOnce =>
    exact ⟨_, rfl, keep_inv glosses w _ (stepOnce_sentenceMode _) ⟨c, hc, hok⟩⟩

theorem run_inv (fuel : Nat) (canonicalMetaFps : Option JSNumber) (glosses : List String) :
    ∀ (events : List (Event F)) (w : World F), (∀ e ∈ events, e.isQuiet = true) →
      SessionInv glosses w →
      ∃ w1, run (fuel + 1) canonicalMetaFps events w = some w1 ∧ SessionInv glosses w1
  | [], w, _, h => ⟨w, rfl, h⟩
  | event :: rest, w, hq, h => by
    obtain ⟨w1, hstep, h1⟩ := step_inv fuel canonicalMetaFps glosses w event
      (hq event (List.mem_cons_self _ _)) h
    obtain ⟨w2, hrun, h2⟩ := run_inv fuel canonicalMetaFps glosses rest w1
      (fun e he => hq e (List.mem_cons_of_mem _ he)) h1
    exact ⟨w2, by simp only [run, hstep]; exact hrun, h2⟩

end Session

section SessionProgress

variable {F : Type}

theorem normalizeJson_arr (canonicalMetaFps : Option JSNumber) (fps : ℚ) (json : ClipJson F) :
    (normalizeJson canonicalMetaFps fps json).arr = (normalizeJson none 30 json).arr := by
  cases json <;> rfl

theorem hideFingerspellPopup_idle (state : FingerspellingState)
    (h : state.popupElement = true) :
    (hideFingerspellPopup state).popupElement = true ∧
      (hideFingerspellPopup state).active = false := by
  simp [hideFingerspellPopup, h]

theorem fingerspellStart_popup (state started : FingerspellingState) (word : Option String)
    (h : fingerspellStart state word = some started) :
    started.popupElement = state.popupElement := by
  unfold fingerspellStart at h
  split at h
  · cases h
  · split at h
    · cases h
    · split at h
      · cases h
      · cases h; rfl

theorem advanced_of_next (fuel : Nat) (glosses : List String) (i : Nat) (w : World F)
    (c : Chain) (s : Player F) (hc : w.chains = [c])
    (hs : s.sentenceMode =
      { active := true, glosses := glosses, currentIndex := i, loop := false })
    (hi : i < glosses.length) (hov : OverlayIdle s)
    (hr : w.requests = requestsUpTo glosses (i + 1)) :
    ∃ r, playNextWordInSentence (fuel + 1) (advance s) = some r ∧
      Advanced glosses i (w.resume 0 r) := by
  have ha : s.sentenceMode.active = true := by rw [hs]
  have hl : s.sentenceMode.loop = false := by rw [hs]
  have hci : s.sentenceMode.currentIndex = i := by rw [hs]
  have hg : s.sentenceMode.glosses = glosses := by rw [hs]
  rw [next_eq fuel s ha hl, hci, hg]
  by_cases hlt : i + 1 < glosses.length
  · rw [if_pos hlt]
    refine ⟨_, rfl, Or.inl ⟨hlt, hlt, ?_, hov, ?_, ?_⟩⟩
    · exact (resume_single w c hc _).1
    · show (advance s).sentenceMode = _
      simp [advance, hs]
    · rw [(resume_single w c hc _).2.2]
      show w.requests ++ [((advance s).sentenceMode.currentIndex, glosses.getD (i + 1) "")] = _
      rw [hr, requestsUpTo_succ glosses (i + 1)]
      simp [advance, hci]
  · rw [if_neg hlt]
    have hlen : i + 1 = glosses.length := by omega
    refine ⟨_, rfl, Or.inr ⟨hlen, ?_, rfl, rfl, ?_⟩⟩
    · exact (resume_single w c hc _).1
    · rw [(resume_single w c hc _).2.2]
      show w.requests = _
      rw [hr, hlen]

theorem advanced_congr (glosses : List String) (i : Nat) (w : World F) (p : Player F)
    (hm : p.sentenceMode = w.player.sentenceMode)
    (hf : p.fingerspellingState = w.player.fingerspellingState)
    (h : Advanced glosses i w) : Advanced glosses i { w with player := p } := by
  rcases h with ⟨hlt, hi, hc, hov, hs, hr⟩ | ⟨hlen, hc, ha, hci, hr⟩
  · refine Or.inl ⟨hlt, hi, hc, ?_, ?_, hr⟩
    · unfold OverlayIdle at hov ⊢
      show p.fingerspellingState.popupElement = true ∧ p.fingerspellingState.active = false
      rw [hf]; exact hov
    · show p.sentenceMode = _
      rw [hm]; exact hs
  · refine Or.inr ⟨hlen, hc, ?_, ?_, hr⟩
    · show p.sentenceMode.active = false
      rw [hm]; exact ha
    · show p.sentenceMode.currentIndex = 0
      rw [hm]; exact hci

theorem advanced_chain (glosses : List String) (i : Nat) (w : World F)
    (h : Advanced glosses i w) :
    ∃ c, w.chains = [c] ∧ (∀ n, c ≠ .waiting n) ∧ (∀ word, c ≠ .spelling word) := by
  rcases h with ⟨_, _, hc, _⟩ | ⟨_, hc, _⟩
  · exact ⟨_, hc, by simp, by simp⟩
  · exact ⟨_, hc, by simp, by simp⟩

theorem step_loaded_requested (fuel : Nat) (canonicalMetaFps : Option JSNumber)
    (glosses : List String) (i : Nat) (result : LoadResult F) (w : World F)
    (h : Requested glosses i w) :
    ∃ w1, step (fuel + 1) canonicalMetaFps w (.loaded 0 result 1) = some w1 ∧
      (Advanced glosses i w1 ∨ Playing glosses i (clipLength result) false w1 ∨
        Spelling glosses i w1) := by
  obtain ⟨hi, hc, hov, hs, hr⟩ := h
  have hstep : step (fuel + 1) canonicalMetaFps w (.loaded 0 result 1) =
      (afterLoad (fuel + 1) canonicalMetaFps 1 (glosses.getD i "") result w.player).map
        (w.resume 0) := by
    simp [step, hc]
  rw [hstep]
  have hadv : ∀ s : Player F, s.sentenceMode = w.player.sentenceMode →
      s.fingerspellingState = w.player.fingerspellingState →
      ∃ w1, (playNextWordInSentence (fuel + 1) (advance s)).map (w.resume 0) = some w1 ∧
        Advanced glosses i w1 := by
    intro s hm hf
    obtain ⟨r, hr1, hr2⟩ := advanced_of_next fuel glosses i w _ s hc (hm.trans hs) hi
      (by unfold OverlayIdle at hov ⊢; rw [hf]; exact hov) hr
    exact ⟨_, by rw [hr1]; rfl, hr2⟩
  cases result with
  | failure =>
    unfold afterLoad
    simp only [FINGERSPELLING_ENABLED, if_true]
    cases hstart : fingerspellStart w.player.fingerspellingState (some (glosses.getD i "")) with
    | none =>
      obtain ⟨w1, h1, h2⟩ := hadv w.player rfl rfl
      exact ⟨w1, h1, Or.inl h2⟩
    | some started =>
      refine ⟨_, rfl, Or.inr (Or.inr ⟨hi, ?_, ?_, hs, ?_⟩)⟩
      · exact (resume_single w _ hc _).1
      · show started.popupElement = true
        rw [fingerspellStart_popup _ _ _ hstart]; exact hov.1
      · rw [(resume_single w _ hc _).2.2]
        exact hr
  | success json =>
    unfold afterLoad
    simp only
    rw [normalizeJson_arr]
    cases harr : (normalizeJson none 30 json).arr with
    | none =>
      obtain ⟨w1, h1, h2⟩ := hadv w.player rfl rfl
      exact ⟨w1, h1, Or.inl h2⟩
    | some items =>
      cases items with
      | nil =>
        obtain ⟨w1, h1, h2⟩ := hadv w.player rfl rfl
        exact ⟨w1, h1, Or.inl h2⟩
      | cons frame more =>
        simp only
        unfold checkComplete
        split
        · unfold afterWait
          rw [if_pos (by show w.player.sentenceMode.active = true; rw [hs])]
          obtain ⟨w1, h1, h2⟩ := hadv
            { w.player with
              frames := some (frame :: more),
              fps := (normalizeJson canonicalMetaFps w.player.fps json).localFps,
              frameIndex := 0, pausedAt := 0, playing := true, startTime := 1, raf := true }
            rfl rfl
          exact ⟨w1, h1, Or.inl h2⟩
        · refine ⟨_, rfl, Or.inr (Or.inl ⟨hi, ?_, hov, hs, ?_, ?_⟩)⟩
          · rw [(resume_single w _ hc _).1]
            simp [clipLength, harr]
          · rw [(resume_single w _ hc _).2.2]
            exact hr
          · simp only [Bool.false_eq_true, if_false]
            refine ⟨rfl, rfl, ?_, ?_, ?_⟩
            · simp [clipLength, harr, frameCount, World.resume]
            · simp [clipLength, harr]
            · exact (normalizeJson_range canonicalMetaFps w.player.fps json).1

theorem clip_end_reached (n : Nat) (fps : ℚ) (hfps : 1 ≤ fps) :
    (((n : Int) - 1 : Int) : ℚ) ≤
      toDouble (toDouble (2 ^ (Nat.log 2 n + 12) - 1) / toDouble (1000 / fps)) := by
  have hpos : (0 : ℚ) < fps := by linarith
  have hp11 : (0 : ℚ) < 2 ^ (Nat.log 2 n + 11) := by positivity
  have hp1 : (0 : ℚ) < 2 ^ (Nat.log 2 n + 1) := by positivity
  have h1 : (2 : ℚ) ^ (Nat.log 2 n + 11) ≤ 2 ^ (Nat.log 2 n + 12) - 1 := by
    have : (1 : ℚ) ≤ 2 ^ (Nat.log 2 n + 11) := one_le_pow₀ (by norm_num)
    have e : (2 : ℚ) ^ (Nat.log 2 n + 12) = 2 ^ (Nat.log 2 n + 11) * 2 :=
      pow_succ 2 (Nat.log 2 n + 11)
    linarith
  have hel : (2 : ℚ) ^ (Nat.log 2 n + 11) ≤ toDouble (2 ^ (Nat.log 2 n + 12) - 1) := by
    have := toDouble_mono _ _ hp11 h1
    rwa [toDouble_two_pow] at this
  have hq : (0 : ℚ) < 1000 / fps := by positivity
  have hms0 : 0 < toDouble (1000 / fps) := toDouble_pos _ hq
  have hms : toDouble (1000 / fps) ≤ 1000 := by
    have := toDouble_mono _ _ hq (div_le_self (by norm_num) hfps)
    rwa [toDouble_thousand] at this
  have hquot : (2 : ℚ) ^ (Nat.log 2 n + 1) ≤
      toDouble (2 ^ (Nat.log 2 n + 12) - 1) / toDouble (1000 / fps) := by
    rw [le_div_iff₀ hms0]
    have e : (2 : ℚ) ^ (Nat.log 2 n + 11) = 2 ^ (Nat.log 2 n + 1) * 1024 := by
      ring
    nlinarith
  have hres := toDouble_mono _ _ hp1 hquot
  rw [toDouble_two_pow] at hres
  have hn : n < 2 ^ (Nat.log 2 n + 1) := Nat.lt_pow_succ_log_self (by norm_num) n
  have hn2 : (n : ℚ) < 2 ^ (Nat.log 2 n + 1) := by exact_mod_cast hn
  push_cast
  linarith

theorem step_tick_session (fuel : Nat) (canonicalMetaFps : Option JSNumber)
    (glosses : List String) (i n : Nat) (w : World F)
    (h : Advanced glosses i w ∨ Playing glosses i n false w ∨ Spelling glosses i w) :
    ∃ w1, step (fuel + 1) canonicalMetaFps w (.tick (2 ^ (Nat.log 2 n + 12))) = some w1 ∧
      (Advanced glosses i w1 ∨ Playing glosses i n true w1 ∨ Spelling glosses i w1) := by
  refine ⟨_, rfl, ?_⟩
  have hkeep := tick_sentenceMode (2 ^ (Nat.log 2 n + 12)) w.player
  rcases h with h | h | h
  · exact Or.inl (advanced_congr glosses i w _ hkeep.1 hkeep.2 h)
  · obtain ⟨hi, hc, hov, hs, hr, hp⟩ := h
    simp only [Bool.false_eq_true, if_false] at hp
    obtain ⟨hplay, hstart, hcount, hn, hfps⟩ := hp
    refine Or.inr (Or.inl ⟨hi, hc, ?_, ?_, hr, ?_⟩)
    · unfold OverlayIdle at hov ⊢
      show (tick _ w.player).fingerspellingState.popupElement = true ∧
        (tick _ w.player).fingerspellingState.active = false
      rw [hkeep.2]; exact hov
    · show (tick _ w.player).sentenceMode = _
      rw [hkeep.1]; exact hs
    · simp only [if_true]
      show (tick _ w.player).frameIndex ≥ (n : Int) - 1
      rw [tick_frameIndex _ _ hplay (by rw [hcount]; exact hn) (by rw [hstart]; norm_num),
        hstart]
      exact Int.le_floor.mpr (clip_end_reached n w.player.fps hfps)
  · obtain ⟨hi, hc, hpop, hs, hr⟩ := h
    refine Or.inr (Or.inr ⟨hi, hc, ?_, ?_, hr⟩)
    · show (tick _ w.player).fingerspellingState.popupElement = true
      rw [hkeep.2]; exact hpop
    · show (tick _ w.player).sentenceMode = _
      rw [hkeep.1]; exact hs

theorem step_frame_session (fuel : Nat) (canonicalMetaFps : Option JSNumber)
    (glosses : List String) (i n : Nat) (w : World F)
    (h : Advanced glosses i w ∨ Playing glosses i n true w ∨ Spelling glosses i w) :
    ∃ w1, step (fuel + 1) canonicalMetaFps w (.frame 0) = some w1 ∧
      (Advanced glosses i w1 ∨ Spelling glosses i w1) := by
  rcases h with h | h | h
  · obtain ⟨c, hc, hw, _⟩ := advanced_chain glosses i w h
    refine ⟨w, ?_, Or.inl h⟩
    cases c with
    | waiting n => exact absurd rfl (hw n)
    | loading word => simp [step, hc]
    | spelling word => simp [step, hc]
    | returned => simp [step, hc]
  · obtain ⟨hi, hc, hov, hs, hr, hp⟩ := h
    simp only [if_true] at hp
    have hstep : step (fuel + 1) canonicalMetaFps w (.frame 0) =
        (checkComplete (fuel + 1) n w.player).map (w.resume 0) := by
      simp [step, hc]
    have hover : waitIsOver w.player n = true := by
      simp [waitIsOver, hs, hov.2, hp]
    rw [hstep]
    unfold checkComplete afterWait
    rw [if_pos hover, if_pos (by rw [hs])]
    obtain ⟨r, hr1, hr2⟩ := advanced_of_next fuel glosses i w _ w.player hc hs hi hov hr
    exact ⟨_, by rw [hr1]; rfl, Or.inl hr2⟩
  · have hc := h.2.1
    exact ⟨w, by simp [step, hc], Or.inr h⟩

theorem step_spelled_session (fuel : Nat) (canonicalMetaFps : Option JSNumber)
    (glosses : List String) (i displayedCount : Nat) (w : World F)
    (h : Advanced glosses i w ∨ Spelling glosses i w) :
    ∃ w1, step (fuel + 1) canonicalMetaFps w (.spelled 0 displayedCount) = some w1 ∧
      Advanced glosses i w1 := by
  rcases h with h | h
  · obtain ⟨c, hc, _, hw⟩ := advanced_chain glosses i w h
    refine ⟨w, ?_, h⟩
    cases c with
    | spelling word => exact absurd rfl (hw word)
    | loading word => simp [step, hc]
    | waiting n => simp [step, hc]
    | returned => simp [step, hc]
  · obtain ⟨hi, hc, hpop, hs, hr⟩ := h
    have hstep : step (fuel + 1) canonicalMetaFps w (.spelled 0 displayedCount) =
        (afterSpelling (fuel + 1) displayedCount w.player).map (w.resume 0) := by
      simp [step, hc]
    rw [hstep]
    unfold afterSpelling afterFingerspell
    have hfin : (fingerspellFinish displayedCount w.player.fingerspellingState).2 =
        hideFingerspellPopup w.player.fingerspellingState := by
      unfold fingerspellFinish
      split <;> rfl
    obtain ⟨r, hr1, hr2⟩ := advanced_of_next fuel glosses i w _
      { w.player with fingerspellingState :=
          (fingerspellFinish displayedCount w.player.fingerspellingState).2 } hc hs hi
      (by
        unfold OverlayIdle
        show (fingerspellFinish displayedCount w.player.fingerspellingState).2.popupElement
            = true ∧
          (fingerspellFinish displayedCount w.player.fingerspellingState).2.active = false
        rw [hfin]
        exact hideFingerspellPopup_idle _ hpop) hr
    exact ⟨_, by rw [hr1]; rfl, hr2⟩

theorem run_wordEvents (fuel : Nat) (canonicalMetaFps : Option JSNumber)
    (glosses : List String) (i displayedCount : Nat) (result : LoadResult F) (w : World F)
    (h : Requested glosses i w) :
    ∃ w1, run (fuel + 1) canonicalMetaFps (wordEvents result displayedCount) w = some w1 ∧
      Advanced glosses i w1 := by
  obtain ⟨w1, h1, p1⟩ := step_loaded_requested fuel canonicalMetaFps glosses i result w h
  obtain ⟨w2, h2, p2⟩ := step_tick_session fuel canonicalMetaFps glosses i (clipLength result)
    w1 p1
  obtain ⟨w3, h3, p3⟩ := step_frame_session fuel canonicalMetaFps glosses i
    (clipLength result) w2 p2
  obtain ⟨w4, h4, p4⟩ := step_spelled_session fuel canonicalMetaFps glosses i displayedCount
    w3 p3
  exact ⟨w4, by simp only [wordEvents, run, h1, h2, h3, h4], p4⟩

theorem run_sessionEvents (fuel : Nat) (canonicalMetaFps : Option JSNumber)
    (glosses : List String) (outcomes : Nat → LoadResult F) (displayed : Nat → Nat) :
    ∀ (count i : Nat) (w : World F), i + (count + 1) = glosses.length →
      Requested glosses i w →
      ∃ w1, run (fuel + 1) canonicalMetaFps
          (sessionEvents outcomes displayed i (count + 1)) w = some w1 ∧
        Finished glosses w1
  | 0, i, w, hlen, h => by
    obtain ⟨w1, h1, p1⟩ := run_wordEvents fuel canonicalMetaFps glosses i (displayed i)
      (outcomes i) w h
    refine ⟨w1, ?_, ?_⟩
    · simp only [sessionEvents, List.append_nil]
      exact h1
    · rcases p1 with ⟨hlt, _⟩ | ⟨_, hfin⟩
      · omega
      · exact hfin
  | count + 1, i, w, hlen, h => by
    obtain ⟨w1, h1, p1⟩ := run_wordEvents fuel canonicalMetaFps glosses i (displayed i)
      (outcomes i) w h
    rcases p1 with ⟨_, hreq⟩ | ⟨heq, _⟩
    · obtain ⟨w2, h2, p2⟩ := run_sessionEvents fuel canonicalMetaFps glosses outcomes
        displayed count (i + 1) w1 (by omega) hreq
      refine ⟨w2, ?_, p2⟩
      rw [sessionEvents, run_append, h1]
      exact h2
    · omega

theorem start_requested (fuel : Nat) (glosses : List String) (s0 : Player F)
    (hne : glosses ≠ []) :
    ∃ w, startSentencePlayback (fuel + 1) glosses false
        { player := s0, chains := [], requests := [] } = some w ∧
      SessionInv glosses w ∧ (OverlayIdle s0 → Requested glosses 0 w) := by
  have hlen : 0 < glosses.length := List.length_pos.mpr hne
  unfold startSentencePlayback
  rw [if_neg (by omega)]
  rw [playNextWordInSentence_next fuel _ rfl hlen]
  refine ⟨_, rfl, ⟨_, rfl, rfl, rfl, Or.inr ⟨by simp, rfl, hlen, rfl⟩⟩, ?_⟩
  intro hov
  exact ⟨hlen, rfl, hov, rfl, rfl⟩

theorem sessionEvents_quiet (outcomes : Nat → LoadResult F) (displayed : Nat → Nat) :
    ∀ (count i : Nat), ∀ e ∈ sessionEvents outcomes displayed i count, e.isQuiet = true
  | 0, _, e, he => by simp [sessionEvents] at he
  | count + 1, i, e, he => by
    simp only [sessionEvents, List.mem_append] at he
    rcases he with he | he
    · simp only [wordEvents, List.mem_cons, List.mem_singleton, List.not_mem_nil,
        or_false] at he
      rcases he with rfl | rfl | rfl | rfl <;> rfl
    · exact sessionEvents_quiet outcomes displayed count (i + 1) e he

/-- C20: for every gloss list that is not empty, started with looping off on a player with no
session under way. Over every sequence of events without a start or stop of sentence playback
(clip requests resolving with any result, fingerspelling resolving with any result, animation
frames, the player buttons) the run goes through, and the clips requested so far are the
glosses at positions 0, 1, 2, ... in that order, each once, `currentIndex` being the position
of the last one requested while the session is active; when the activation has returned,
every gloss has been requested and the scheduler is idle (`active = false`,
`currentIndex = 0`). And with the overlay initialised and idle at the start, for every
outcome of each clip request and each fingerspelling, the events of an uninterrupted session
lead to that end. -/
theorem session_requests_every_gloss_in_order (fuel : Nat)
    (canonicalMetaFps : Option JSNumber) (s0 : Player F) (glosses : List String)
    (hne : glosses ≠ []) :
    (∀ events : List (Event F), (∀ e ∈ events, e.isQuiet = true) →
      ∃ w, run (fuel + 1) canonicalMetaFps (.start glosses false :: events)
          { player := s0, chains := [], requests := [] } = some w ∧
        SessionInv glosses w) ∧
    (OverlayIdle s0 → ∀ (outcomes : Nat → LoadResult F) (displayed : Nat → Nat),
      (∀ e ∈ sessionEvents outcomes displayed 0 glosses.length, e.isQuiet = true) ∧
      ∃ w, run (fuel + 1) canonicalMetaFps
          (.start glosses false :: sessionEvents outcomes displayed 0 glosses.length)
          { player := s0, chains := [], requests := [] } = some w ∧
        Finished glosses w) := by
  obtain ⟨w0, hstart, hinv, hreq⟩ := start_requested fuel glosses s0 hne
  refine ⟨?_, ?_⟩
  · intro events hq
    obtain ⟨w, hrun, hw⟩ := run_inv fuel canonicalMetaFps glosses events w0 hq hinv
    exact ⟨w, by simp only [run, step, hstart]; exact hrun, hw⟩
  · intro hov outcomes displayed
    refine ⟨sessionEvents_quiet outcomes displayed _ 0, ?_⟩
    have hlen : 0 < glosses.length := List.length_pos.mpr hne
    obtain ⟨count, hcount⟩ : ∃ count, glosses.length = count + 1 :=
      ⟨glosses.length - 1, by omega⟩
    obtain ⟨w, hrun, hw⟩ := run_sessionEvents fuel canonicalMetaFps glosses outcomes
      displayed count 0 w0 (by omega) (hreq hov)
    refine ⟨w, ?_, hw⟩
    simp only [run, step, hstart]
    rw [hcount]
    exact hrun

theorem session_requests_every_gloss_in_order_witness :
    ["hat", "lamp"] ≠ [] ∧
    ∃ w, run 1 none
        (.start ["hat", "lamp"] false ::
          sessionEvents (fun _ => LoadResult.success shortClip) (fun _ => 0) 0 2)
        (initialWorld Nat true) = some w ∧
      Finished ["hat", "lamp"] w :=
  ⟨by decide,
   ((session_requests_every_gloss_in_order 0 none (initialPlayer Nat true) ["hat", "lamp"]
      (by decide)).2 ⟨rfl, rfl⟩ (fun _ => LoadResult.success shortClip) (fun _ => 0)).2⟩

end SessionProgress

end ISL
